import Mathlib

/-!
# Ray tracer with three work distributors (RayTracerAss1, Stage1 / Stage2 / Stage3)

A shallow embedding of `Raytrace.cpp` of the three stages.

* The ray-tracing kernel (`calculateReflection`, `calculateRefraction`, `traceRay`) is the same
  text in the three stages.  It is embedded over an arbitrary linearly ordered field `α`
  (exact arithmetic; `sqrtf` is a parameter), so that it can be run over `ℚ` and reasoned about
  over `ℝ`.  The collaborators declared in the absent headers (`objectIntersection`,
  `calculateIntersectionResponse`, `applyLighting`, the constants `MAX_RAYS_CAST` and
  `DEFAULT_REFRACTIVE_INDEX`) are parameters.
* The three `render` functions are embedded as the list of buffer writes they perform, each write
  recorded with the buffer index and the pixel coordinates `(x, y)` it was computed for.
  Pixel index arithmetic is done in `ℤ` (C `int`, division truncating toward zero); the shared
  cursor `lineCount` of Stage2 / Stage3 is an `unsigned int`, embedded as a natural number
  modulo `2 ^ 32`.  The block count `times` of Stage3 is embedded with the conversions of the
  C expression between `int`, `unsigned int` and `float`.
-/

namespace RayTracer

/-! ## Math primitives and scene records -/

/-- Modelled from the spec: the `Vector` value type of the absent `Primitives.h`
("three floating-point components; supports add/sub/scale/dot"). -/
structure Vector (α : Type) where
  x : α
  y : α
  z : α
deriving DecidableEq

/-- Modelled from the spec: component-wise `operator+` of `Vector` (absent `Primitives.h`). -/
instance {α : Type} [Add α] : Add (Vector α) where
  add a b := ⟨a.x + b.x, a.y + b.y, a.z + b.z⟩

/-- Modelled from the spec: component-wise `operator-` of `Vector` (absent `Primitives.h`). -/
instance {α : Type} [Sub α] : Sub (Vector α) where
  sub a b := ⟨a.x - b.x, a.y - b.y, a.z - b.z⟩

/-- Modelled from the spec: negation of a `Vector`, used to state the reflection law. -/
instance {α : Type} [Neg α] : Neg (Vector α) where
  neg a := ⟨-a.x, -a.y, -a.z⟩

/-- Modelled from the spec: `operator*` of a `Vector` by a scalar (absent `Primitives.h`). -/
instance {α : Type} [Mul α] : HMul (Vector α) α (Vector α) where
  hMul a s := ⟨a.x * s, a.y * s, a.z * s⟩

/-- Modelled from the spec: the dot product of two `Vector`s (absent `Primitives.h`). -/
def Vector.dot {α : Type} [Add α] [Mul α] (a b : Vector α) : α :=
  a.x * b.x + a.y * b.y + a.z * b.z

/-- Modelled from the spec: the `Colour` value type of the absent `Primitives.h`
("three floating-point channels; supports add and scalar-multiply"). -/
structure Colour (α : Type) where
  red : α
  green : α
  blue : α
deriving DecidableEq

/-- Modelled from the spec: channel-wise `operator+` / `operator+=` of `Colour`. -/
instance {α : Type} [Add α] : Add (Colour α) where
  add a b := ⟨a.red + b.red, a.green + b.green, a.blue + b.blue⟩

/-- Modelled from the spec: `operator*` of a scalar by a `Colour`. -/
instance {α : Type} [Mul α] : HMul α (Colour α) (Colour α) where
  hMul s c := ⟨s * c.red, s * c.green, s * c.blue⟩

/-- Modelled from the spec: a `Ray` is an origin and a direction (absent `Primitives.h`);
`Raytrace.cpp` builds it as `{ origin, direction }` and reads the field `dir`. -/
structure Ray (α : Type) where
  start : Vector α
  dir : Vector α
deriving DecidableEq

/-- Modelled from the spec: the fields of `Material` that `Raytrace.cpp` reads
(`reflection`, `refraction`, `density`, `diffuse`); the type is declared in an absent header. -/
structure Material (α : Type) where
  reflection : α
  refraction : α
  density : α
  diffuse : Colour α
deriving DecidableEq

/-- Modelled from the spec: the fields of `Intersection` that `Raytrace.cpp` reads
(`pos`, `normal`, `viewProjection`, `insideObject`, `material`); declared in an absent header.
The `material` pointer is embedded as the material it points to. -/
structure Intersection (α : Type) where
  pos : Vector α
  normal : Vector α
  viewProjection : α
  insideObject : Bool
  material : Material α
deriving DecidableEq

/-- Modelled from the spec: the part of `Scene` that `traceRay` reads, the material table indexed
by id and the id of the sky material (absent `Scene.h`).  The table is a total function of the
index: an index outside the table is not modelled. -/
structure Scene (α : Type) where
  materialContainer : Nat → Material α
  skyboxMaterialId : Nat

/-- The collaborators of the kernel that live in absent headers, taken as parameters.
`objectIntersection` returns its `bool` together with the updated `Intersection` record (the C
function writes through the pointer), `calculateIntersectionResponse` returns the updated
record. -/
structure Kernel (α : Type) where
  MAX_RAYS_CAST : Nat
  DEFAULT_REFRACTIVE_INDEX : α
  sqrtf : α → α
  objectIntersection : Scene α → Ray α → Intersection α → Bool × Intersection α
  calculateIntersectionResponse : Scene α → Ray α → Intersection α → Intersection α
  applyLighting : Scene α → Ray α → Intersection α → Colour α

/-! ## The ray-tracing kernel (`Raytrace.cpp`, lines 19-113, identical in the three stages) -/

section KernelDefs

variable {α : Type} [LinearOrderedField α]

/-- `calculateReflection`: reflect the view ray around the normal of the object. -/
def calculateReflection (viewRay : Ray α) (intersect : Intersection α) : Ray α :=
  { start := intersect.pos,
    dir := viewRay.dir - (intersect.normal * intersect.viewProjection * (2 : α)) }

/-- `calculateRefraction`: refract the ray through an object.  Returns the new ray together with
the value stored through `currentRefractiveIndex`. -/
def calculateRefraction (sqrtf : α → α) (DEFAULT_REFRACTIVE_INDEX : α)
    (viewRay : Ray α) (intersect : Intersection α) (currentRefractiveIndex : α) : Ray α × α :=
  let oldRefractiveIndex := currentRefractiveIndex
  let newRefractiveIndex :=
    if intersect.insideObject then DEFAULT_REFRACTIVE_INDEX else intersect.material.density
  let refractiveRatio := oldRefractiveIndex / newRefractiveIndex
  let fCosThetaI := |intersect.viewProjection|
  let fCosThetaT :=
    if fCosThetaI ≥ 1 then 1
    else
      let fSinThetaT := refractiveRatio * sqrtf (1 - fCosThetaI * fCosThetaI)
      if fSinThetaT * fSinThetaT ≥ 1 then 0 else sqrtf (1 - fSinThetaT * fSinThetaT)
  ({ start := intersect.pos,
     dir := (viewRay.dir + intersect.normal * fCosThetaI) * refractiveRatio
              - (intersect.normal * fCosThetaT) },
   newRefractiveIndex)

/-- The local variables of `traceRay` that live across the iterations of its loop. -/
structure TraceState (α : Type) where
  output : Colour α
  currentRefractiveIndex : α
  coef : α
  intersect : Intersection α
  viewRay : Ray α

/-- How one iteration of the loop of `traceRay` ends: it falls through to the next iteration,
leaves the loop with `break`, or leaves the function with `return output`. -/
inductive Flow (α : Type) where
  | next (s : TraceState α)
  | brk (s : TraceState α)
  | ret (output : Colour α)

/-- The body of the `for` loop of `traceRay` (lines 76-101). -/
def traceBody (K : Kernel α) (scene : Scene α) (s : TraceState α) : Flow α :=
  let r := K.objectIntersection scene s.viewRay s.intersect
  if r.1 = false then Flow.brk { s with intersect := r.2 }
  else
    let intersect := K.calculateIntersectionResponse scene s.viewRay r.2
    let output :=
      if intersect.insideObject = false then
        s.output + s.coef * K.applyLighting scene s.viewRay intersect
      else s.output
    if intersect.material.reflection ≠ 0 then
      Flow.next
        { output := output,
          currentRefractiveIndex := s.currentRefractiveIndex,
          coef := s.coef * intersect.material.reflection,
          intersect := intersect,
          viewRay := calculateReflection s.viewRay intersect }
    else if intersect.material.refraction ≠ 0 then
      let r := calculateRefraction K.sqrtf K.DEFAULT_REFRACTIVE_INDEX s.viewRay intersect
        s.currentRefractiveIndex
      Flow.next
        { output := output,
          currentRefractiveIndex := r.2,
          coef := s.coef * intersect.material.refraction,
          intersect := intersect,
          viewRay := r.1 }
    else Flow.ret output

/-- The `for (level = 0; level < MAX_RAYS_CAST; ++level)` loop of `traceRay`, with `n` the number
of iterations that remain.  `Sum.inl` is the state with which the loop is left (by `break` or
because the level limit is reached), `Sum.inr` the colour of a `return` inside the loop. -/
def traceLoop (K : Kernel α) (scene : Scene α) : Nat → TraceState α → TraceState α ⊕ Colour α
  | 0, s => Sum.inl s
  | n + 1, s =>
    match traceBody K scene s with
    | Flow.next s' => traceLoop K scene n s'
    | Flow.brk s' => Sum.inl s'
    | Flow.ret output => Sum.inr output

/-- The locals of `traceRay` before its loop.  `intersect0` stands for the uninitialised
`Intersection intersect;`. -/
def traceInit (K : Kernel α) (intersect0 : Intersection α) (viewRay : Ray α) : TraceState α :=
  { output := ⟨0, 0, 0⟩,
    currentRefractiveIndex := K.DEFAULT_REFRACTIVE_INDEX,
    coef := 1,
    intersect := intersect0,
    viewRay := viewRay }

/-- `traceRay`: follow a single ray until its final destination (or the maximum number of steps
is reached). -/
def traceRay (K : Kernel α) (intersect0 : Intersection α) (scene : Scene α) (viewRay : Ray α) :
    Colour α :=
  match traceLoop K scene K.MAX_RAYS_CAST (traceInit K intersect0 viewRay) with
  | Sum.inr output => output
  | Sum.inl s =>
    if s.coef > 0 then
      s.output + s.coef * (scene.materialContainer scene.skyboxMaterialId).diffuse
    else s.output

end KernelDefs

/-! ## Buffer writes and loops shared by the three `render` functions -/

/-- One execution of `*out++ = output.convertToPixel(...)`: the offset of `out` from `buffer`
and the pixel coordinates `(x, y)` of the loop variables for which the colour was computed. -/
structure Write where
  index : Int
  x : Int
  y : Int
deriving DecidableEq, Repr

/-- The values of the loop variable of `for (int v = lo; ...; v += 1)` over `n` iterations. -/
def forRangeGo (lo : Int) : Nat → List Int
  | 0 => []
  | n + 1 => lo :: forRangeGo (lo + 1) n

/-- The values taken by `v` in `for (int v = lo; v < hi; v += 1)`. -/
def forRange (lo hi : Int) : List Int :=
  forRangeGo lo (hi - lo).toNat

/-- The inner `for (x ...)` loop of `render`, over the values `xs` of `x` on row `y`, starting
with the pointer `out`: the writes made and the final value of `out` (one `*out++` per pixel). -/
def rowLoop (y : Int) : List Int → Int → List Write × Int
  | [], out => ([], out)
  | x :: xs, out =>
    let r := rowLoop y xs (out + 1)
    (⟨out, x, y⟩ :: r.1, r.2)

/-- The C conversion of an `int` to `unsigned int` (32 bits). -/
def toUnsigned (v : Int) : Nat :=
  (v % 4294967296).toNat

/-- The C conversion of an integer value to `int` (32 bits, two's complement): the value is
reduced modulo `2 ^ 32` into `[-2 ^ 31, 2 ^ 31)`.  It also stands for the result of an `int`
operation whose exact value is its argument. -/
def toInt (v : Int) : Int :=
  (v + 2147483648) % 4294967296 - 2147483648

/-- The number of low bits that a `float` drops from the integer `n`: the number of halvings
that bring `n` below `2 ^ 24`, the size of the significand.  `fuel` bounds the halvings; 8 are
enough for a 32-bit value. -/
def significandShift : Nat → Nat → Nat
  | 0, _ => 0
  | fuel + 1, n => if n < 16777216 then 0 else significandShift fuel (n / 2) + 1

/-- The conversion `(float)` of an `unsigned int` value: the nearest number with a 24-bit
significand, ties going to the even significand.  The result is an integer. -/
def toFloat (n : Nat) : Nat :=
  let s := significandShift 8 n
  let q := n / 2 ^ s
  let r := n % 2 ^ s
  if 2 * r < 2 ^ s then q * 2 ^ s
  else if 2 * r > 2 ^ s then (q + 1) * 2 ^ s
  else if q % 2 = 0 then q * 2 ^ s
  else (q + 1) * 2 ^ s

/-- The conversion `(int)` of a `float` whose value is the integer `f ≥ 0`.  A value that does
not fit in an `int` has no result in C; the conversion instruction of the x86 returns
`-2 ^ 31` for it. -/
def floatToInt (f : Nat) : Int :=
  if f < 2147483648 then (f : Int) else -2147483648

/-- `InterlockedIncrement(lineCount)`: the new value of the 32-bit cursor, which is also the
value returned. -/
def interlockedIncrement (lineCount : Nat) : Nat :=
  (lineCount + 1) % 4294967296

/-- The state shared by the workers of Stage2 / Stage3 during one render: the cursor `lineCount`,
the workers that have left `render`, the writes made to `buffer` so far, and the history of the
values returned by `InterlockedIncrement` with the worker that received each.  The atomic step
of the embedding is one claim of a worker; the writes that the worker makes for the claimed
value are recorded with the claim, since the indices it writes depend on the claimed value
only, not on what the other workers do in the meantime. -/
structure Pool where
  lineCount : Nat
  exited : List Nat
  written : List Write
  claims : List (Nat × Nat)
deriving DecidableEq

/-- The pool as `main` sets it up: `unsigned int lineCount = -1;`, every worker running. -/
def Pool.init : Pool :=
  { lineCount := 4294967295, exited := [], written := [], claims := [] }

/-- Every one of the `threads` workers has left `render`. -/
def Pool.allExited (threads : Nat) (p : Pool) : Prop :=
  ∀ t, t < threads → t ∈ p.exited

instance (threads : Nat) (p : Pool) : Decidable (p.allExited threads) :=
  inferInstanceAs (Decidable (∀ t, t < threads → t ∈ p.exited))

/-! ## Stage1: static partition (`Stage1/Raytrace.cpp`, `render`, lines 144-243) -/

namespace Stage1

/-- The offset added to `out` before the loops (line 153). -/
def outStart (width height threadsId threads : Int) : Int :=
  height.tdiv threads * threadsId * width + width.tdiv threads * threadsId

/-- Line 156. -/
def widthStart (width threadsId threads : Int) : Int :=
  width.tdiv threads * threadsId - width.tdiv 2

/-- Line 159. -/
def heightStart (height threadsId threads : Int) : Int :=
  height.tdiv threads * threadsId - height.tdiv 2

/-- Lines 166-178, `widthEnd`. -/
def widthEnd (width threadsId threads : Int) : Int :=
  if threadsId = threads - 1 then width.tdiv 2
  else width.tdiv threads * (threadsId + 1) - width.tdiv 2

/-- Lines 166-178, `heightEnd` (with the `heightEnd++` of the branch of a non-last thread). -/
def heightEnd (height threadsId threads : Int) : Int :=
  if threadsId = threads - 1 then height.tdiv 2
  else height.tdiv threads * (threadsId + 1) - height.tdiv 2 + 1

/-- The value of `startPoint` on row `y` (lines 193-197). -/
def startPoint (width height threadsId threads y : Int) : Int :=
  if y = heightStart height threadsId threads then widthStart width threadsId threads
  else (-width).tdiv 2

/-- The value of `endPoint` on row `y` (lines 194-201): it is only clipped to `widthEnd` in the
`else` branch of the test `y == heightStart`. -/
def endPoint (width height threadsId threads y : Int) : Int :=
  if y = heightStart height threadsId threads then width.tdiv 2
  else if y = heightEnd height threadsId threads - 1 then widthEnd width threadsId threads
  else width.tdiv 2

/-- The outer `for (y ...)` loop of `render` over the rows `ys`, starting with the pointer
`out`: the writes made and the final value of `out`. -/
def imageLoop (width height threadsId threads : Int) : List Int → Int → List Write × Int
  | [], out => ([], out)
  | y :: ys, out =>
    let r := rowLoop y
      (forRange (startPoint width height threadsId threads y)
        (endPoint width height threadsId threads y)) out
    let r' := imageLoop width height threadsId threads ys r.2
    (r.1 ++ r'.1, r'.2)

/-- The run of `render` by thread `threadsId` of `threads`: the writes it makes, in order, and the
final value of `out`. -/
def renderRun (width height threadsId threads : Int) : List Write × Int :=
  imageLoop width height threadsId threads
    (forRange (heightStart height threadsId threads) (heightEnd height threadsId threads))
    (outStart width height threadsId threads)

/-- The writes of `render` run by thread `threadsId` of `threads`. -/
def render (width height threadsId threads : Int) : List Write :=
  (renderRun width height threadsId threads).1

/-- The writes of all the threads that `main` starts (`threadData[i].id = i` for
`i = 0 .. threads - 1`), thread after thread. -/
def renderAll (width height : Int) (threads : Nat) : List Write :=
  (List.range threads).flatMap (fun k => render width height (k : Int) (threads : Int))

/-- The buffer index at which thread `k` of `threads` starts on a `w` by `h` image (line 153),
with the end of the image as the boundary after the last thread. -/
def boundary (w h threads k : Nat) : Nat :=
  if k < threads then h / threads * k * w + w / threads * k else w * h

end Stage1

/-! ## Stage2: row claiming (`Stage2/Raytrace.cpp`, `render`, lines 116-179) -/

namespace Stage2

/-- The body of the `while` loop for the claimed row `iy` (lines 130-173). -/
def renderRow (width height : Int) (iy : Nat) : List Write :=
  (rowLoop ((iy : Int) - height.tdiv 2) (forRange ((-width).tdiv 2) (width.tdiv 2))
    (width * (iy : Int))).1

/-- One turn of worker `t`: the evaluation of the `while` condition
`(iy = InterlockedIncrement(lineCount)) < height` (an unsigned comparison) and, when it holds,
the body of the loop; when it fails the worker leaves `render`.  A worker that has left, or an
id that is not a worker, does nothing. -/
def step (width height : Int) (threads : Nat) (p : Pool) (t : Nat) : Pool :=
  if t < threads ∧ t ∉ p.exited then
    let iy := interlockedIncrement p.lineCount
    if iy < toUnsigned height then
      { lineCount := iy, exited := p.exited,
        written := p.written ++ renderRow width height iy,
        claims := p.claims ++ [(t, iy)] }
    else
      { lineCount := iy, exited := t :: p.exited,
        written := p.written,
        claims := p.claims ++ [(t, iy)] }
  else p

/-- The pool after the workers have taken their turns in the order `schedule`. -/
def run (width height : Int) (threads : Nat) (schedule : List Nat) : Pool :=
  schedule.foldl (step width height threads) Pool.init

/-- The invariant of the pool of Stage2 after `k` claims: the values handed out are
`0, ..., k - 1` in this order, each handed to a worker, the cursor holds the last of them, the
rows written are the claimed values below `height`, and the workers that have left are distinct workers, one for
each claimed value that is not below `height`. -/
def Invariant (width height : Int) (threads : Nat) (p : Pool) : Prop :=
  ∃ k : Nat,
    p.claims.map Prod.snd = List.range k ∧
    (∀ c ∈ p.claims, c.1 < threads) ∧
    p.lineCount = (4294967295 + k) % 4294967296 ∧
    p.written = (List.range (min k (toUnsigned height))).flatMap (renderRow width height) ∧
    p.exited.Nodup ∧
    (∀ t ∈ p.exited, t < threads) ∧
    p.exited.length + min k (toUnsigned height) = k

end Stage2

/-! ## Stage3: block claiming (`Stage3/Raytrace.cpp`, `render`, lines 117-286)

`blockSize` is an `unsigned int`, so the expressions in which it occurs are evaluated by the C
program in 32-bit unsigned arithmetic and stored back into `int` variables.  The block count of
lines 128-138 is embedded with these conversions and with its round trip through `float`.  The
body of the loop is computed in `ℤ`; the two agree there as long as every intermediate value is
below `2 ^ 31`. -/

namespace Stage3

/-- Lines 128-130: `tmpW` (and, with `height` for `width`, lines 132-134: `tmpH`).  The `int`
extent is converted to `unsigned int` for the modulo, and `tmpW += blockSize` stores the
unsigned sum back into an `int`.  The modulo is the total one of `ℤ`; `prologue` is the same
computation with the divisions by zero checked. -/
def tmpPad (extent blockSize : Int) : Int :=
  if ((toUnsigned extent : Nat) : Int).tmod blockSize ≠ 0 then toInt (0 + blockSize) else 0

/-- Lines 137-138: the number of blocks `times`.  The sums and their product are `int`
operations; `blockSize * blockSize` is an `unsigned int` product; the division converts the
`int` product to `unsigned int`; the quotient goes through `float` and back to `int`.  The
division is the total one of `ℤ`; `prologue` is the same computation with the divisions by
zero checked. -/
def times (width height blockSize : Int) : Int :=
  floatToInt (toFloat
    ((((toUnsigned (toInt (toInt (width + tmpPad width blockSize)
          * toInt (height + tmpPad height blockSize))) : Nat) : Int).tdiv
      ((toUnsigned (blockSize * blockSize) : Nat) : Int)).toNat))

/-- The loops of lines 200-242 over the rows `ys`: on every row the inner loop over
`x = startWidth - width / 2 .. endWidth - width / 2 - 1`, then
`out += width - (endWidth - startWidth)`. -/
def blockRows (width startWidth endWidth : Int) : List Int → Int → List Write × Int
  | [], out => ([], out)
  | y :: ys, out =>
    let r := rowLoop y (forRange (startWidth - width.tdiv 2) (endWidth - width.tdiv 2)) out
    let r' := blockRows width startWidth endWidth ys (r.2 + (width - (endWidth - startWidth)))
    (r.1 ++ r'.1, r'.2)

/-- The variables that the `do ... while (overLap)` loop reads and updates. -/
structure BlockState where
  startWidth : Int
  endWidth : Int
  startHeight : Int
  endHeight : Int
  out : Int
deriving DecidableEq

/-- The `do ... while (overLap)` loop of lines 198-273, run for at most `fuel` iterations.
The result is the writes made and whether the loop was left by the `return` of line 255
(`true`) or by falling out of the loop or its `break` (`false`); `none` when `fuel` iterations
do not finish the loop. -/
def doWhile (width height blockSize : Int) (overLap : Bool) :
    Nat → BlockState → Option (List Write × Bool)
  | 0, _ => none
  | fuel + 1, s =>
    let r := blockRows width s.startWidth s.endWidth
      (forRange (s.startHeight - height.tdiv 2) (s.endHeight - height.tdiv 2)) s.out
    if overLap then
      if s.startWidth = 0 then some (r.1, false)
      else
        let startHeight := s.startHeight + blockSize
        if startHeight > height then some (r.1, true)
        else
          let endHeight := if startHeight + blockSize > height then height
            else startHeight + blockSize
          let endWidth := s.startWidth + blockSize - width
          let startWidth := 0
          let out := startHeight * width
          (doWhile width height blockSize overLap fuel
            { startWidth := startWidth, endWidth := endWidth, startHeight := startHeight,
              endHeight := endHeight, out := out }).map
            (fun q => (r.1 ++ q.1, q.2))
    else some (r.1, false)

/-- The number of iterations granted to the `do ... while` loop: after one pass through the
wraparound update `startWidth` is `0`, so the second iteration leaves the loop. -/
def doWhileFuel : Nat := 2

/-- The body of the `while` loop of `render` for the claimed block `i` (lines 157-284): the
writes made and whether the worker leaves `render` from inside the body (the `return` of the
guard of line 185 or the `return` of line 255).  `overLap` is `false` when the body starts (it
is initialised to `false` and reset by line 284). -/
def renderBlock (width height blockSize : Int) (i : Int) : Option (List Write × Bool) :=
  let tmp := blockSize * i
  let startWidth := tmp - width * tmp.tdiv width
  let endWidth0 := startWidth + blockSize
  let overLap := decide (endWidth0 > width)
  let endWidth := if endWidth0 > width then width else endWidth0
  let startHeight := tmp.tdiv width * blockSize
  let endHeight := if startHeight + blockSize > height then height else startHeight + blockSize
  if endHeight * endWidth > width * height then some ([], true)
  else
    let out := tmp - width * tmp.tdiv width + blockSize * width * tmp.tdiv width
    doWhile width height blockSize overLap doWhileFuel
      { startWidth := startWidth, endWidth := endWidth, startHeight := startHeight,
        endHeight := endHeight, out := out }

/-- One turn of worker `t`: the evaluation of the `while` condition
`(ii = InterlockedIncrement(lineCount)) < times` (an unsigned comparison) and, when it holds,
the body of the loop for block `ii`; the worker leaves `render` when the condition fails or the
body returns.  A worker whose `do ... while` loop does not finish stays inside `render` for
ever and is embedded as a worker that makes no further progress. -/
def step (width height blockSize : Int) (threads : Nat) (p : Pool) (t : Nat) : Pool :=
  if t < threads ∧ t ∉ p.exited then
    let ii := interlockedIncrement p.lineCount
    if ii < toUnsigned (times width height blockSize) then
      match renderBlock width height blockSize (ii : Int) with
      | some (ws, returned) =>
        { lineCount := ii, exited := if returned then t :: p.exited else p.exited,
          written := p.written ++ ws,
          claims := p.claims ++ [(t, ii)] }
      | none =>
        { lineCount := ii, exited := p.exited, written := p.written,
          claims := p.claims ++ [(t, ii)] }
    else
      { lineCount := ii, exited := t :: p.exited,
        written := p.written,
        claims := p.claims ++ [(t, ii)] }
  else p

/-- The pool after the workers have taken their turns in the order `schedule`. -/
def run (width height blockSize : Int) (threads : Nat) (schedule : List Nat) : Pool :=
  schedule.foldl (step width height blockSize threads) Pool.init

/-- The writes of the body of the `while` loop for block `i` (none when the loop does not
finish). -/
def blockWrites (width height blockSize : Int) (i : Int) : List Write :=
  match renderBlock width height blockSize i with
  | some (ws, _) => ws
  | none => []

/-- The invariant of the pool of Stage3 after `k` claims: the values handed out are
`0, ..., k - 1` in this order, each handed to a worker, the cursor holds the last of them, the
blocks rendered are the claimed values below `times`, the workers that have left are distinct
workers, every claimed value that is not below `times` made a worker leave, and when a worker
has left, some claimed value was not below `times` or its block ended with a `return`. -/
def Invariant (width height blockSize : Int) (threads : Nat) (p : Pool) : Prop :=
  ∃ k : Nat,
    p.claims.map Prod.snd = List.range k ∧
    (∀ c ∈ p.claims, c.1 < threads) ∧
    p.lineCount = (4294967295 + k) % 4294967296 ∧
    p.written = (List.range (min k (toUnsigned (times width height blockSize)))).flatMap
      (fun (i : Nat) => blockWrites width height blockSize (i : Int)) ∧
    p.exited.Nodup ∧
    (∀ t ∈ p.exited, t < threads) ∧
    k ≤ min k (toUnsigned (times width height blockSize)) + p.exited.length ∧
    (p.exited ≠ [] → ∃ c : Nat, c < k ∧
      (toUnsigned (times width height blockSize) ≤ c ∨
        ∃ ws, renderBlock width height blockSize (c : Int) = some (ws, true)))

end Stage3

/-! ## The image in reading order -/

/-- The write that stores at buffer index `j` the pixel of column `j % width` and row
`j / width` of the image, whose loop coordinates are `x = j % width - width / 2` and
`y = j / width - height / 2`. -/
def pixelAt (width height : Int) (j : Int) : Write :=
  { index := j,
    x := j % width - width.tdiv 2,
    y := j / width - height.tdiv 2 }

/-- The pixels of the rows `r0, ..., r1 - 1` and columns `c0, ..., c1 - 1` of the image, row
after row. -/
def rect (width height r0 r1 c0 c1 : Int) : List Write :=
  (forRange r0 r1).flatMap
    (fun r => (forRange (r * width + c0) (r * width + c1)).map (pixelAt width height))

/-- Every pixel of a `w` by `h` image written once, in reading order: the buffer indices
`0, 1, ..., w * h - 1`, each holding the pixel of its column and row. -/
def fullImage (w h : Nat) : List Write :=
  (List.range (w * h)).map (fun (j : Nat) => pixelAt (w : Int) (h : Int) (j : Int))

/-! ## Concrete inputs used to run the kernel -/

/-- A material over `ℚ` with the given reflection and refraction coefficients. -/
def sampleMaterial (reflection refraction : ℚ) : Material ℚ :=
  { reflection := reflection, refraction := refraction, density := 1,
    diffuse := ⟨1 / 2, 1 / 4, 1⟩ }

/-- An intersection record over `ℚ` on the plane `z = 0`, hit at normal incidence. -/
def sampleIntersection (m : Material ℚ) : Intersection ℚ :=
  { pos := ⟨0, 0, 0⟩, normal := ⟨0, 0, 1⟩, viewProjection := -1, insideObject := false,
    material := m }

/-- A ray over `ℚ` travelling down the `z` axis. -/
def sampleRay : Ray ℚ :=
  { start := ⟨0, 0, 1⟩, dir := ⟨0, 0, -1⟩ }

/-- A scene over `ℚ` whose every material, the sky included, is `sampleMaterial 0 0`. -/
def sampleScene : Scene ℚ :=
  { materialContainer := fun _ => sampleMaterial 0 0, skyboxMaterialId := 0 }

/-- Collaborators over `ℚ` for an empty scene: no ray hits anything. -/
def emptyKernel : Kernel ℚ :=
  { MAX_RAYS_CAST := 10,
    DEFAULT_REFRACTIVE_INDEX := 1,
    sqrtf := fun v => v,
    objectIntersection := fun _ _ i => (false, i),
    calculateIntersectionResponse := fun _ _ i => i,
    applyLighting := fun _ _ _ => ⟨0, 0, 0⟩ }

/-- Collaborators over `ℚ` for a scene in which every ray hits, from outside, a surface whose
material has the given reflection and refraction coefficients, lit with the colour
`(1, 1, 1)`. -/
def surfaceKernel (reflection refraction : ℚ) : Kernel ℚ :=
  { MAX_RAYS_CAST := 3,
    DEFAULT_REFRACTIVE_INDEX := 1,
    sqrtf := fun v => v,
    objectIntersection := fun _ _ i => (true, i),
    calculateIntersectionResponse := fun _ _ _ =>
      sampleIntersection (sampleMaterial reflection refraction),
    applyLighting := fun _ _ _ => ⟨1, 1, 1⟩ }

/-- Collaborators over `ℚ` for a mirror above an opaque floor: a ray that travels down the `z`
axis hits the mirror (reflection coefficient `1 / 2`), every other ray hits the opaque floor;
both are lit with the colour `(1, 1, 1)`. -/
def mirrorFloorKernel : Kernel ℚ :=
  { MAX_RAYS_CAST := 3,
    DEFAULT_REFRACTIVE_INDEX := 1,
    sqrtf := fun v => v,
    objectIntersection := fun _ _ i => (true, i),
    calculateIntersectionResponse := fun _ viewRay _ =>
      if viewRay.dir.z < 0 then sampleIntersection (sampleMaterial (1 / 2) 0)
      else sampleIntersection (sampleMaterial 0 0),
    applyLighting := fun _ _ _ => ⟨1, 1, 1⟩ }

/-! ## The square roots of `calculateRefraction` -/

/-- The arguments on which `calculateRefraction` calls `sqrtf` (lines 45-56), in the order of
the calls, for the view projection and the refractive ratio of the call: none when
`fCosThetaI >= 1`, otherwise `1 - fCosThetaI * fCosThetaI` and then, unless
`fSinThetaT * fSinThetaT >= 1`, `1 - fSinThetaT * fSinThetaT`. -/
def sqrtfArguments {α : Type} [LinearOrderedField α] (sqrtf : α → α)
    (viewProjection refractiveRatio : α) : List α :=
  let fCosThetaI := |viewProjection|
  if fCosThetaI ≥ 1 then []
  else
    let fSinThetaT := refractiveRatio * sqrtf (1 - fCosThetaI * fCosThetaI)
    if fSinThetaT * fSinThetaT ≥ 1 then [1 - fCosThetaI * fCosThetaI]
    else [1 - fCosThetaI * fCosThetaI, 1 - fSinThetaT * fSinThetaT]

/-! ## The kernel, iteration by iteration -/

/-- The locals of `traceRay` when iteration `j` of its loop starts from the state `s`, if the
loop gets that far (`none` when an earlier iteration leaves the loop or the function).  It is
driven by the same loop body as `traceLoop`. -/
def stateAt {α : Type} [LinearOrderedField α] (K : Kernel α) (scene : Scene α) :
    Nat → TraceState α → Option (TraceState α)
  | 0, s => some s
  | j + 1, s =>
    match traceBody K scene s with
    | Flow.next s' => stateAt K scene j s'
    | Flow.brk _ => none
    | Flow.ret _ => none

/-! ## Stage3: `main` and the start of `render`, with the faults of integer division -/

namespace Stage3

/-- The target of the pointer `outputFilename` of `main`: the buffer that `sprintf` fills, or
an element of `argv`, which is the null pointer (`none`) when `-output` is the last
argument. -/
inductive OutputName where
  | buffer : OutputName
  | argument : Option String → OutputName
deriving DecidableEq

/-- The locals of `main` that the command line sets (lines 317-330).  `threads` and `blockSize`
are `unsigned int`; `inputFilename` is a pointer, `none` being the null pointer. -/
structure Options where
  width : Int
  height : Int
  samples : Int
  times : Int
  threads : Nat
  colourise : Bool
  blockSize : Nat
  inputFilename : Option String
  outputFilename : OutputName
deriving DecidableEq

/-- The initial values of the locals of `main` (lines 317-330). -/
def Options.initial : Options :=
  { width := 1024, height := 1024, samples := 1, times := 1, threads := 1, colourise := false,
    blockSize := 64, inputFilename := some "../Scenes/bunny500.txt",
    outputFilename := OutputName.buffer }

/-- The loop of `main` over the command line arguments `argv[1], argv[2], ...` (lines 333-378).
`atoi` is the C library function, a parameter.  The operand of an option is `argv[++i]`; when
the option is the last argument this is `argv[argc]`, the null pointer: `atoi` of it stops the
program (`none`), while `-input` and `-output` store it and the loop ends.  The last branch
stores every other argument as the input file name: `tmp.find("Sences") || tmp.find("sences")`
is non-zero for every string, for the two searches cannot both succeed at position 0. -/
def parseArgs (atoi : String → Int) : List String → Options → Option Options
  | [], o => some o
  | arg :: rest, o =>
    if arg = "-size" then
      match rest with
      | a :: b :: rest' => parseArgs atoi rest' { o with width := atoi a, height := atoi b }
      | _ => none
    else if arg = "-samples" then
      match rest with
      | a :: rest' => parseArgs atoi rest' { o with samples := atoi a }
      | [] => none
    else if arg = "-input" then
      match rest with
      | a :: rest' => parseArgs atoi rest' { o with inputFilename := some a }
      | [] => some { o with inputFilename := none }
    else if arg = "-output" then
      match rest with
      | a :: rest' =>
        parseArgs atoi rest' { o with outputFilename := OutputName.argument (some a) }
      | [] => some { o with outputFilename := OutputName.argument none }
    else if arg = "-runs" then
      match rest with
      | a :: rest' => parseArgs atoi rest' { o with times := atoi a }
      | [] => none
    else if arg = "-threads" then
      match rest with
      | a :: rest' => parseArgs atoi rest' { o with threads := toUnsigned (atoi a) }
      | [] => none
    else if arg = "-colourise" then
      parseArgs atoi rest { o with colourise := true }
    else if arg = "-blockSize" then
      match rest with
      | a :: rest' => parseArgs atoi rest' { o with blockSize := toUnsigned (atoi a) }
      | [] => none
    else
      parseArgs atoi rest { o with inputFilename := some arg }

/-- The C library function `strrchr`: the part of the string that starts at the last occurrence
of `c`, or `none` (the null pointer) when `c` does not occur. -/
def strrchr : List Char → Char → Option (List Char)
  | [], _ => none
  | x :: xs, c =>
    match strrchr xs c with
    | some r => some r
    | none => if x = c then some (x :: xs) else none

/-- The number of decimal digits of `n`, for `n` of at most `fuel + 1` digits. -/
def decimalDigits : Nat → Nat → Nat
  | 0, _ => 1
  | fuel + 1, n => if n < 10 then 1 else decimalDigits fuel (n / 10) + 1

/-- The number of characters that `%d` prints for the `int` value `v`. -/
def printedLength (v : Int) : Nat :=
  if v < 0 then 1 + decimalDigits 9 v.natAbs else decimalDigits 9 v.natAbs

/-- The number of characters that the `sprintf` of line 381 writes before the terminating
zero, for the format `"../Outputs/Thread_%d_%s_%dx%dx%d_%s.bmp"` (27 characters outside the
conversions).  `threads`, an `unsigned int`, is printed by `%d` as an `int`. -/
def sprintfLength (threads : Nat) (inputName : List Char) (width height samples : Int)
    (programName : List Char) : Nat :=
  27 + printedLength (toInt threads) + inputName.length + printedLength width
    + printedLength height + printedLength samples + programName.length

/-- The `ThreadData` that `main` fills in for a worker (lines 401-409), without the scene and
the pointer to the shared cursor. -/
structure ThreadData where
  id : Nat
  width : Int
  height : Int
  sample : Int
  threads : Nat
  blockSize : Nat
  colorRise : Bool
deriving DecidableEq

/-- The part of `main` from the command line to the creation of the threads (lines 333-412),
for the program name `argv[0]` and the arguments `argv[1], ...`: the `ThreadData` of the
workers for which `CreateThread` is called, or `none` when `main` does not get that far.
`main` stops before when the command line stops it (`parseArgs`); when `sprintf` (line 381)
is handed `strrchr(...) + 1` for a null input name, an input name without `'/'` or a program
name without a backslash, or writes beyond the 1000 characters of its buffer; when the scene
file cannot be read (`init`, the scene loader, a parameter) and `main` returns `-1`; and when
`new` cannot allocate the arrays of `threads` elements (`allocate`, a parameter).  Nothing
between the command line and `CreateThread` looks at `blockSize`. -/
def spawned (atoi : String → Int) (init : String → Bool) (allocate : Nat → Bool)
    (programName : String) (arguments : List String) : Option (List ThreadData) :=
  match parseArgs atoi arguments Options.initial with
  | none => none
  | some o =>
    match o.inputFilename with
    | none => none
    | some inputFilename =>
      match strrchr inputFilename.data '/', strrchr programName.data '\\' with
      | some inputTail, some programTail =>
        if sprintfLength o.threads inputTail.tail o.width o.height o.samples programTail.tail
            ≥ 1000 then none
        else if init inputFilename = false then none
        else if allocate o.threads = false then none
        else
          some ((List.range o.threads).map (fun i =>
            { id := i, width := o.width, height := o.height, sample := o.samples,
              threads := o.threads, blockSize := o.blockSize, colorRise := o.colourise }))
      | _, _ => none

/-- The C operator `%` on `unsigned int` operands: `none` is the division by zero, which stops
the thread that evaluates it. -/
def umod (a b : Int) : Option Int :=
  if b = 0 then none else some (a.tmod b)

/-- The C operator `/` on `unsigned int` operands: `none` is the division by zero. -/
def udiv (a b : Int) : Option Int :=
  if b = 0 then none else some (a.tdiv b)

/-- Lines 128-138 of `render`, the statements before the first claim, with the divisions
checked: the value of `times`, or `none` when a division by zero stops the worker (at line 128
when `blockSize` is `0`, at line 137 when the `unsigned int` product `blockSize * blockSize`
is `0`). -/
def prologue (width height blockSize : Int) : Option Int :=
  match umod ((toUnsigned width : Nat) : Int) blockSize with
  | none => none
  | some mw =>
    let tmpW := if mw ≠ 0 then toInt (0 + blockSize) else 0
    match umod ((toUnsigned height : Nat) : Int) blockSize with
    | none => none
    | some mh =>
      let tmpH := if mh ≠ 0 then toInt (0 + blockSize) else 0
      match udiv ((toUnsigned (toInt (toInt (width + tmpW) * toInt (height + tmpH))) : Nat) : Int)
          ((toUnsigned (blockSize * blockSize) : Nat) : Int) with
      | none => none
      | some quotient => some (floatToInt (toFloat quotient.toNat))

/-- A turn of worker `t` with the divisions of the start of `render` checked: `none` when the
worker has been stopped by a division by zero before its first claim, so that it neither claims
nor writes. -/
def checkedStep (width height blockSize : Int) (threads : Nat) (p : Pool) (t : Nat) :
    Option Pool :=
  match prologue width height blockSize with
  | none => none
  | some _ => some (step width height blockSize threads p t)

/-- The value of `startWidth` after line 165 for the claimed block `i`. -/
def startWidthAt (width blockSize i : Int) : Int :=
  blockSize * i - width * (blockSize * i).tdiv width

/-- The value of `endWidth` at the guard of line 184 (lines 166-175). -/
def endWidthAt (width blockSize i : Int) : Int :=
  if startWidthAt width blockSize i + blockSize > width then width
  else startWidthAt width blockSize i + blockSize

/-- The value of `startHeight` after line 178. -/
def startHeightAt (width blockSize i : Int) : Int :=
  (blockSize * i).tdiv width * blockSize

/-- The value of `endHeight` at the guard of line 184 (lines 179-181). -/
def endHeightAt (width height blockSize i : Int) : Int :=
  if startHeightAt width blockSize i + blockSize > height then height
  else startHeightAt width blockSize i + blockSize

end Stage3

/-! # Theorems -/

/-! ## The kernel -/

theorem vector_ext_iff {α : Type} (a b : Vector α) :
    a = b ↔ a.x = b.x ∧ a.y = b.y ∧ a.z = b.z := by
  cases a; cases b; simp

theorem colour_ext_iff {α : Type} (a b : Colour α) :
    a = b ↔ a.red = b.red ∧ a.green = b.green ∧ a.blue = b.blue := by
  cases a; cases b; simp

section KernelLemmas

variable {α : Type} [LinearOrderedField α]

@[simp] theorem vector_add_x (a b : Vector α) : (a + b).x = a.x + b.x := rfl
@[simp] theorem vector_add_y (a b : Vector α) : (a + b).y = a.y + b.y := rfl
@[simp] theorem vector_add_z (a b : Vector α) : (a + b).z = a.z + b.z := rfl
@[simp] theorem vector_sub_x (a b : Vector α) : (a - b).x = a.x - b.x := rfl
@[simp] theorem vector_sub_y (a b : Vector α) : (a - b).y = a.y - b.y := rfl
@[simp] theorem vector_sub_z (a b : Vector α) : (a - b).z = a.z - b.z := rfl
@[simp] theorem vector_neg_x (a : Vector α) : (-a).x = -a.x := rfl
@[simp] theorem vector_neg_y (a : Vector α) : (-a).y = -a.y := rfl
@[simp] theorem vector_neg_z (a : Vector α) : (-a).z = -a.z := rfl
@[simp] theorem vector_scale_x (a : Vector α) (s : α) : (a * s).x = a.x * s := rfl
@[simp] theorem vector_scale_y (a : Vector α) (s : α) : (a * s).y = a.y * s := rfl
@[simp] theorem vector_scale_z (a : Vector α) (s : α) : (a * s).z = a.z * s := rfl

@[simp] theorem colour_add_red (a b : Colour α) : (a + b).red = a.red + b.red := rfl
@[simp] theorem colour_add_green (a b : Colour α) : (a + b).green = a.green + b.green := rfl
@[simp] theorem colour_add_blue (a b : Colour α) : (a + b).blue = a.blue + b.blue := rfl
@[simp] theorem colour_scale_red (s : α) (a : Colour α) : (s * a).red = s * a.red := rfl
@[simp] theorem colour_scale_green (s : α) (a : Colour α) : (s * a).green = s * a.green := rfl
@[simp] theorem colour_scale_blue (s : α) (a : Colour α) : (s * a).blue = s * a.blue := rfl

/-- Black plus one times a colour is that colour. -/
theorem colour_black_add_one_mul (c : Colour α) : (⟨0, 0, 0⟩ : Colour α) + (1 : α) * c = c := by
  rw [colour_ext_iff]
  simp

/-- The loop of `traceRay` is left at once, in the initial state up to the intersection record,
when the first query of the intersection oracle reports no hit. -/
theorem traceLoop_no_hit (K : Kernel α) (scene : Scene α) (s : TraceState α) (n : Nat)
    (h : (K.objectIntersection scene s.viewRay s.intersect).1 = false) :
    ∃ i, traceLoop K scene n s = Sum.inl { s with intersect := i } := by
  cases n with
  | zero => exact ⟨s.intersect, rfl⟩
  | succ n =>
    refine ⟨(K.objectIntersection scene s.viewRay s.intersect).2, ?_⟩
    simp [traceLoop, traceBody, h]

/-- C7 (environment fallback): when the first query of the intersection oracle reports no hit,
`traceRay` returns exactly the diffuse colour of the sky material
`scene.materialContainer[scene.skyboxMaterialId]`, whatever the scene, the ray, the
collaborators and the level limit. -/
theorem traceRay_no_hit (K : Kernel α) (intersect0 : Intersection α) (scene : Scene α)
    (viewRay : Ray α)
    (h : (K.objectIntersection scene viewRay intersect0).1 = false) :
    traceRay K intersect0 scene viewRay
      = (scene.materialContainer scene.skyboxMaterialId).diffuse := by
  obtain ⟨i, hi⟩ := traceLoop_no_hit K scene (traceInit K intersect0 viewRay) K.MAX_RAYS_CAST h
  unfold traceRay
  rw [hi]
  simp only [traceInit]
  rw [if_pos zero_lt_one]
  exact colour_black_add_one_mul _

/-- C8 (reflection law): `calculateReflection` returns the ray that starts at the hit position
with direction `d - n * viewProjection * 2`; so for a unit normal `n`, an incoming direction
`d = -n` and `viewProjection = d . n`, the view projection is `-1` and the outgoing direction is
exactly `-d`. -/
theorem calculateReflection_normal_incidence (viewRay : Ray α) (intersect : Intersection α) :
    (calculateReflection viewRay intersect).start = intersect.pos ∧
    (calculateReflection viewRay intersect).dir
      = viewRay.dir - intersect.normal * intersect.viewProjection * (2 : α) ∧
    (calculateReflection viewRay intersect).dir.x
      = viewRay.dir.x - 2 * intersect.viewProjection * intersect.normal.x ∧
    (calculateReflection viewRay intersect).dir.y
      = viewRay.dir.y - 2 * intersect.viewProjection * intersect.normal.y ∧
    (calculateReflection viewRay intersect).dir.z
      = viewRay.dir.z - 2 * intersect.viewProjection * intersect.normal.z ∧
    (Vector.dot intersect.normal intersect.normal = 1 →
      viewRay.dir = -intersect.normal →
      intersect.viewProjection = Vector.dot viewRay.dir intersect.normal →
      intersect.viewProjection = -1 ∧
      (calculateReflection viewRay intersect).dir = -viewRay.dir) := by
  refine ⟨rfl, rfl, ?_, ?_, ?_, ?_⟩
  · simp only [calculateReflection, vector_sub_x, vector_scale_x]
    ring
  · simp only [calculateReflection, vector_sub_y, vector_scale_y]
    ring
  · simp only [calculateReflection, vector_sub_z, vector_scale_z]
    ring
  intro hn hd hvp
  have hvp1 : intersect.viewProjection = -1 := by
    rw [hvp, hd, ← hn]
    simp only [Vector.dot, vector_neg_x, vector_neg_y, vector_neg_z]
    ring
  refine ⟨hvp1, ?_⟩
  rw [vector_ext_iff]
  simp only [calculateReflection, hvp1, hd, vector_sub_x, vector_sub_y, vector_sub_z,
    vector_scale_x, vector_scale_y, vector_scale_z, vector_neg_x, vector_neg_y, vector_neg_z]
  refine ⟨by ring, by ring, by ring⟩

/-- The witness of C7: the empty scene over `ℚ`. -/
theorem traceRay_no_hit_witness :
    (emptyKernel.objectIntersection sampleScene sampleRay
        (sampleIntersection (sampleMaterial 0 0))).1 = false ∧
    traceRay emptyKernel (sampleIntersection (sampleMaterial 0 0)) sampleScene sampleRay
      = ⟨1 / 2, 1 / 4, 1⟩ :=
  ⟨rfl, traceRay_no_hit emptyKernel (sampleIntersection (sampleMaterial 0 0)) sampleScene
    sampleRay rfl⟩

/-- The witness of C8: the ray travelling down the `z` axis onto the plane `z = 0`. -/
theorem calculateReflection_normal_incidence_witness :
    (sampleIntersection (sampleMaterial 1 0)).viewProjection = -1 ∧
    (calculateReflection sampleRay (sampleIntersection (sampleMaterial 1 0))).dir
      = -sampleRay.dir :=
  (calculateReflection_normal_incidence sampleRay
      (sampleIntersection (sampleMaterial 1 0))).2.2.2.2.2
    (by norm_num [Vector.dot, sampleIntersection])
    (by rw [vector_ext_iff]; norm_num [sampleRay, sampleIntersection])
    (by norm_num [Vector.dot, sampleIntersection, sampleRay])

end KernelLemmas

/-! ### Refraction over the reals -/

/-- The transmitted cosine computed by `calculateRefraction` over `ℝ` (with `Real.sqrt` for
`sqrtf`) needs no case distinction on the sine: `Real.sqrt` is `0` on negative numbers. -/
theorem cosThetaT_eq (c ρ : ℝ) :
    (if c ≥ 1 then (1 : ℝ)
      else if ρ * Real.sqrt (1 - c * c) * (ρ * Real.sqrt (1 - c * c)) ≥ 1 then 0
        else Real.sqrt (1 - ρ * Real.sqrt (1 - c * c) * (ρ * Real.sqrt (1 - c * c))))
      = if c ≥ 1 then (1 : ℝ)
        else Real.sqrt (1 - ρ * Real.sqrt (1 - c * c) * (ρ * Real.sqrt (1 - c * c))) := by
  by_cases hc : c ≥ 1
  · simp [hc]
  · simp only [hc, if_false]
    split_ifs with h
    · exact (Real.sqrt_eq_zero_of_nonpos (by linarith)).symm
    · rfl

/-- The transmitted cosine as a function of the refractive ratio is continuous. -/
theorem continuous_cosThetaT (c : ℝ) :
    Continuous (fun ρ : ℝ => if c ≥ 1 then (1 : ℝ)
        else Real.sqrt (1 - ρ * Real.sqrt (1 - c * c) * (ρ * Real.sqrt (1 - c * c)))) := by
  by_cases hc : c ≥ 1
  · simp only [hc, if_true]
    exact continuous_const
  · simp only [hc, if_false]
    fun_prop

/-- At ratio `1` the transmitted cosine is the incident cosine. -/
theorem cosThetaT_one (c : ℝ) (h0 : 0 ≤ c) (h1 : c ≤ 1) :
    (if c ≥ 1 then (1 : ℝ)
      else Real.sqrt (1 - 1 * Real.sqrt (1 - c * c) * (1 * Real.sqrt (1 - c * c)))) = c := by
  by_cases hc : c ≥ 1
  · simp only [hc, if_true]
    linarith
  · simp only [hc, if_false, one_mul]
    have h2 : 0 ≤ 1 - c * c := by nlinarith
    rw [Real.mul_self_sqrt h2]
    have h3 : 1 - (1 - c * c) = c * c := by ring
    rw [h3, Real.sqrt_mul_self h0]

/-- One component of the direction returned by `calculateRefraction`, as a function of the
refractive ratio `ρ`: it is continuous and takes the value of the incoming component at
`ρ = 1`. -/
theorem tendsto_refracted_component {ι : Type} (l : Filter ι) (ρ : ι → ℝ) (d n c : ℝ)
    (h0 : 0 ≤ c) (h1 : c ≤ 1) (hρ : Filter.Tendsto ρ l (nhds 1)) :
    Filter.Tendsto
      (fun i => (d + n * c) * ρ i - n *
        (if c ≥ 1 then (1 : ℝ)
          else Real.sqrt (1 - ρ i * Real.sqrt (1 - c * c) * (ρ i * Real.sqrt (1 - c * c)))))
      l (nhds d) := by
  have hcont : Continuous (fun r : ℝ => (d + n * c) * r - n *
      (if c ≥ 1 then (1 : ℝ)
        else Real.sqrt (1 - r * Real.sqrt (1 - c * c) * (r * Real.sqrt (1 - c * c))))) :=
    (continuous_const.mul continuous_id).sub (continuous_const.mul (continuous_cosThetaT c))
  have hval : (d + n * c) * 1 - n *
      (if c ≥ 1 then (1 : ℝ)
        else Real.sqrt (1 - 1 * Real.sqrt (1 - c * c) * (1 * Real.sqrt (1 - c * c)))) = d := by
    rw [cosThetaT_one c h0 h1]
    ring
  have := (hcont.tendsto 1).comp hρ
  rw [hval] at this
  exact this

/-- C9 (refraction continuity), over `ℝ` with `Real.sqrt` for `sqrtf`: for every incoming
direction, normal and view projection with `|viewProjection| ≤ 1`, (1) when the old refractive
index equals the new one (and is not zero, so that their ratio is `1`) the transmitted direction
is the incoming direction exactly, and (2) along every family of calls with that normal and
view projection whose refractive ratio old / new tends to `1`, each component of the transmitted
direction tends to the component of the incoming direction. -/
theorem calculateRefraction_continuity (D : ℝ) (viewRay : Ray ℝ) (n : Vector ℝ) (vp : ℝ)
    (hvp : |vp| ≤ 1) :
    (∀ (intersect : Intersection ℝ) (cur : ℝ),
      intersect.normal = n → intersect.viewProjection = vp →
      cur / (if intersect.insideObject then D else intersect.material.density) = 1 →
      (calculateRefraction Real.sqrt D viewRay intersect cur).1.dir = viewRay.dir) ∧
    (∀ (ι : Type) (l : Filter ι) (intersect : ι → Intersection ℝ) (cur : ι → ℝ),
      (∀ i, (intersect i).normal = n) → (∀ i, (intersect i).viewProjection = vp) →
      Filter.Tendsto
        (fun i => cur i /
          (if (intersect i).insideObject then D else (intersect i).material.density))
        l (nhds 1) →
      Filter.Tendsto (fun i => (calculateRefraction Real.sqrt D viewRay (intersect i)
          (cur i)).1.dir.x) l (nhds viewRay.dir.x) ∧
      Filter.Tendsto (fun i => (calculateRefraction Real.sqrt D viewRay (intersect i)
          (cur i)).1.dir.y) l (nhds viewRay.dir.y) ∧
      Filter.Tendsto (fun i => (calculateRefraction Real.sqrt D viewRay (intersect i)
          (cur i)).1.dir.z) l (nhds viewRay.dir.z)) := by
  have h0 : 0 ≤ |vp| := abs_nonneg vp
  constructor
  · intro intersect cur hn hv hr
    rw [vector_ext_iff]
    simp only [calculateRefraction, hn, hv, hr, vector_sub_x, vector_sub_y, vector_sub_z,
      vector_scale_x, vector_scale_y, vector_scale_z, vector_add_x, vector_add_y, vector_add_z]
    rw [cosThetaT_eq, cosThetaT_one _ h0 hvp]
    refine ⟨by ring, by ring, by ring⟩
  · intro ι l intersect cur hn hv hr
    simp only [calculateRefraction, hn, hv, vector_sub_x, vector_sub_y, vector_sub_z,
      vector_scale_x, vector_scale_y, vector_scale_z, vector_add_x, vector_add_y, vector_add_z,
      cosThetaT_eq]
    exact ⟨tendsto_refracted_component l _ _ _ _ h0 hvp hr,
      tendsto_refracted_component l _ _ _ _ h0 hvp hr,
      tendsto_refracted_component l _ _ _ _ h0 hvp hr⟩

/-- The witness of C9: a ray grazing the plane `z = 0` (`viewProjection = 0`), with both
refractive indices equal to `1`, and with the old index `1 + 1 / (k + 1)` tending to the new
index `1`. -/
theorem calculateRefraction_continuity_witness :
    |(0 : ℝ)| ≤ 1 ∧
    (calculateRefraction Real.sqrt 1 (⟨⟨-1, 0, 0⟩, ⟨1, 0, 0⟩⟩ : Ray ℝ)
      { pos := ⟨0, 0, 0⟩, normal := ⟨0, 0, 1⟩, viewProjection := 0, insideObject := false,
        material := ⟨0, 1, 1, ⟨0, 0, 0⟩⟩ } 1).1.dir = ⟨1, 0, 0⟩ ∧
    Filter.Tendsto
      (fun k : ℕ => (calculateRefraction Real.sqrt 1 (⟨⟨-1, 0, 0⟩, ⟨1, 0, 0⟩⟩ : Ray ℝ)
        { pos := ⟨0, 0, 0⟩, normal := ⟨0, 0, 1⟩, viewProjection := 0, insideObject := false,
          material := ⟨0, 1, 1, ⟨0, 0, 0⟩⟩ } (1 + 1 / ((k : ℝ) + 1))).1.dir.x)
      Filter.atTop (nhds 1) :=
  ⟨by norm_num,
   (calculateRefraction_continuity 1 (⟨⟨-1, 0, 0⟩, ⟨1, 0, 0⟩⟩ : Ray ℝ) ⟨0, 0, 1⟩ 0
      (by norm_num)).1
    { pos := ⟨0, 0, 0⟩, normal := ⟨0, 0, 1⟩, viewProjection := 0, insideObject := false,
      material := ⟨0, 1, 1, ⟨0, 0, 0⟩⟩ } 1 rfl rfl (by norm_num),
   ((calculateRefraction_continuity 1 (⟨⟨-1, 0, 0⟩, ⟨1, 0, 0⟩⟩ : Ray ℝ) ⟨0, 0, 1⟩ 0
      (by norm_num)).2 ℕ Filter.atTop
    (fun _ => { pos := ⟨0, 0, 0⟩, normal := ⟨0, 0, 1⟩, viewProjection := 0,
                insideObject := false, material := ⟨0, 1, 1, ⟨0, 0, 0⟩⟩ })
    (fun k => 1 + 1 / ((k : ℝ) + 1)) (fun _ => rfl) (fun _ => rfl)
    (by
      have h0 : Filter.Tendsto (fun k : ℕ => 1 / ((k : ℝ) + 1)) Filter.atTop (nhds 0) :=
        tendsto_one_div_add_atTop_nhds_zero_nat
      have h := h0.const_add 1
      simpa using h)).1⟩

/-! ## Loops over consecutive pixels -/

theorem forRangeGo_append (lo : Int) (m n : Nat) :
    forRangeGo lo (m + n) = forRangeGo lo m ++ forRangeGo (lo + m) n := by
  induction m generalizing lo with
  | zero => simp [forRangeGo]
  | succ m ih =>
    rw [Nat.succ_add]
    have e : lo + ((m + 1 : Nat) : Int) = lo + 1 + (m : Int) := by push_cast; ring
    simp only [forRangeGo, List.cons_append, ih, e]

theorem forRange_append (a b c : Int) (hab : a ≤ b) (hbc : b ≤ c) :
    forRange a b ++ forRange b c = forRange a c := by
  unfold forRange
  have h : (c - a).toNat = (b - a).toNat + (c - b).toNat := by omega
  rw [h, forRangeGo_append]
  congr 2
  omega

theorem forRange_self (a : Int) : forRange a a = [] := by
  simp [forRange, forRangeGo]

theorem forRangeGo_zero_eq (n : Nat) :
    forRangeGo 0 n = (List.range n).map (fun (j : Nat) => (j : Int)) := by
  induction n with
  | zero => rfl
  | succ n ih =>
    rw [List.range_succ, List.map_append, ← ih]
    rw [forRangeGo_append 0 n 1]
    simp [forRangeGo]

theorem mem_forRangeGo (lo : Int) (n : Nat) (v : Int) :
    v ∈ forRangeGo lo n ↔ lo ≤ v ∧ v < lo + n := by
  induction n generalizing lo with
  | zero => simp [forRangeGo]
  | succ n ih =>
    simp only [forRangeGo, List.mem_cons, ih]
    push_cast
    omega

/-- The index, column and row of the pixel at `r * W + c`. -/
theorem pixelAt_row_col (W H r c : Int) (hc0 : 0 ≤ c) (hcW : c < W) :
    pixelAt W H (r * W + c) = ⟨r * W + c, c - W.tdiv 2, r - H.tdiv 2⟩ := by
  have hW : 0 < W := by omega
  have h1 : (r * W + c) % W = c := by
    rw [add_comm, Int.add_mul_emod_self, Int.emod_eq_of_lt hc0 hcW]
  have h2 : (r * W + c) / W = r := by
    rw [add_comm, Int.add_mul_ediv_right _ _ (by omega), Int.ediv_eq_zero_of_lt hc0 hcW]
    simp
  simp [pixelAt, h1, h2]

/-- The inner loop over `n` pixels of a row, started at column `c0` of row `r` with `out` on the
index of that pixel, writes the `n` pixels of the image at the indices `out, ..., out + n - 1`. -/
theorem rowLoop_pixels (W H r c0 : Int) (n : Nat) (hc0 : 0 ≤ c0) (hcn : c0 + n ≤ W) :
    rowLoop (r - H.tdiv 2) (forRangeGo (c0 - W.tdiv 2) n) (r * W + c0)
      = ((forRangeGo (r * W + c0) n).map (pixelAt W H), r * W + c0 + n) := by
  induction n generalizing c0 with
  | zero => simp [forRangeGo, rowLoop]
  | succ n ih =>
    have h := ih (c0 + 1) (by omega) (by push_cast at hcn ⊢; omega)
    have e1 : c0 - W.tdiv 2 + 1 = c0 + 1 - W.tdiv 2 := by ring
    have e2 : r * W + c0 + 1 = r * W + (c0 + 1) := by ring
    simp only [forRangeGo, rowLoop, List.map_cons, e1, e2, h]
    rw [pixelAt_row_col W H r c0 hc0 (by push_cast at hcn; omega)]
    push_cast
    simp only [Prod.mk.injEq, and_true, true_and]
    ring_nf

/-- The pixels at the indices `0, ..., w * h - 1` are the whole image. -/
theorem forRange_map_pixelAt (w h : Nat) :
    (forRange 0 ((w * h : Nat) : Int)).map (pixelAt w h) = fullImage w h := by
  unfold forRange fullImage
  rw [sub_zero, Int.toNat_ofNat, forRangeGo_zero_eq, List.map_map]
  rfl

/-- The buffer indices of the whole image are `0, ..., w * h - 1`, in this order. -/
theorem fullImage_index (w h : Nat) :
    (fullImage w h).map Write.index = (List.range (w * h)).map (fun (j : Nat) => (j : Int)) := by
  unfold fullImage
  rw [List.map_map]
  rfl

namespace Stage1

/-- The rows `y0, ..., y0 + n` of the loops of `render`, when the first row starts at the pixel
`out` points to, every row but the last runs to the right edge and every row but the first
starts at the left edge: the pixels of the image from `out` up to the end of the last row. -/
theorem imageLoop_pixels (W H tid T a : Int) (hW : W = 2 * a) (ha : W.tdiv 2 = a)
    (n : Nat) : ∀ (y0 : Int),
    (∀ m : Nat, m ≤ n →
      0 ≤ startPoint W H tid T (y0 + m) + a ∧
      startPoint W H tid T (y0 + m) ≤ endPoint W H tid T (y0 + m) ∧
      endPoint W H tid T (y0 + m) + a ≤ W) →
    (∀ m : Nat, m < n →
      endPoint W H tid T (y0 + m) = a ∧ startPoint W H tid T (y0 + m + 1) = -a) →
    imageLoop W H tid T (forRangeGo y0 (n + 1))
        ((y0 + H.tdiv 2) * W + (startPoint W H tid T y0 + a))
      = ((forRange ((y0 + H.tdiv 2) * W + (startPoint W H tid T y0 + a))
            ((y0 + n + H.tdiv 2) * W + (endPoint W H tid T (y0 + n) + a))).map (pixelAt W H),
         (y0 + n + H.tdiv 2) * W + (endPoint W H tid T (y0 + n) + a)) ∧
      (y0 + H.tdiv 2) * W + (startPoint W H tid T y0 + a)
        ≤ (y0 + n + H.tdiv 2) * W + (endPoint W H tid T (y0 + n) + a) := by
  induction n with
  | zero =>
    intro y0 hy _
    obtain ⟨h1, h2, h3⟩ := hy 0 (le_refl 0)
    simp only [Nat.cast_zero, add_zero] at h1 h2 h3 ⊢
    have hrow := rowLoop_pixels W H (y0 + H.tdiv 2) (startPoint W H tid T y0 + a)
      (endPoint W H tid T y0 - startPoint W H tid T y0).toNat h1 (by omega)
    have e1 : y0 + H.tdiv 2 - H.tdiv 2 = y0 := by ring
    have e2 : startPoint W H tid T y0 + a - W.tdiv 2 = startPoint W H tid T y0 := by
      rw [ha]; ring
    rw [e1, e2] at hrow
    have e3 : ((endPoint W H tid T y0 - startPoint W H tid T y0).toNat : Int)
        = endPoint W H tid T y0 - startPoint W H tid T y0 := Int.toNat_of_nonneg (by omega)
    have e4 : (y0 + H.tdiv 2) * W + (endPoint W H tid T y0 + a)
        - ((y0 + H.tdiv 2) * W + (startPoint W H tid T y0 + a))
        = endPoint W H tid T y0 - startPoint W H tid T y0 := by ring
    refine ⟨?_, by omega⟩
    simp only [forRangeGo, imageLoop, forRange, hrow, List.append_nil, e3, e4, Prod.mk.injEq,
      true_and]
    ring
  | succ n ih =>
    intro y0 hy hmid
    obtain ⟨h1, h2, h3⟩ := hy 0 (Nat.zero_le _)
    obtain ⟨hm1, hm2⟩ := hmid 0 (Nat.succ_pos _)
    simp only [Nat.cast_zero, add_zero] at h1 h2 h3 hm1 hm2
    have hrow := rowLoop_pixels W H (y0 + H.tdiv 2) (startPoint W H tid T y0 + a)
      (endPoint W H tid T y0 - startPoint W H tid T y0).toNat h1 (by omega)
    have e1 : y0 + H.tdiv 2 - H.tdiv 2 = y0 := by ring
    have e2 : startPoint W H tid T y0 + a - W.tdiv 2 = startPoint W H tid T y0 := by
      rw [ha]; ring
    rw [e1, e2] at hrow
    have e3 : ((endPoint W H tid T y0 - startPoint W H tid T y0).toNat : Int)
        = endPoint W H tid T y0 - startPoint W H tid T y0 := Int.toNat_of_nonneg (by omega)
    have hy' : ∀ m : Nat, m ≤ n →
        0 ≤ startPoint W H tid T (y0 + 1 + m) + a ∧
        startPoint W H tid T (y0 + 1 + m) ≤ endPoint W H tid T (y0 + 1 + m) ∧
        endPoint W H tid T (y0 + 1 + m) + a ≤ W := by
      intro m hm
      have := hy (m + 1) (by omega)
      have e : y0 + ((m + 1 : Nat) : Int) = y0 + 1 + m := by push_cast; ring
      rwa [e] at this
    have hmid' : ∀ m : Nat, m < n →
        endPoint W H tid T (y0 + 1 + m) = a ∧ startPoint W H tid T (y0 + 1 + m + 1) = -a := by
      intro m hm
      have := hmid (m + 1) (by omega)
      have e : y0 + ((m + 1 : Nat) : Int) = y0 + 1 + m := by push_cast; ring
      rwa [e] at this
    obtain ⟨ih1, ih2⟩ := ih (y0 + 1) hy' hmid'
    have e5 : (y0 + H.tdiv 2) * W + (startPoint W H tid T y0 + a)
        + (endPoint W H tid T y0 - startPoint W H tid T y0)
        = (y0 + 1 + H.tdiv 2) * W + (startPoint W H tid T (y0 + 1) + a) := by
      rw [hm1, hm2, hW]; ring
    have e6 : y0 + 1 + (n : Int) = y0 + ((n + 1 : Nat) : Int) := by push_cast; ring
    rw [e6] at ih1 ih2
    have hle : (y0 + H.tdiv 2) * W + (startPoint W H tid T y0 + a)
        ≤ (y0 + 1 + H.tdiv 2) * W + (startPoint W H tid T (y0 + 1) + a) := by
      rw [← e5]; omega
    refine ⟨?_, le_trans hle ih2⟩
    have hseg : forRangeGo ((y0 + H.tdiv 2) * W + (startPoint W H tid T y0 + a))
          (endPoint W H tid T y0 - startPoint W H tid T y0).toNat
        = forRange ((y0 + H.tdiv 2) * W + (startPoint W H tid T y0 + a))
            ((y0 + 1 + H.tdiv 2) * W + (startPoint W H tid T (y0 + 1) + a)) := by
      rw [← e5]
      unfold forRange
      congr 2
      ring
    rw [hseg, e3, e5] at hrow
    rw [forRangeGo, imageLoop]
    simp only [forRange] at hrow ih1 ⊢
    rw [hrow, ih1]
    simp only [Prod.mk.injEq, and_true]
    rw [← List.map_append]
    congr 1
    have := forRange_append _ _ _ hle ih2
    simp only [forRange] at this
    exact this

/-- The run of `render` by thread `k` of `T` on an image of even width and height with at least
`T` rows: the thread writes the pixels of the image from the index `hb * k * W + wb * k`
(`hb = H / T`, `wb = W / T`) up to the index `E` where the next thread starts, or up to the end
of the image when it is the last thread. -/
theorem renderRun_segment (W H k T a b hb wb E : Int) (n : Nat)
    (hW : W = 2 * a) (hH : H = 2 * b) (ha : 1 ≤ a)
    (hhb : H.tdiv T = hb) (hwb : W.tdiv T = wb)
    (hk0 : 0 ≤ k) (hkT : k < T) (hb1 : 1 ≤ hb)
    (hwb0 : 0 ≤ wb) (hwT : wb * T ≤ W)
    (hn : heightEnd H k T - heightStart H k T = n + 1)
    (hE : E = if k = T - 1 then W * H else hb * (k + 1) * W + wb * (k + 1)) :
    renderRun W H k T
      = ((forRange (hb * k * W + wb * k) E).map (pixelAt W H), E) ∧
    hb * k * W + wb * k ≤ E := by
  have hWa : W.tdiv 2 = a := by rw [hW]; exact Int.mul_tdiv_cancel_left _ (by omega)
  have hHb : H.tdiv 2 = b := by rw [hH]; exact Int.mul_tdiv_cancel_left _ (by omega)
  have hnegW : (-W).tdiv 2 = -a := by rw [Int.neg_tdiv, hWa]
  have hwk0 : 0 ≤ wb * k := mul_nonneg hwb0 hk0
  have hwk1 : wb * (k + 1) ≤ W := le_trans (mul_le_mul_of_nonneg_left (by omega) hwb0) hwT
  have hwk2 : wb * k ≤ wb * (k + 1) := mul_le_mul_of_nonneg_left (by omega) hwb0
  have hhs : heightStart H k T = hb * k - b := by simp [heightStart, hhb, hHb]
  have hws : widthStart W k T = wb * k - a := by simp [widthStart, hwb, hWa]
  have hhe : heightEnd H k T = heightStart H k T + n + 1 := by omega
  have hsp : ∀ m : Nat, startPoint W H k T (heightStart H k T + m)
      = if m = 0 then wb * k - a else -a := by
    intro m
    simp only [startPoint, hws, hnegW, add_right_eq_self, Nat.cast_eq_zero]
  have hwe : widthEnd W k T = if k = T - 1 then a else wb * (k + 1) - a := by
    simp [widthEnd, hwb, hWa]
  have hep : ∀ m : Nat, endPoint W H k T (heightStart H k T + m)
      = if m = 0 then a else if m = n then (if k = T - 1 then a else wb * (k + 1) - a)
        else a := by
    intro m
    have e : heightStart H k T + (m : Int) = heightEnd H k T - 1 ↔ m = n := by omega
    simp only [endPoint, hwe, hWa, add_right_eq_self, Nat.cast_eq_zero, e]
  have key := imageLoop_pixels W H k T a hW hWa n (heightStart H k T)
    (by
      intro m hm
      rw [hsp, hep]
      split_ifs <;> omega)
    (by
      intro m hm
      have e : heightStart H k T + (m : Int) + 1 = heightStart H k T + ((m + 1 : Nat) : Int) := by
        push_cast; ring
      rw [e, hsp, hep]
      have : m ≠ n := by omega
      simp [this])
  have hout : (heightStart H k T + H.tdiv 2) * W
      + (startPoint W H k T (heightStart H k T) + a) = hb * k * W + wb * k := by
    have := hsp 0
    simp only [Nat.cast_zero, add_zero, if_true] at this
    rw [this, hhs, hHb]
    ring
  have hend : (heightStart H k T + n + H.tdiv 2) * W
      + (endPoint W H k T (heightStart H k T + n) + a) = E := by
    rw [hep, hE, hHb]
    by_cases hlast : k = T - 1
    · have h2 : heightEnd H k T = b := by
        unfold heightEnd
        rw [if_pos hlast, hHb]
      have h4 : heightStart H k T + (n : Int) = b - 1 := by omega
      rw [h4, if_pos hlast, if_pos hlast]
      simp only [ite_self]
      rw [hH]
      linear_combination (-1 : ℤ) * hW
    · have h2 : heightEnd H k T = hb * (k + 1) - b + 1 := by
        unfold heightEnd
        rw [if_neg hlast, hhb, hHb]
      have h3 : n ≠ 0 := by
        intro h0
        rw [h2, hhs, h0] at hn
        have : hb * (k + 1) = hb * k + hb := by ring
        simp only [Nat.cast_zero] at hn
        omega
      have h4 : heightStart H k T + (n : Int) = hb * (k + 1) - b := by omega
      rw [h4, if_neg hlast, if_neg hlast, if_neg h3]
      simp only [if_true]
      ring
  rw [hout, hend] at key
  unfold renderRun outStart
  rw [hhb, hwb]
  have hrows : forRange (heightStart H k T) (heightEnd H k T)
      = forRangeGo (heightStart H k T) (n + 1) := by
    unfold forRange
    congr 1
    omega
  rw [hrows]
  exact key

/-- The segment of the image written by thread `k` of `T`, for natural-number inputs: on an
image of even width and height with at least `T` rows, thread `k` writes the pixels from
`boundary k` up to `boundary (k + 1)`, and leaves `out` on `boundary (k + 1)`. -/
theorem renderRun_boundary (w h T k : Nat) (hw : w % 2 = 0) (hh : h % 2 = 0)
    (hw2 : 2 ≤ w) (hTh : T ≤ h) (hk : k < T) :
    renderRun (w : Int) (h : Int) (k : Int) (T : Int)
      = ((forRange (boundary w h T k) (boundary w h T (k + 1))).map (pixelAt w h),
         (boundary w h T (k + 1) : Int)) ∧
    boundary w h T k ≤ boundary w h T (k + 1) := by
  have hT0 : 0 < T := by omega
  have hhb1 : 1 ≤ h / T := (Nat.le_div_iff_mul_le hT0).2 (by omega)
  have hhbT : h / T * T ≤ h := Nat.div_mul_le_self h T
  have hwbT : w / T * T ≤ w := Nat.div_mul_le_self w T
  have hhk : h / T * k + h / T ≤ h := by
    calc h / T * k + h / T = h / T * (k + 1) := by ring
      _ ≤ h / T * T := Nat.mul_le_mul_left _ hk
      _ ≤ h := hhbT
  have hbk : boundary w h T k = h / T * k * w + w / T * k := by
    unfold boundary
    rw [if_pos hk]
  have hE : ((boundary w h T (k + 1) : Nat) : Int)
      = if (k : Int) = (T : Int) - 1 then (w : Int) * h
        else ((h / T : Nat) : Int) * ((k : Int) + 1) * w + ((w / T : Nat) : Int) * (k + 1) := by
    unfold boundary
    by_cases hl : k + 1 < T
    · rw [if_pos hl, if_neg (by omega)]
      push_cast
      ring
    · rw [if_neg hl, if_pos (by omega)]
      push_cast
      ring
  have hrows : ∃ n : Nat, heightEnd (h : Int) k T - heightStart (h : Int) k T = n + 1 := by
    have e1 : (h : Int).tdiv (T : Int) = ((h / T : Nat) : Int) := (Int.ofNat_tdiv h T).symm
    have e2 : (h : Int).tdiv 2 = ((h / 2 : Nat) : Int) := (Int.ofNat_tdiv h 2).symm
    have e3 : ((h / T : Nat) : Int) * ((k : Int) + 1) = ((h / T * k + h / T : Nat) : Int) := by
      push_cast; ring
    have e4 : ((h / T : Nat) : Int) * (k : Int) = ((h / T * k : Nat) : Int) := by
      push_cast; ring
    unfold heightEnd heightStart
    rw [e1, e2, e3, e4]
    by_cases hl : (k : Int) = (T : Int) - 1
    · rw [if_pos hl]
      refine ⟨h - h / T * k - 1, ?_⟩
      omega
    · rw [if_neg hl]
      refine ⟨h / T, ?_⟩
      omega
  obtain ⟨n, hn⟩ := hrows
  have key := renderRun_segment (w : Int) (h : Int) (k : Int) (T : Int) ((w / 2 : Nat) : Int)
    ((h / 2 : Nat) : Int) ((h / T : Nat) : Int) ((w / T : Nat) : Int)
    (boundary w h T (k + 1) : Int) n (by omega) (by omega) (by omega)
    (Int.ofNat_tdiv h T).symm (Int.ofNat_tdiv w T).symm (by omega) (by omega)
    (by exact_mod_cast hhb1) (Int.ofNat_nonneg _) (by exact_mod_cast hwbT) hn hE
  have e : ((h / T : Nat) : Int) * (k : Int) * (w : Int) + ((w / T : Nat) : Int) * (k : Int)
      = ((boundary w h T k : Nat) : Int) := by
    rw [hbk]
    push_cast
    ring
  rw [e] at key
  exact ⟨key.1, by exact_mod_cast key.2⟩

/-- The threads `0, ..., m - 1` together write the pixels of the image from index `0` up to the
boundary of thread `m`. -/
theorem flatMap_render_boundary (w h T : Nat) (hw : w % 2 = 0) (hh : h % 2 = 0)
    (hw2 : 2 ≤ w) (hT : 1 ≤ T) (hTh : T ≤ h) (m : Nat) (hm : m ≤ T) :
    (List.range m).flatMap (fun k => render (w : Int) (h : Int) (k : Int) (T : Int))
      = (forRange 0 (boundary w h T m)).map (pixelAt w h) := by
  induction m with
  | zero =>
    have : boundary w h T 0 = 0 := by
      unfold boundary
      rw [if_pos (by omega)]
      simp
    simp [this, forRange_self]
  | succ m ih =>
    obtain ⟨h1, h2⟩ := renderRun_boundary w h T m hw hh hw2 hTh (by omega)
    rw [List.range_succ, List.flatMap_append, List.flatMap_singleton, ih (by omega)]
    unfold render
    rw [h1, ← List.map_append,
      forRange_append 0 _ _ (by exact_mod_cast Nat.zero_le _) (by exact_mod_cast h2)]

end Stage1

/-- A single thread of Stage1 writes the whole image, in reading order, when the width and the
height are even. -/
theorem single_thread_image (w h : Nat) (hw : w % 2 = 0) (hh : h % 2 = 0) (hw2 : 2 ≤ w)
    (hh2 : 2 ≤ h) :
    Stage1.render (w : Int) (h : Int) 0 1 = fullImage w h := by
  have h1 := Stage1.flatMap_render_boundary w h 1 hw hh hw2 (le_refl 1) (by omega) 1 (le_refl 1)
  have h2 : Stage1.boundary w h 1 1 = w * h := by
    unfold Stage1.boundary
    rw [if_neg (lt_irrefl 1)]
  rw [h2, forRange_map_pixelAt, show List.range 1 = [0] from rfl,
    List.flatMap_singleton] at h1
  rw [← h1]
  simp

/-! ## Stage1: the claims -/

/-- C2 as stated fails on `render` of Stage1: with an odd width (3 by 2, one thread) or an odd
height (2 by 3, one thread) the last column or row of the image is never written, and with more
threads than rows (2 by 2, four threads) the threads overlap: index `0` is written four times. -/
theorem stage1_odd_or_short_image_gap :
    (Stage1.renderAll 3 2 1).map Write.index = [0, 1, 2, 3] ∧
    (4 : Int) ∉ (Stage1.renderAll 3 2 1).map Write.index ∧
    (Stage1.renderAll 2 3 1).map Write.index = [0, 1, 2, 3] ∧
    (4 : Int) ∉ (Stage1.renderAll 2 3 1).map Write.index ∧
    (Stage1.renderAll 2 2 4).map Write.index = [0, 1, 0, 1, 0, 1, 0, 1, 2, 3] ∧
    ¬ ((Stage1.renderAll 2 2 4).map Write.index).Nodup := by
  decide

/-- C2, amended: for every even width `w ≥ 2`, even height `h` and thread count `T` with
`1 ≤ T ≤ h`, the writes of the threads `0, ..., T - 1` of Stage1, taken thread after thread,
are exactly the pixels of the image at the buffer indices `0, 1, ..., w * h - 1` in this order
(so `h ≥ 2`, the ranges of the threads are pairwise disjoint and their union is
`[0, w * h)`), and every
thread but the last stops on the index on which the next thread starts. -/
theorem stage1_partition (w h T : Nat) (hw : w % 2 = 0) (hh : h % 2 = 0) (hw2 : 2 ≤ w)
    (hT : 1 ≤ T) (hTh : T ≤ h) :
    Stage1.renderAll (w : Int) (h : Int) T = fullImage w h ∧
    (Stage1.renderAll (w : Int) (h : Int) T).map Write.index
      = (List.range (w * h)).map (fun (j : Nat) => (j : Int)) ∧
    ((Stage1.renderAll (w : Int) (h : Int) T).map Write.index).Nodup ∧
    (∀ k : Nat, k + 1 < T →
      (Stage1.renderRun (w : Int) (h : Int) (k : Int) (T : Int)).2
        = Stage1.outStart (w : Int) (h : Int) ((k + 1 : Nat) : Int) (T : Int)) := by
  have hall : Stage1.renderAll (w : Int) (h : Int) T = fullImage w h := by
    unfold Stage1.renderAll
    rw [Stage1.flatMap_render_boundary w h T hw hh hw2 hT hTh T (le_refl T)]
    have : Stage1.boundary w h T T = w * h := by
      unfold Stage1.boundary
      rw [if_neg (lt_irrefl T)]
    rw [this]
    exact forRange_map_pixelAt w h
  refine ⟨hall, ?_, ?_, ?_⟩
  · rw [hall, fullImage_index]
  · rw [hall, fullImage_index]
    exact (List.nodup_range _).map (fun a b hab => by exact_mod_cast hab)
  · intro k hk
    rw [(Stage1.renderRun_boundary w h T k hw hh hw2 hTh (by omega)).1]
    unfold Stage1.boundary Stage1.outStart
    rw [if_pos hk, ← Int.ofNat_tdiv, ← Int.ofNat_tdiv]
    push_cast
    ring

/-- The witness of the amended C2: a 4 by 6 image rendered by 4 threads. -/
theorem stage1_partition_witness :
    Stage1.renderAll ((4 : Nat) : Int) ((6 : Nat) : Int) 4 = fullImage 4 6 :=
  (stage1_partition 4 6 4 (by decide) (by decide) (by decide) (by decide) (by decide)).1

/-- C6: Stage1 with a single thread (`threads = 1`, `threadsId = 0`) on an image of even width
`w ≥ 2` and even height `h ≥ 2`: `widthStart = -w / 2`, `heightStart = -h / 2`,
`widthEnd = w / 2`, `heightEnd = h / 2`, on every row `x` runs over `[-w / 2, w / 2)`, and the
thread writes the buffer indices `0, 1, ..., w * h - 1` in this order, each with the pixel of its
column and row. -/
theorem stage1_single_thread (w h : Nat) (hw : w % 2 = 0) (hh : h % 2 = 0) (hw2 : 2 ≤ w)
    (hh2 : 2 ≤ h) :
    Stage1.widthStart (w : Int) 0 1 = -((w : Int) / 2) ∧
    Stage1.heightStart (h : Int) 0 1 = -((h : Int) / 2) ∧
    Stage1.widthEnd (w : Int) 0 1 = (w : Int) / 2 ∧
    Stage1.heightEnd (h : Int) 0 1 = (h : Int) / 2 ∧
    (∀ y : Int, Stage1.startPoint (w : Int) (h : Int) 0 1 y = -((w : Int) / 2) ∧
      Stage1.endPoint (w : Int) (h : Int) 0 1 y = (w : Int) / 2) ∧
    (Stage1.render (w : Int) (h : Int) 0 1).map Write.index
      = (List.range (w * h)).map (fun (j : Nat) => (j : Int)) ∧
    Stage1.render (w : Int) (h : Int) 0 1 = fullImage w h := by
  have ew : (w : Int).tdiv 2 = (w : Int) / 2 :=
    Int.tdiv_eq_ediv (Int.ofNat_nonneg _) (by decide)
  have eh : (h : Int).tdiv 2 = (h : Int) / 2 :=
    Int.tdiv_eq_ediv (Int.ofNat_nonneg _) (by decide)
  have h1 : Stage1.widthStart (w : Int) 0 1 = -((w : Int) / 2) := by
    simp [Stage1.widthStart, ew]
  have h2 : Stage1.heightStart (h : Int) 0 1 = -((h : Int) / 2) := by
    simp [Stage1.heightStart, eh]
  have h3 : Stage1.widthEnd (w : Int) 0 1 = (w : Int) / 2 := by
    simp [Stage1.widthEnd, ew]
  have h4 : Stage1.heightEnd (h : Int) 0 1 = (h : Int) / 2 := by
    simp [Stage1.heightEnd, eh]
  have hr : Stage1.render (w : Int) (h : Int) 0 1 = fullImage w h := by
    have := (single_thread_image w h hw hh hw2 hh2)
    exact this
  refine ⟨h1, h2, h3, h4, ?_, ?_, hr⟩
  · intro y
    constructor
    · unfold Stage1.startPoint
      rw [h1, Int.neg_tdiv, ew]
      simp
    · unfold Stage1.endPoint
      rw [h3, ew]
      simp
  · rw [hr, fullImage_index]

/-- The witness of C6: the 4 by 4 image. -/
theorem stage1_single_thread_witness :
    Stage1.render ((4 : Nat) : Int) ((4 : Nat) : Int) 0 1 = fullImage 4 4 :=
  (stage1_single_thread 4 4 (by decide) (by decide) (by decide) (by decide)).2.2.2.2.2.2

/-! ## The shared cursor -/

/-- A list of distinct numbers below `n` has at most `n` elements. -/
theorem length_le_of_nodup_of_lt (l : List Nat) (n : Nat) (hnd : l.Nodup)
    (hlt : ∀ t ∈ l, t < n) : l.length ≤ n := by
  have hsub : l.toFinset ⊆ Finset.range n := by
    intro t ht
    rw [List.mem_toFinset] at ht
    exact Finset.mem_range.2 (hlt t ht)
  have hcard := Finset.card_le_card hsub
  rwa [List.toFinset_card_of_nodup hnd, Finset.card_range] at hcard

/-- A list that contains every number below `n` has at least `n` elements. -/
theorem le_length_of_forall_mem (l : List Nat) (n : Nat) (h : ∀ t, t < n → t ∈ l) :
    n ≤ l.length := by
  have hsub : Finset.range n ⊆ l.toFinset := by
    intro t ht
    rw [List.mem_toFinset]
    exact h t (Finset.mem_range.1 ht)
  have hcard := Finset.card_le_card hsub
  rw [Finset.card_range] at hcard
  exact le_trans hcard (List.toFinset_card_le l)

/-- After `k` increments of a cursor that started at `-1`, the next increment returns `k`. -/
theorem interlockedIncrement_cursor (k : Nat) (hk : k < 4294967296) :
    interlockedIncrement ((4294967295 + k) % 4294967296) = k := by
  unfold interlockedIncrement
  omega

namespace Stage2

theorem invariant_init (width height : Int) (threads : Nat) :
    Invariant width height threads Pool.init := by
  refine ⟨0, ?_, ?_, ?_, ?_, ?_, ?_, ?_⟩ <;> simp [Pool.init]

theorem step_claim (width height : Int) (threads : Nat) (p : Pool) (t : Nat)
    (hrun : t < threads ∧ t ∉ p.exited)
    (hlt : interlockedIncrement p.lineCount < toUnsigned height) :
    step width height threads p t
      = { lineCount := interlockedIncrement p.lineCount, exited := p.exited,
          written := p.written ++ renderRow width height (interlockedIncrement p.lineCount),
          claims := p.claims ++ [(t, interlockedIncrement p.lineCount)] } := by
  unfold step
  rw [if_pos hrun]
  simp only []
  rw [if_pos hlt]

theorem step_exit (width height : Int) (threads : Nat) (p : Pool) (t : Nat)
    (hrun : t < threads ∧ t ∉ p.exited)
    (hlt : ¬ interlockedIncrement p.lineCount < toUnsigned height) :
    step width height threads p t
      = { lineCount := interlockedIncrement p.lineCount, exited := t :: p.exited,
          written := p.written,
          claims := p.claims ++ [(t, interlockedIncrement p.lineCount)] } := by
  unfold step
  rw [if_pos hrun]
  simp only []
  rw [if_neg hlt]

theorem step_idle (width height : Int) (threads : Nat) (p : Pool) (t : Nat)
    (hrun : ¬ (t < threads ∧ t ∉ p.exited)) :
    step width height threads p t = p := by
  unfold step
  rw [if_neg hrun]

/-- One turn of a worker keeps the invariant, as long as the cursor cannot wrap around. -/
theorem invariant_step (width height : Int) (threads : Nat)
    (hbound : toUnsigned height + threads ≤ 4294967296) (p : Pool) (t : Nat)
    (hp : Invariant width height threads p) :
    Invariant width height threads (step width height threads p t) := by
  by_cases hrun : t < threads ∧ t ∉ p.exited
  · obtain ⟨k, h1, hc, h2, h3, h4, h5, h6⟩ := hp
    have hnd : (t :: p.exited).Nodup := List.nodup_cons.2 ⟨hrun.2, h4⟩
    have hall : ∀ u ∈ t :: p.exited, u < threads := by
      intro u hu
      rcases List.mem_cons.1 hu with rfl | hu
      · exact hrun.1
      · exact h5 u hu
    have hlen : (t :: p.exited).length ≤ threads := length_le_of_nodup_of_lt _ _ hnd hall
    simp only [List.length_cons] at hlen
    have hk : k < 4294967296 := by omega
    have hinc : interlockedIncrement p.lineCount = k := by
      rw [h2, interlockedIncrement_cursor k hk]
    have hcl : ∀ c ∈ p.claims ++ [(t, k)], c.1 < threads := by
      intro c hc'
      rcases List.mem_append.1 hc' with hc' | hc'
      · exact hc c hc'
      · rw [List.mem_singleton] at hc'
        rw [hc']
        exact hrun.1
    by_cases hlt : interlockedIncrement p.lineCount < toUnsigned height
    · rw [step_claim width height threads p t hrun hlt, hinc]
      rw [hinc] at hlt
      refine ⟨k + 1, ?_, hcl, ?_, ?_, h4, h5, ?_⟩
      · simp [h1, List.range_succ]
      · simp only []
        omega
      · simp only [h3]
        rw [Nat.min_eq_left (by omega), Nat.min_eq_left (by omega), List.range_succ,
          List.flatMap_append, List.flatMap_singleton]
      · simp only []
        omega
    · rw [step_exit width height threads p t hrun hlt, hinc]
      rw [hinc] at hlt
      refine ⟨k + 1, ?_, hcl, ?_, ?_, hnd, hall, ?_⟩
      · simp [h1, List.range_succ]
      · simp only []
        omega
      · simp only [h3]
        rw [Nat.min_eq_right (by omega), Nat.min_eq_right (by omega)]
      · simp only [List.length_cons]
        omega
  · rw [step_idle width height threads p t hrun]
    exact hp

theorem invariant_foldl (width height : Int) (threads : Nat)
    (hbound : toUnsigned height + threads ≤ 4294967296) (schedule : List Nat) :
    ∀ p : Pool, Invariant width height threads p →
      Invariant width height threads (schedule.foldl (step width height threads) p) := by
  induction schedule with
  | nil => intro p hp; exact hp
  | cons t ts ih =>
    intro p hp
    exact ih _ (invariant_step width height threads hbound p t hp)

theorem invariant_run (width height : Int) (threads : Nat)
    (hbound : toUnsigned height + threads ≤ 4294967296) (schedule : List Nat) :
    Invariant width height threads (run width height threads schedule) :=
  invariant_foldl width height threads hbound schedule _ (invariant_init width height threads)

/-- When every worker has left `render`, exactly `height + threads` values have been claimed:
`0, ..., height + threads - 1`, each by a worker, and the rows written are
`0, ..., height - 1`. -/
theorem run_allExited (width height : Int) (threads : Nat) (hthreads : 1 ≤ threads)
    (hbound : toUnsigned height + threads ≤ 4294967296) (schedule : List Nat)
    (hdone : (run width height threads schedule).allExited threads) :
    (run width height threads schedule).claims.map Prod.snd
      = List.range (toUnsigned height + threads) ∧
    (∀ c ∈ (run width height threads schedule).claims, c.1 < threads) ∧
    (run width height threads schedule).written
      = (List.range (toUnsigned height)).flatMap (renderRow width height) := by
  obtain ⟨k, h1, hc, h2, h3, h4, h5, h6⟩ := invariant_run width height threads hbound schedule
  have hge := le_length_of_forall_mem _ _ hdone
  have hle := length_le_of_nodup_of_lt _ _ h4 h5
  have hk : k = toUnsigned height + threads := by omega
  subst hk
  refine ⟨h1, hc, ?_⟩
  rw [h3, Nat.min_eq_right (by omega)]

/-- On an image of even width, the body of the loop for the claimed row `r` writes the pixels
of the image at the indices `w * r, ..., w * r + w - 1`. -/
theorem renderRow_pixels (w h : Nat) (hw : w % 2 = 0) (r : Nat) :
    renderRow (w : Int) (h : Int) r
      = (forRange ((w : Int) * r) ((w : Int) * r + w)).map (pixelAt w h) := by
  have ew : (w : Int).tdiv 2 = ((w / 2 : Nat) : Int) := (Int.ofNat_tdiv w 2).symm
  have key := rowLoop_pixels (w : Int) (h : Int) (r : Int) 0 w (le_refl 0) (by simp)
  unfold renderRow forRange
  rw [Int.neg_tdiv]
  have e1 : ((w : Int).tdiv 2 - -(w : Int).tdiv 2).toNat = w := by
    rw [ew]
    omega
  have e2 : ((w : Int) * r + w - (w : Int) * r).toNat = w := by
    rw [add_sub_cancel_left, Int.toNat_ofNat]
  have e3 : (r : Int) * w + 0 = (w : Int) * r := by ring
  rw [e1, e2]
  rw [zero_sub, e3] at key
  rw [key]

/-- The rows `0, ..., m - 1` together are the pixels of the image at the indices below
`w * m`. -/
theorem flatMap_rows (w h : Nat) (m : Nat) :
    (List.range m).flatMap
        (fun (r : Nat) => (forRange ((w : Int) * r) ((w : Int) * r + w)).map (pixelAt w h))
      = (forRange 0 ((w : Int) * m)).map (pixelAt w h) := by
  induction m with
  | zero => simp [forRange_self]
  | succ m ih =>
    rw [List.range_succ, List.flatMap_append, List.flatMap_singleton, ih, ← List.map_append,
      forRange_append 0 _ _ (by positivity) (by omega)]
    congr 2

/-- The rows `0, ..., h - 1` of an image of even width, as written by Stage2, are the image. -/
theorem flatMap_renderRow (w h : Nat) (hw : w % 2 = 0) :
    (List.range h).flatMap (renderRow (w : Int) (h : Int)) = fullImage w h := by
  have e : renderRow (w : Int) (h : Int)
      = fun (r : Nat) => (forRange ((w : Int) * r) ((w : Int) * r + w)).map (pixelAt w h) := by
    funext r
    exact renderRow_pixels w h hw r
  rw [e, flatMap_rows, ← forRange_map_pixelAt]
  push_cast
  rfl

theorem run_append_singleton (width height : Int) (threads : Nat) (schedule : List Nat)
    (t : Nat) :
    run width height threads (schedule ++ [t])
      = step width height threads (run width height threads schedule) t := by
  unfold run
  rw [List.foldl_append]
  rfl

/-- A worker that is still inside `render` has claimed a row below `height` at each of its
turns, so it has had at most `height` turns. -/
theorem turns_le_of_running (width height : Int) (threads : Nat)
    (hbound : toUnsigned height + threads ≤ 4294967296) (t : Nat) (ht : t < threads)
    (schedule : List Nat) :
    t ∈ (run width height threads schedule).exited ∨
      schedule.count t ≤ min (run width height threads schedule).claims.length
        (toUnsigned height) := by
  induction schedule using List.reverseRecOn with
  | nil => right; simp
  | append_singleton l u ih =>
    rw [run_append_singleton]
    obtain ⟨k, h1, hc, h2, h3, h4, h5, h6⟩ := invariant_run width height threads hbound l
    have hk : (run width height threads l).claims.length = k := by
      have := congrArg List.length h1
      simpa using this
    rw [hk] at ih
    by_cases hrun : u < threads ∧ u ∉ (run width height threads l).exited
    · have hlen : (u :: (run width height threads l).exited).length ≤ threads :=
        length_le_of_nodup_of_lt _ _ (List.nodup_cons.2 ⟨hrun.2, h4⟩)
          (by
            intro v hv
            rcases List.mem_cons.1 hv with rfl | hv
            · exact hrun.1
            · exact h5 v hv)
      simp only [List.length_cons] at hlen
      have hinc : interlockedIncrement (run width height threads l).lineCount = k := by
        rw [h2, interlockedIncrement_cursor k (by omega)]
      by_cases hlt : interlockedIncrement (run width height threads l).lineCount
          < toUnsigned height
      · rw [step_claim width height threads _ u hrun hlt]
        rw [hinc] at hlt
        rcases ih with ih | ih
        · left; exact ih
        · right
          simp only [List.count_append, List.count_singleton, List.length_append,
            List.length_singleton, hk]
          split_ifs <;> omega
      · rw [step_exit width height threads _ u hrun hlt]
        rcases ih with ih | ih
        · left; exact List.mem_cons_of_mem _ ih
        · by_cases hut : u = t
          · left
            rw [hut]
            exact List.mem_cons_self _ _
          · right
            simp only [List.count_append, List.count_singleton, List.length_append,
              List.length_singleton, hk]
            have : (u == t) = false := by simpa using hut
            simp only [this, Bool.false_eq_true, if_false]
            omega
    · rw [step_idle width height threads _ u hrun]
      rcases ih with ih | ih
      · left; exact ih
      · by_cases hut : u = t
        · left
          subst hut
          by_contra hne
          exact hrun ⟨ht, hne⟩
        · right
          simp only [List.count_append, List.count_singleton, hk]
          have : (u == t) = false := by simpa using hut
          simp only [this, Bool.false_eq_true, if_false]
          omega

/-- Every order of turns that gives each worker at least `height + 1` turns ends with all the
workers out of `render`. -/
theorem run_terminates (width height : Int) (threads : Nat)
    (hbound : toUnsigned height + threads ≤ 4294967296) (schedule : List Nat)
    (hfair : ∀ t, t < threads → toUnsigned height + 1 ≤ schedule.count t) :
    (run width height threads schedule).allExited threads := by
  intro t ht
  rcases turns_le_of_running width height threads hbound t ht schedule with h | h
  · exact h
  · have := hfair t ht
    omega

end Stage2

/-- The conversion to `unsigned int` leaves a natural number below `2 ^ 32` unchanged. -/
theorem toUnsigned_natCast (n : Nat) (hn : n < 4294967296) : toUnsigned (n : Int) = n := by
  unfold toUnsigned
  omega

/-- The values below `h` among `0, ..., h + n - 1` are `0, ..., h - 1`. -/
theorem filter_lt_range_add (h n : Nat) :
    (List.range (h + n)).filter (fun v => decide (v < h)) = List.range h := by
  rw [List.range_add, List.filter_append]
  have h1 : (List.range h).filter (fun v => decide (v < h)) = List.range h := by
    rw [List.filter_eq_self]
    intro a ha
    simpa using ha
  have h2 : (List.map (fun x => h + x) (List.range n)).filter (fun v => decide (v < h)) = [] := by
    rw [List.filter_eq_nil_iff]
    intro a ha
    simp only [List.mem_map, List.mem_range] at ha
    obtain ⟨x, _, rfl⟩ := ha
    simp
  rw [h1, h2, List.append_nil]

/-! ## Stage2: the claims -/

/-- C4 (row claims of Stage2): with every `InterlockedIncrement` one atomic step on the cursor
that starts at `-1` (`2 ^ 32 - 1`), for every `height ≥ 1` and every number of workers `≥ 1`
(both within the range of a C `int`): every order of turns that gives each worker at least
`height + 1` turns ends with all workers out of `render`; and for every order of the workers'
turns, once all workers have left `render` the claimed values below `height` are exactly
`0, ..., height - 1`, each occurring once in the history of claims, and each claimed by exactly
one worker. -/
theorem stage2_claims_exactly_once (width : Int) (h threads : Nat)
    (hh : 1 ≤ h) (hh' : h < 2147483648) (ht : 1 ≤ threads) (ht' : threads ≤ 2147483648) :
    (∀ schedule : List Nat, (∀ t, t < threads → h + 1 ≤ schedule.count t) →
      (Stage2.run width (h : Int) threads schedule).allExited threads) ∧
    (∀ schedule : List Nat, (Stage2.run width (h : Int) threads schedule).allExited threads →
      ((Stage2.run width (h : Int) threads schedule).claims.map Prod.snd).filter
          (fun v => decide (v < h)) = List.range h ∧
      (∀ r, r < h →
        List.count r ((Stage2.run width (h : Int) threads schedule).claims.map Prod.snd) = 1) ∧
      (∀ r, r < h → ∃ t, t < threads ∧
        (t, r) ∈ (Stage2.run width (h : Int) threads schedule).claims ∧
        ∀ u, (u, r) ∈ (Stage2.run width (h : Int) threads schedule).claims → u = t)) := by
  have hu : toUnsigned (h : Int) = h := toUnsigned_natCast h (by omega)
  constructor
  · intro schedule hfair
    exact Stage2.run_terminates width (h : Int) threads (by rw [hu]; omega) schedule
      (by rw [hu]; exact hfair)
  intro schedule hdone
  obtain ⟨h1, h2, _⟩ := Stage2.run_allExited width (h : Int) threads ht
    (by rw [hu]; omega) schedule hdone
  rw [hu] at h1
  have hnd : ((Stage2.run width (h : Int) threads schedule).claims.map Prod.snd).Nodup := by
    rw [h1]
    exact List.nodup_range _
  refine ⟨?_, ?_, ?_⟩
  · rw [h1, filter_lt_range_add]
  · intro r hr
    rw [h1]
    exact List.count_eq_one_of_mem (List.nodup_range _) (List.mem_range.2 (by omega))
  · intro r hr
    have hmem : r ∈ (Stage2.run width (h : Int) threads schedule).claims.map Prod.snd := by
      rw [h1]
      exact List.mem_range.2 (by omega)
    obtain ⟨c, hc, hcr⟩ := List.mem_map.1 hmem
    obtain ⟨t, r'⟩ := c
    simp only at hcr
    subst hcr
    refine ⟨t, h2 _ hc, hc, ?_⟩
    intro u hu'
    have := List.inj_on_of_nodup_map hnd hu' hc rfl
    exact (Prod.mk.inj this).1

/-- The witness of C4: `height = 10` and 3 workers taking turns. -/
theorem stage2_claims_exactly_once_witness :
    (Stage2.run 4 ((10 : Nat) : Int) 3 [0, 1, 2, 0, 1, 2, 0, 1, 2, 0, 1, 2, 0]).allExited 3 ∧
    ((Stage2.run 4 ((10 : Nat) : Int) 3 [0, 1, 2, 0, 1, 2, 0, 1, 2, 0, 1, 2, 0]).claims.map
        Prod.snd).filter (fun v => decide (v < 10)) = List.range 10 :=
  ⟨by decide,
   ((stage2_claims_exactly_once 4 10 3 (by decide) (by decide) (by decide) (by decide)).2
      [0, 1, 2, 0, 1, 2, 0, 1, 2, 0, 1, 2, 0] (by decide)).1⟩

/-- C3 as stated fails on `render` of Stage2: with the odd width `3` the worker that claims
row `0` writes the indices `0, 1` only, and after the single worker has left `render` the
indices `2` and `5` of the 3 by 2 image have not been written. -/
theorem stage2_odd_width_gap :
    (Stage2.renderRow 3 2 0).map Write.index = [0, 1] ∧
    (Stage2.run 3 2 1 [0, 0, 0]).allExited 1 ∧
    ((Stage2.run 3 2 1 [0, 0, 0]).written).map Write.index = [0, 1, 3, 4] ∧
    (2 : Int) ∉ ((Stage2.run 3 2 1 [0, 0, 0]).written).map Write.index := by
  decide

/-- C3, amended: for every even width `w`, every `height ≥ 1` and every number of workers
`≥ 1` (both within the range of a C `int`), a worker of Stage2 that claims row `r` writes the
pixels of the full width of that row, at exactly the buffer indices `r * w, ..., (r + 1) * w - 1`,
and after all workers have left `render` the writes made are, up to their order, the pixels of
the image at the indices `0, ..., w * h - 1`, none written more than once. -/
theorem stage2_rows_cover (w h threads : Nat) (hw : w % 2 = 0) (hh : 1 ≤ h)
    (hh' : h < 2147483648) (ht : 1 ≤ threads) (ht' : threads ≤ 2147483648) :
    (∀ r : Nat, Stage2.renderRow (w : Int) (h : Int) r
      = (forRange ((r : Int) * w) (((r : Int) + 1) * w)).map (pixelAt w h)) ∧
    (∀ r : Nat, (Stage2.renderRow (w : Int) (h : Int) r).map Write.index
      = forRange ((r : Int) * w) (((r : Int) + 1) * w)) ∧
    (∀ schedule : List Nat, (Stage2.run (w : Int) (h : Int) threads schedule).allExited threads →
      ((Stage2.run (w : Int) (h : Int) threads schedule).written).Perm (fullImage w h) ∧
      (((Stage2.run (w : Int) (h : Int) threads schedule).written).map Write.index).Perm
        ((List.range (w * h)).map (fun (j : Nat) => (j : Int))) ∧
      (((Stage2.run (w : Int) (h : Int) threads schedule).written).map Write.index).Nodup) := by
  have hrow : ∀ r : Nat, Stage2.renderRow (w : Int) (h : Int) r
      = (forRange ((r : Int) * w) (((r : Int) + 1) * w)).map (pixelAt w h) := by
    intro r
    rw [Stage2.renderRow_pixels w h hw r]
    congr 2 <;> ring
  refine ⟨hrow, ?_, ?_⟩
  · intro r
    rw [hrow, List.map_map]
    have : (Write.index ∘ pixelAt (w : Int) (h : Int)) = id := by
      funext j
      rfl
    rw [this, List.map_id]
  · intro schedule hdone
    have hu : toUnsigned (h : Int) = h := toUnsigned_natCast h (by omega)
    obtain ⟨_, _, h3⟩ := Stage2.run_allExited (w : Int) (h : Int) threads ht
      (by rw [hu]; omega) schedule hdone
    rw [hu, Stage2.flatMap_renderRow w h hw] at h3
    rw [h3, fullImage_index]
    exact ⟨List.Perm.refl _, List.Perm.refl _,
      (List.nodup_range _).map (fun a b hab => by exact_mod_cast hab)⟩

/-- The witness of the amended C3: a 4 by 3 image and 2 workers. -/
theorem stage2_rows_cover_witness :
    (Stage2.run ((4 : Nat) : Int) ((3 : Nat) : Int) 2 [0, 1, 1, 1, 0]).allExited 2 ∧
    ((Stage2.run ((4 : Nat) : Int) ((3 : Nat) : Int) 2 [0, 1, 1, 1, 0]).written).Perm
      (fullImage 4 3) :=
  ⟨by decide,
   ((stage2_rows_cover 4 3 2 (by decide) (by decide) (by decide) (by decide) (by decide)).2.2
      [0, 1, 1, 1, 0] (by decide)).1⟩

/-! ## Rectangles of pixels -/

theorem mem_forRange (a b v : Int) : v ∈ forRange a b ↔ a ≤ v ∧ v < b := by
  unfold forRange
  rw [mem_forRangeGo]
  omega

theorem forRange_succ_left (a b : Int) (h : a < b) :
    forRange a b = a :: forRange (a + 1) b := by
  unfold forRange
  have e : (b - a).toNat = (b - (a + 1)).toNat + 1 := by omega
  rw [e, forRangeGo]

theorem forRange_eq_nil (a b : Int) (h : b ≤ a) : forRange a b = [] := by
  unfold forRange
  have e : (b - a).toNat = 0 := by omega
  rw [e, forRangeGo]

theorem nodup_forRangeGo (lo : Int) (n : Nat) : (forRangeGo lo n).Nodup := by
  induction n generalizing lo with
  | zero => simp [forRangeGo]
  | succ n ih =>
    rw [forRangeGo, List.nodup_cons]
    refine ⟨?_, ih _⟩
    rw [mem_forRangeGo]
    omega

theorem nodup_forRange (a b : Int) : (forRange a b).Nodup :=
  nodup_forRangeGo _ _

/-- The membership in a rectangle of pixels. -/
theorem mem_rect (W H r0 r1 c0 c1 : Int) (wr : Write) :
    wr ∈ rect W H r0 r1 c0 c1 ↔
      ∃ r c : Int, r0 ≤ r ∧ r < r1 ∧ c0 ≤ c ∧ c < c1 ∧ wr = pixelAt W H (r * W + c) := by
  unfold rect
  simp only [List.mem_flatMap, List.mem_map, mem_forRange]
  constructor
  · rintro ⟨r, ⟨hr0, hr1⟩, j, ⟨hj0, hj1⟩, rfl⟩
    refine ⟨r, j - r * W, hr0, hr1, by omega, by omega, ?_⟩
    congr 1
    ring
  · rintro ⟨r, c, hr0, hr1, hc0, hc1, rfl⟩
    exact ⟨r, ⟨hr0, hr1⟩, r * W + c, ⟨by omega, by omega⟩, rfl⟩

/-- The buffer indices of a rectangle inside the image are a sublist of the indices of its
rows. -/
theorem rect_index_sublist (W H c0 c1 : Int) (hc0 : 0 ≤ c0) (hc : c0 ≤ c1) (hc1 : c1 ≤ W)
    (n : Nat) : ∀ r0 : Int,
    List.Sublist (((forRangeGo r0 n).flatMap
        (fun r => (forRange (r * W + c0) (r * W + c1)).map (pixelAt W H))).map Write.index)
      (forRange (r0 * W) ((r0 + n) * W)) := by
  induction n with
  | zero =>
    intro r0
    simp [forRangeGo]
  | succ n ih =>
    intro r0
    have hW : 0 ≤ W := by omega
    have hn : (0 : Int) ≤ n := Int.ofNat_nonneg n
    have hnW : 0 ≤ (n : Int) * W := mul_nonneg hn hW
    have e1 : (r0 + ((n + 1 : Nat) : Int)) * W = (r0 + 1 + n) * W := by push_cast; ring
    have e2 : (r0 + 1 + (n : Int)) * W = (r0 + 1) * W + n * W := by ring
    have e3 : (r0 + 1) * W = r0 * W + W := by ring
    rw [forRangeGo, List.flatMap_cons, List.map_append, e1,
      ← forRange_append (r0 * W) ((r0 + 1) * W) _ (by omega) (by omega)]
    refine List.Sublist.append ?_ (ih (r0 + 1))
    rw [List.map_map]
    have hid : (Write.index ∘ pixelAt W H) = id := by
      funext j
      rfl
    have hrow : forRange (r0 * W) ((r0 + 1) * W)
        = forRange (r0 * W) (r0 * W + c0)
          ++ (forRange (r0 * W + c0) (r0 * W + c1)
            ++ forRange (r0 * W + c1) ((r0 + 1) * W)) := by
      rw [forRange_append (r0 * W + c0) (r0 * W + c1) ((r0 + 1) * W) (by omega) (by omega),
        forRange_append (r0 * W) (r0 * W + c0) ((r0 + 1) * W) (by omega) (by omega)]
    rw [hid, List.map_id, hrow]
    exact (List.sublist_append_of_sublist_right (List.sublist_append_left _ _))

/-- The pixels of a rectangle inside the image are distinct. -/
theorem nodup_rect (W H r0 r1 c0 c1 : Int) (hc0 : 0 ≤ c0) (hc : c0 ≤ c1) (hc1 : c1 ≤ W) :
    (rect W H r0 r1 c0 c1).Nodup := by
  apply List.Nodup.of_map Write.index
  exact (nodup_forRange _ _).sublist (rect_index_sublist W H c0 c1 hc0 hc hc1 _ r0)

/-- The quotient of `r` by `B` is `b` when `r` lies in `[b * B, b * B + B)`. -/
theorem ediv_eq_of_band (r B b : Int) (hB : 0 < B) (h1 : b * B ≤ r) (h2 : r < b * B + B) :
    r / B = b := by
  have h3 : b ≤ r / B := (Int.le_ediv_iff_mul_le hB).2 h1
  have h4 : r / B < b + 1 := (Int.ediv_lt_iff_lt_mul hB).2 (by rw [add_mul, one_mul]; exact h2)
  omega

/-- The number `r` lies in the band of its quotient by `B`. -/
theorem band_bounds (r B : Int) (hB : 0 < B) : r / B * B ≤ r ∧ r < r / B * B + B := by
  have h1 := Int.ediv_mul_le r (show B ≠ 0 by omega)
  have h2 := Int.lt_ediv_add_one_mul_self r hB
  rw [add_mul, one_mul] at h2
  exact ⟨h1, h2⟩

/-- The row and the column of a pixel are determined by its buffer index. -/
theorem row_col_unique (W r c r' c' : Int) (hc0 : 0 ≤ c) (hcW : c < W) (hc0' : 0 ≤ c')
    (hcW' : c' < W) (h : r * W + c = r' * W + c') : r = r' ∧ c = c' := by
  have hW : 0 < W := by omega
  have h1 : (r * W + c) / W = r := by
    rw [add_comm, Int.add_mul_ediv_right _ _ (by omega), Int.ediv_eq_zero_of_lt hc0 hcW]
    simp
  have h2 : (r' * W + c') / W = r' := by
    rw [add_comm, Int.add_mul_ediv_right _ _ (by omega), Int.ediv_eq_zero_of_lt hc0' hcW']
    simp
  have hr : r = r' := by rw [← h1, ← h2, h]
  subst hr
  exact ⟨rfl, by omega⟩

/-- The pixels of the image are the pixels of its rows and columns. -/
theorem mem_fullImage (w h : Nat) (hw : 0 < w) (wr : Write) :
    wr ∈ fullImage w h ↔
      ∃ r col : Int, 0 ≤ r ∧ r < h ∧ 0 ≤ col ∧ col < w ∧
        wr = pixelAt (w : Int) (h : Int) (r * w + col) := by
  have hW : (0 : Int) < w := by exact_mod_cast hw
  unfold fullImage
  rw [List.mem_map]
  constructor
  · rintro ⟨j, hj, rfl⟩
    rw [List.mem_range] at hj
    have hj' : ((j : Nat) : Int) < (w : Int) * h := by exact_mod_cast hj
    refine ⟨(j : Int) / w, (j : Int) % w, Int.ediv_nonneg (Int.ofNat_nonneg j) (le_of_lt hW),
      ?_, Int.emod_nonneg _ (by omega), Int.emod_lt_of_pos _ hW, ?_⟩
    · rw [Int.ediv_lt_iff_lt_mul hW]
      linarith
    · congr 1
      have := Int.ediv_add_emod (j : Int) w
      linarith
  · rintro ⟨r, col, hr0, hrH, hcol0, hcolW, rfl⟩
    have h0 : 0 ≤ r * w + col := by positivity
    refine ⟨(r * w + col).toNat, ?_, ?_⟩
    · rw [List.mem_range]
      have h1 : r + 1 ≤ h := by omega
      have h2 := mul_le_mul_of_nonneg_right h1 (le_of_lt hW)
      have h3 : r * w + col < (w : Int) * h := by nlinarith
      have h4 : ((r * w + col).toNat : Int) = r * w + col := Int.toNat_of_nonneg h0
      have h5 : (((r * w + col).toNat : Nat) : Int) < ((w * h : Nat) : Int) := by
        rw [h4]
        push_cast
        exact h3
      exact_mod_cast h5
    · rw [Int.toNat_of_nonneg h0]

namespace Stage3

/-- The loops over the rows and columns of a rectangle inside the image, started with `out` on
its first pixel, write the pixels of the rectangle. -/
theorem blockRows_go (W H c0 c1 : Int) (hc0 : 0 ≤ c0) (hc : c0 ≤ c1) (hc1 : c1 ≤ W)
    (n : Nat) : ∀ r0 : Int,
    blockRows W c0 c1 (forRangeGo (r0 - H.tdiv 2) n) (r0 * W + c0)
      = ((forRangeGo r0 n).flatMap
          (fun r => (forRange (r * W + c0) (r * W + c1)).map (pixelAt W H)),
         (r0 + n) * W + c0) := by
  induction n with
  | zero =>
    intro r0
    simp [forRangeGo, blockRows]
  | succ n ih =>
    intro r0
    have hrow := rowLoop_pixels W H r0 c0 (c1 - c0).toNat hc0 (by omega)
    have e1 : forRange (c0 - W.tdiv 2) (c1 - W.tdiv 2)
        = forRangeGo (c0 - W.tdiv 2) (c1 - c0).toNat := by
      unfold forRange
      congr 1
      omega
    have e2 : forRange (r0 * W + c0) (r0 * W + c1)
        = forRangeGo (r0 * W + c0) (c1 - c0).toNat := by
      unfold forRange
      congr 1
      omega
    have e3 : r0 * W + c0 + ((c1 - c0).toNat : Int) + (W - (c1 - c0)) = (r0 + 1) * W + c0 := by
      rw [Int.toNat_of_nonneg (by omega)]
      ring
    have e4 : r0 - H.tdiv 2 + 1 = r0 + 1 - H.tdiv 2 := by ring
    have e5 : (r0 + 1 + (n : Int)) * W + c0 = (r0 + ((n + 1 : Nat) : Int)) * W + c0 := by
      push_cast
      ring
    rw [forRangeGo, blockRows, e1, hrow]
    simp only []
    rw [e3, e4, ih (r0 + 1), forRangeGo, List.flatMap_cons, e2, e5]

theorem blockRows_rect (W H r0 r1 c0 c1 : Int) (hc0 : 0 ≤ c0) (hc : c0 ≤ c1) (hc1 : c1 ≤ W) :
    (blockRows W c0 c1 (forRange (r0 - H.tdiv 2) (r1 - H.tdiv 2)) (r0 * W + c0)).1
      = rect W H r0 r1 c0 c1 := by
  have e : (r1 - H.tdiv 2 - (r0 - H.tdiv 2)).toNat = (r1 - r0).toNat := by
    congr 1
    ring
  unfold rect
  rw [forRange, e, blockRows_go W H c0 c1 hc0 hc hc1]
  rfl

/-- An iteration of the `do ... while` loop that starts with `startWidth = 0` is the last. -/
theorem doWhile_startWidth_zero (W H B : Int) (overLap : Bool) (n : Nat) (s : BlockState)
    (h0 : s.startWidth = 0) :
    doWhile W H B overLap (n + 1) s
      = some ((blockRows W s.startWidth s.endWidth
          (forRange (s.startHeight - H.tdiv 2) (s.endHeight - H.tdiv 2)) s.out).1, false) := by
  unfold doWhile
  simp only [h0, if_true, ite_self]

/-- Two iterations are enough fuel for the `do ... while` loop: more fuel gives the same
result. -/
theorem doWhile_fuel (W H B : Int) (overLap : Bool) (n : Nat) (s : BlockState) :
    doWhile W H B overLap (n + 2) s = doWhile W H B overLap 2 s := by
  rw [doWhile, doWhile]
  simp only []
  split_ifs <;> rfl

/-- The `do ... while` loop finishes within its fuel. -/
theorem doWhile_isSome (W H B : Int) (overLap : Bool) (s : BlockState) :
    (doWhile W H B overLap doWhileFuel s).isSome = true := by
  unfold doWhileFuel
  rw [doWhile]
  simp only []
  split_ifs <;> first
    | rfl
    | (rw [doWhile_startWidth_zero W H B overLap 0 _ rfl]; rfl)

/-- The body of the loop of `render` finishes for every claimed block. -/
theorem renderBlock_isSome (W H B i : Int) : (renderBlock W H B i).isSome = true := by
  unfold renderBlock
  simp only [apply_ite Option.isSome, Option.isSome_some, doWhile_isSome, ite_self]

/-- The `do ... while` loop, unfolded: the first pass, and a second pass over the wrapped
remainder when the block crosses the right edge and the next band starts inside the image. -/
theorem doWhile_two (W H B : Int) (overLap : Bool) (s : BlockState) :
    doWhile W H B overLap doWhileFuel s
      = if overLap = true then
          if s.startWidth = 0 then
            some ((blockRows W s.startWidth s.endWidth
              (forRange (s.startHeight - H.tdiv 2) (s.endHeight - H.tdiv 2)) s.out).1, false)
          else if s.startHeight + B > H then
            some ((blockRows W s.startWidth s.endWidth
              (forRange (s.startHeight - H.tdiv 2) (s.endHeight - H.tdiv 2)) s.out).1, true)
          else
            some ((blockRows W s.startWidth s.endWidth
                (forRange (s.startHeight - H.tdiv 2) (s.endHeight - H.tdiv 2)) s.out).1
              ++ (blockRows W 0 (s.startWidth + B - W)
                (forRange (s.startHeight + B - H.tdiv 2)
                  ((if s.startHeight + B + B > H then H else s.startHeight + B + B)
                    - H.tdiv 2))
                ((s.startHeight + B) * W)).1, false)
        else
          some ((blockRows W s.startWidth s.endWidth
            (forRange (s.startHeight - H.tdiv 2) (s.endHeight - H.tdiv 2)) s.out).1, false) := by
  unfold doWhileFuel
  rw [doWhile]
  simp only []
  split_ifs <;> first
    | rfl
    | (rw [doWhile_startWidth_zero W H B overLap 0 _ rfl]; rfl)

/-- The body of the loop of `render` for block `i`, when the block is no wider than the image:
with `b` the row band and `c` the column at which the block starts (`B * i = W * b + c`), the
block writes the rectangle of the rows of band `b` and the columns from `c` to the right edge of
the block or of the image, then, when the block crosses the right edge and band `b + 1` starts
inside the image, the rectangle of the rows of band `b + 1` and the columns of the remainder;
the worker leaves `render` when the block crosses the right edge and band `b + 1` starts beyond
the image. -/
theorem renderBlock_eq (W H B i b c : Int) (hH : 0 < H) (hB : 0 < B) (hBW : B ≤ W)
    (hb : 0 ≤ b) (hc0 : 0 ≤ c) (hcW : c < W) (hi : B * i = W * b + c) :
    renderBlock W H B i
      = some (rect W H (b * B) (if b * B + B > H then H else b * B + B) c
            (if c + B > W then W else c + B)
          ++ (if c + B > W ∧ b * B + B ≤ H then
                rect W H (b * B + B) (if b * B + B + B > H then H else b * B + B + B) 0
                  (c + B - W)
              else []),
          decide (c + B > W ∧ b * B + B > H)) := by
  have hW : 0 < W := by omega
  have htd : (B * i).tdiv W = b := by
    rw [hi, Int.tdiv_eq_ediv (by positivity) (by omega), add_comm,
      Int.add_mul_ediv_left _ _ (by omega), Int.ediv_eq_zero_of_lt hc0 hcW]
    simp
  have hsw : B * i - W * b = c := by
    rw [hi]
    ring
  have hbB : 0 ≤ b * B := by positivity
  have hguard : ¬ ((if b * B + B > H then H else b * B + B)
      * (if c + B > W then W else c + B) > W * H) := by
    have h1 : (if b * B + B > H then H else b * B + B) ≤ H := by split_ifs <;> omega
    have h2 : (if c + B > W then W else c + B) ≤ W := by split_ifs <;> omega
    have h3 : 0 ≤ (if c + B > W then W else c + B) := by split_ifs <;> omega
    have := mul_le_mul h1 h2 h3 (by omega)
    rw [mul_comm W H]
    omega
  have hout : c + B * W * b = b * B * W + c := by ring
  unfold renderBlock
  simp only [htd, hsw]
  rw [if_neg hguard, doWhile_two, hout]
  simp only [decide_eq_true_eq]
  have hR1 := blockRows_rect W H (b * B) (if b * B + B > H then H else b * B + B) c
    (if c + B > W then W else c + B) hc0 (by split_ifs <;> omega) (by split_ifs <;> omega)
  rw [hR1]
  by_cases hov : c + B > W
  · have hc : c ≠ 0 := by omega
    rw [if_pos hov, if_neg hc]
    by_cases hret : b * B + B > H
    · rw [if_pos hret]
      simp [hov, hret]
    · rw [if_neg hret]
      have hR2 := blockRows_rect W H (b * B + B) (if b * B + B + B > H then H else b * B + B + B)
        0 (c + B - W) (le_refl 0) (by omega) (by omega)
      rw [add_zero] at hR2
      have hle : b * B + B ≤ H := by omega
      rw [hR2]
      simp [hov, hret, hle]
  · rw [if_neg hov]
    simp [hov]

/-- The writes of the body of the loop for block `i`, when the block is no wider than the
image: the pixels `(r, col)` of the image whose position `(r / B) * W + col` in the reading
order of the bands lies in `[B * i, B * i + B)`. -/
theorem mem_blockWrites (W H B i b c : Int) (hH : 0 < H) (hB : 0 < B) (hBW : B ≤ W)
    (hb : 0 ≤ b) (hc0 : 0 ≤ c) (hcW : c < W) (hi : B * i = W * b + c) (wr : Write) :
    wr ∈ blockWrites W H B i ↔
      ∃ r col : Int, 0 ≤ r ∧ r < H ∧ 0 ≤ col ∧ col < W ∧
        B * i ≤ r / B * W + col ∧ r / B * W + col < B * i + B ∧
        wr = pixelAt W H (r * W + col) := by
  have hW : 0 < W := by omega
  have hbB : 0 ≤ b * B := by positivity
  unfold blockWrites
  rw [renderBlock_eq W H B i b c hH hB hBW hb hc0 hcW hi]
  simp only [List.mem_append, mem_rect]
  constructor
  · rintro (⟨r, col, hr0, hr1, hcol0, hcol1, rfl⟩ | h2)
    · have hrH : r < H := by split_ifs at hr1 <;> omega
      have hrB : r < b * B + B := by split_ifs at hr1 <;> omega
      have hcolW : col < W := by split_ifs at hcol1 <;> omega
      have hcolB : col < c + B := by split_ifs at hcol1 <;> omega
      have hq : r / B = b := ediv_eq_of_band r B b hB hr0 hrB
      refine ⟨r, col, by omega, hrH, by omega, hcolW, ?_, ?_, rfl⟩
      · rw [hq, hi]
        linarith
      · rw [hq, hi]
        linarith
    · by_cases hcond : c + B > W ∧ b * B + B ≤ H
      · rw [if_pos hcond, mem_rect] at h2
        obtain ⟨r, col, hr0, hr1, hcol0, hcol1, rfl⟩ := h2
        have hrH : r < H := by split_ifs at hr1 <;> omega
        have hrB : r < (b + 1) * B + B := by
          have : (b + 1) * B = b * B + B := by ring
          split_ifs at hr1 <;> omega
        have hq : r / B = b + 1 :=
          ediv_eq_of_band r B (b + 1) hB (by rw [add_mul, one_mul]; exact hr0) hrB
        refine ⟨r, col, by omega, hrH, hcol0, by omega, ?_, ?_, rfl⟩
        · rw [hq, hi]
          nlinarith
        · rw [hq, hi]
          nlinarith
      · rw [if_neg hcond] at h2
        exact absurd h2 (List.not_mem_nil _)
  · rintro ⟨r, col, hr0, hrH, hcol0, hcolW, hp1, hp2, rfl⟩
    obtain ⟨hq1, hq2⟩ := band_bounds r B hB
    rw [hi] at hp1 hp2
    have hge : b ≤ r / B := by
      by_contra hlt
      have h1 : r / B + 1 ≤ b := by omega
      have h2 := mul_le_mul_of_nonneg_right h1 (le_of_lt hW)
      nlinarith
    have hle : r / B ≤ b + 1 := by
      by_contra hlt
      have h1 : b + 2 ≤ r / B := by omega
      have h2 := mul_le_mul_of_nonneg_right h1 (le_of_lt hW)
      nlinarith
    have hcases : r / B = b ∨ r / B = b + 1 := by omega
    rcases hcases with hq | hq
    · left
      rw [hq] at hq1 hq2 hp1 hp2
      refine ⟨r, col, hq1, ?_, by linarith, ?_, rfl⟩
      · split_ifs <;> omega
      · have : col < c + B := by linarith
        split_ifs <;> omega
    · right
      rw [hq] at hq1 hq2 hp1 hp2
      have e : (b + 1) * B = b * B + B := by ring
      rw [e] at hq1 hq2
      have hcol : col < c + B - W := by nlinarith
      have hcond : c + B > W ∧ b * B + B ≤ H := ⟨by omega, by omega⟩
      rw [if_pos hcond, mem_rect]
      refine ⟨r, col, hq1, ?_, hcol0, hcol, rfl⟩
      split_ifs <;> omega

/-- The decomposition of the offset `B * i` of block `i` into a row band and a column. -/
theorem block_decomposition (W B i : Int) (hW : 0 < W) (hB : 0 < B) (hi : 0 ≤ i) :
    0 ≤ B * i / W ∧ 0 ≤ B * i % W ∧ B * i % W < W ∧ B * i = W * (B * i / W) + B * i % W :=
  ⟨Int.ediv_nonneg (by positivity) (le_of_lt hW), Int.emod_nonneg _ (by omega),
    Int.emod_lt_of_pos _ hW, (Int.ediv_add_emod _ _).symm⟩

/-- The writes of one block are distinct. -/
theorem nodup_blockWrites (W H B i : Int) (hH : 0 < H) (hB : 0 < B) (hBW : B ≤ W)
    (hi : 0 ≤ i) : (blockWrites W H B i).Nodup := by
  have hW : 0 < W := by omega
  obtain ⟨hb, hc0, hcW, hdec⟩ := block_decomposition W B i hW hB hi
  unfold blockWrites
  rw [renderBlock_eq W H B i _ _ hH hB hBW hb hc0 hcW hdec]
  simp only []
  rw [List.nodup_append]
  refine ⟨nodup_rect _ _ _ _ _ _ hc0 (by split_ifs <;> omega) (by split_ifs <;> omega), ?_, ?_⟩
  · by_cases hcond : B * i % W + B > W ∧ B * i / W * B + B ≤ H
    · rw [if_pos hcond]
      exact nodup_rect _ _ _ _ _ _ (le_refl 0) (by omega) (by omega)
    · rw [if_neg hcond]
      exact List.nodup_nil
  · rw [List.disjoint_left]
    intro wr h1 h2
    by_cases hcond : B * i % W + B > W ∧ B * i / W * B + B ≤ H
    · rw [if_pos hcond, mem_rect] at h2
      rw [mem_rect] at h1
      obtain ⟨r, col, hr0, hr1, hcol0, hcol1, rfl⟩ := h1
      obtain ⟨r', col', hr0', hr1', hcol0', hcol1', he⟩ := h2
      have hidx : r * W + col = r' * W + col' := congrArg Write.index he
      have hcolW : col < W := by split_ifs at hcol1 <;> omega
      have hrB : r < B * i / W * B + B := by split_ifs at hr1 <;> omega
      obtain ⟨hr, _⟩ := row_col_unique W r col r' col' (by omega) hcolW hcol0' (by omega) hidx
      omega
    · rw [if_neg hcond] at h2
      exact absurd h2 (List.not_mem_nil _)

/-- With `blockSize = 1` block `i` writes at the buffer index `i` only. -/
theorem blockWrites_unit_index (W H i : Int) (hW : 0 < W) (hH : 0 < H) (hi : 0 ≤ i)
    (wr : Write) (h : wr ∈ blockWrites W H 1 i) : wr.index = i := by
  obtain ⟨hb, hc0, hcW, hdec⟩ := block_decomposition W 1 i hW (by norm_num) hi
  rw [mem_blockWrites W H 1 i _ _ hH (by norm_num) (by omega) hb hc0 hcW hdec] at h
  obtain ⟨r, col, _, _, _, _, h1, h2, rfl⟩ := h
  rw [Int.ediv_one] at h1 h2
  show r * W + col = i
  omega

/-- A worker leaves `render` from inside the body of the loop only at a block that crosses the
right edge of the image in a row band whose successor starts beyond the image. -/
theorem renderBlock_returns (W H B i : Int) (hH : 0 < H) (hB : 0 < B) (hBW : B ≤ W)
    (hi : 0 ≤ i) (ws : List Write) (h : renderBlock W H B i = some (ws, true)) :
    B * i % W + B > W ∧ B * i / W * B + B > H := by
  have hW : 0 < W := by omega
  obtain ⟨hb, hc0, hcW, hdec⟩ := block_decomposition W B i hW hB hi
  rw [renderBlock_eq W H B i _ _ hH hB hBW hb hc0 hcW hdec] at h
  have h2 := congrArg (fun o => o.map Prod.snd) h
  simp only [Option.map_some', Option.some.injEq, decide_eq_true_eq] at h2
  exact h2

/-- The writes of the blocks `0, ..., M - 1`, when `M` blocks reach beyond every pixel of the
image in the reading order of the bands: up to their order, the pixels of the image, each
written once. -/
theorem flatMap_blockWrites_perm (w h : Nat) (B : Int) (M : Nat) (hw : 0 < w) (hh : 0 < h)
    (hB : 0 < B) (hBW : B ≤ w)
    (hM : ∀ r col : Int, 0 ≤ r → r < h → 0 ≤ col → col < w → r / B * w + col < B * M) :
    ((List.range M).flatMap (fun (i : Nat) => blockWrites (w : Int) (h : Int) B (i : Int))).Perm
      (fullImage w h) := by
  have hW : (0 : Int) < w := by exact_mod_cast hw
  have hH : (0 : Int) < h := by exact_mod_cast hh
  have hmem : ∀ (i : Nat) (wr : Write), wr ∈ blockWrites (w : Int) (h : Int) B (i : Int) ↔
      ∃ r col : Int, 0 ≤ r ∧ r < h ∧ 0 ≤ col ∧ col < w ∧
        B * i ≤ r / B * w + col ∧ r / B * w + col < B * i + B ∧
        wr = pixelAt (w : Int) (h : Int) (r * w + col) := by
    intro i wr
    obtain ⟨hb, hc0, hcW, hdec⟩ := block_decomposition (w : Int) B i hW hB (Int.ofNat_nonneg i)
    exact mem_blockWrites (w : Int) (h : Int) B i _ _ hH hB hBW hb hc0 hcW hdec wr
  have hnd1 : ((List.range M).flatMap
      (fun (i : Nat) => blockWrites (w : Int) (h : Int) B (i : Int))).Nodup := by
    rw [List.nodup_flatMap]
    refine ⟨fun i _ => nodup_blockWrites _ _ _ _ hH hB hBW (Int.ofNat_nonneg i), ?_⟩
    apply List.Nodup.pairwise_of_forall_ne (List.nodup_range M)
    intro i _ j _ hne
    show List.Disjoint _ _
    rw [List.disjoint_left]
    intro wr h1 h2
    obtain ⟨r, col, _, _, hcol0, hcolW, hp1, hp2, rfl⟩ := (hmem i wr).1 h1
    obtain ⟨r', col', _, _, hcol0', hcolW', hp1', hp2', he⟩ := (hmem j _).1 h2
    have hidx : r * w + col = r' * w + col' := congrArg Write.index he
    obtain ⟨hr, hc⟩ := row_col_unique w r col r' col' hcol0 hcolW hcol0' hcolW' hidx
    subst hr hc
    apply hne
    have h3 : (i : Int) < j + 1 := by
      by_contra hlt
      have : (j : Int) + 1 ≤ i := by omega
      have := mul_le_mul_of_nonneg_left this (le_of_lt hB)
      nlinarith
    have h4 : (j : Int) < i + 1 := by
      by_contra hlt
      have : (i : Int) + 1 ≤ j := by omega
      have := mul_le_mul_of_nonneg_left this (le_of_lt hB)
      nlinarith
    omega
  have hnd2 : (fullImage w h).Nodup := by
    apply List.Nodup.of_map Write.index
    rw [fullImage_index]
    exact (List.nodup_range _).map (fun a b hab => by exact_mod_cast hab)
  rw [List.perm_ext_iff_of_nodup hnd1 hnd2]
  intro wr
  rw [List.mem_flatMap, mem_fullImage w h hw]
  constructor
  · rintro ⟨i, _, hi⟩
    obtain ⟨r, col, hr0, hrH, hcol0, hcolW, _, _, he⟩ := (hmem i wr).1 hi
    exact ⟨r, col, hr0, hrH, hcol0, hcolW, he⟩
  · rintro ⟨r, col, hr0, hrH, hcol0, hcolW, he⟩
    have hq0 : 0 ≤ r / B := Int.ediv_nonneg hr0 (le_of_lt hB)
    have hpos0 : 0 ≤ r / B * w + col := by positivity
    obtain ⟨hb1, hb2⟩ := band_bounds (r / B * w + col) B hB
    have hi0 : 0 ≤ (r / B * w + col) / B := Int.ediv_nonneg hpos0 (le_of_lt hB)
    have hcast : (((r / B * w + col) / B).toNat : Int) = (r / B * w + col) / B :=
      Int.toNat_of_nonneg hi0
    refine ⟨((r / B * w + col) / B).toNat, ?_, ?_⟩
    · rw [List.mem_range]
      have hlt := hM r col hr0 hrH hcol0 hcolW
      have h5 : (r / B * w + col) / B < M := by
        rw [Int.ediv_lt_iff_lt_mul hB]
        linarith
      omega
    · rw [hmem, hcast]
      exact ⟨r, col, hr0, hrH, hcol0, hcolW, by linarith, by linarith, he⟩

end Stage3

namespace Stage3

/-- The conversion to `int` keeps a value of the range of `int`. -/
theorem toInt_of_range (v : Int) (h0 : -2147483648 ≤ v) (h1 : v < 2147483648) :
    toInt v = v := by
  unfold toInt
  omega

/-- The conversion to `unsigned int` keeps a value of the range of `unsigned int`. -/
theorem toUnsigned_of_range (v : Int) (h0 : 0 ≤ v) (h1 : v < 4294967296) :
    ((toUnsigned v : Nat) : Int) = v := by
  unfold toUnsigned
  omega

/-- The conversion to `float` keeps an integer up to `2 ^ 24`. -/
theorem toFloat_of_le (n : Nat) (h : n ≤ 16777216) : toFloat n = n := by
  by_cases hlt : n < 16777216
  · have hs : significandShift 8 n = 0 := by
      unfold significandShift
      rw [if_pos hlt]
    unfold toFloat
    simp only [hs, pow_zero, Nat.mod_one, Nat.div_one, mul_zero, mul_one]
    simp
  · have hn : n = 16777216 := by omega
    subst hn
    decide

/-- The padding of line 128, as a number. -/
theorem pad_bounds (e B : Int) (he : 0 < e) (hB : 0 < B) :
    0 ≤ (if e % B = 0 then 0 else B) ∧ (if e % B = 0 then 0 else B) ≤ B ∧
    B ≤ e + (if e % B = 0 then 0 else B) := by
  by_cases hdiv : e % B = 0
  · rw [if_pos hdiv]
    have hle : B ≤ e := Int.le_of_dvd he (Int.dvd_of_emod_eq_zero hdiv)
    omega
  · rw [if_neg hdiv]
    omega

/-- The padding of an extent that is a multiple of the block size is `0`, otherwise it is the
block size, as long as the extent and the block size are in the range of an `int`. -/
theorem tmpPad_eq (e B : Int) (he : 0 ≤ e) (he' : e < 2147483648) (hB : 0 < B)
    (hB' : B < 2147483648) :
    tmpPad e B = if e % B = 0 then 0 else B := by
  unfold tmpPad
  rw [toUnsigned_of_range e he (by omega), Int.tmod_eq_emod he (le_of_lt hB), zero_add,
    toInt_of_range B (by omega) hB']
  split_ifs <;> simp_all

/-- When the product of the padded dimensions is below `2 ^ 31`, no integer conversion of lines
128-138 changes a value: `times` is the exact quotient, sent through `float` and back. -/
theorem times_float (W H B : Int) (hW : 0 < W) (hH : 0 < H) (hB : 0 < B)
    (hover : (W + (if W % B = 0 then 0 else B)) * (H + (if H % B = 0 then 0 else B))
      < 2147483648) :
    times W H B
      = floatToInt (toFloat
          ((W + (if W % B = 0 then 0 else B)) * (H + (if H % B = 0 then 0 else B))
            / (B * B)).toNat) := by
  obtain ⟨hw0, hw1, hw2⟩ := pad_bounds W B hW hB
  obtain ⟨hh0, hh1, hh2⟩ := pad_bounds H B hH hB
  have hBB : B * B ≤ (W + (if W % B = 0 then 0 else B)) * (H + (if H % B = 0 then 0 else B)) :=
    mul_le_mul hw2 hh2 (le_of_lt hB) (by omega)
  have hWle : W + (if W % B = 0 then 0 else B)
      ≤ (W + (if W % B = 0 then 0 else B)) * (H + (if H % B = 0 then 0 else B)) := by
    have : (W + (if W % B = 0 then 0 else B)) * 1
        ≤ (W + (if W % B = 0 then 0 else B)) * (H + (if H % B = 0 then 0 else B)) :=
      mul_le_mul_of_nonneg_left (by omega) (by omega)
    omega
  have hHle : H + (if H % B = 0 then 0 else B)
      ≤ (W + (if W % B = 0 then 0 else B)) * (H + (if H % B = 0 then 0 else B)) := by
    have : 1 * (H + (if H % B = 0 then 0 else B))
        ≤ (W + (if W % B = 0 then 0 else B)) * (H + (if H % B = 0 then 0 else B)) :=
      mul_le_mul_of_nonneg_right (by omega) (by omega)
    omega
  have hBlt : B < 2147483648 := by omega
  have hBB0 : 0 < B * B := mul_pos hB hB
  have hP0 : 0 ≤ (W + (if W % B = 0 then 0 else B)) * (H + (if H % B = 0 then 0 else B)) :=
    mul_nonneg (by omega) (by omega)
  unfold times
  rw [tmpPad_eq W B (by omega) (by omega) hB hBlt, tmpPad_eq H B (by omega) (by omega) hB hBlt,
    toInt_of_range (W + (if W % B = 0 then 0 else B)) (by omega) (by omega),
    toInt_of_range (H + (if H % B = 0 then 0 else B)) (by omega) (by omega),
    toInt_of_range _ (by omega) (by omega), toUnsigned_of_range _ hP0 (by omega),
    toUnsigned_of_range _ (le_of_lt hBB0) (by omega),
    Int.tdiv_eq_ediv hP0 (le_of_lt hBB0)]

/-- When moreover the quotient is at most `2 ^ 24`, the round trip through `float` keeps it:
`times` is the exact quotient. -/
theorem times_exact (W H B : Int) (hW : 0 < W) (hH : 0 < H) (hB : 0 < B)
    (hover : (W + (if W % B = 0 then 0 else B)) * (H + (if H % B = 0 then 0 else B))
      < 2147483648)
    (hfloat : (W + (if W % B = 0 then 0 else B)) * (H + (if H % B = 0 then 0 else B))
      / (B * B) ≤ 16777216) :
    times W H B
      = (W + (if W % B = 0 then 0 else B)) * (H + (if H % B = 0 then 0 else B)) / (B * B) := by
  obtain ⟨hw0, _, _⟩ := pad_bounds W B hW hB
  obtain ⟨hh0, _, _⟩ := pad_bounds H B hH hB
  have hq0 : 0 ≤ (W + (if W % B = 0 then 0 else B)) * (H + (if H % B = 0 then 0 else B))
      / (B * B) :=
    Int.ediv_nonneg (mul_nonneg (by omega) (by omega)) (le_of_lt (mul_pos hB hB))
  rw [times_float W H B hW hH hB hover, toFloat_of_le _ (by omega)]
  unfold floatToInt
  rw [if_pos (by omega)]
  exact Int.toNat_of_nonneg hq0

/-- The padded height reaches the end of the row band of every row of the image. -/
theorem band_end_le_padded (H B r : Int) (hB : 0 < B) (hrH : r < H) :
    (r / B + 1) * B ≤ H + (if H % B = 0 then 0 else B) := by
  obtain ⟨h1, h2⟩ := band_bounds r B hB
  have e : (r / B + 1) * B = r / B * B + B := by ring
  rw [e]
  split_ifs with hdiv
  · have hH : B * (H / B) = H := by
      have := Int.ediv_add_emod H B
      omega
    have h3 : r / B < H / B := by
      by_contra hge
      have h4 : H / B ≤ r / B := by omega
      have h5 := mul_le_mul_of_nonneg_left h4 (le_of_lt hB)
      nlinarith
    have h6 : r / B + 1 ≤ H / B := by omega
    have h7 := mul_le_mul_of_nonneg_left h6 (le_of_lt hB)
    nlinarith
  · omega

/-- The exact quotient of the padded area by the area of a block is large enough for the
blocks to reach beyond every pixel of the image in the reading order of the bands. -/
theorem padded_reaches (W H B r col : Int) (hW : 0 < W) (hB : 0 < B) (hr0 : 0 ≤ r)
    (hrH : r < H) (hcolW : col < W) :
    r / B * W + col
      < B * ((W + (if W % B = 0 then 0 else B)) * (H + (if H % B = 0 then 0 else B))
          / (B * B)) := by
  have hq0 : 0 ≤ r / B := Int.ediv_nonneg hr0 (le_of_lt hB)
  have hband := band_end_le_padded H B r hB hrH
  obtain ⟨hpW, _, _⟩ := pad_bounds W B hW hB
  have hX : (W + (if W % B = 0 then 0 else B)) * (r / B + 1) * B
      ≤ (W + (if W % B = 0 then 0 else B)) * (H + (if H % B = 0 then 0 else B)) := by
    rw [mul_assoc]
    exact mul_le_mul_of_nonneg_left hband (by omega)
  have hT : (W + (if W % B = 0 then 0 else B)) * (r / B + 1) / B
      ≤ (W + (if W % B = 0 then 0 else B)) * (H + (if H % B = 0 then 0 else B)) / (B * B) := by
    calc (W + (if W % B = 0 then 0 else B)) * (r / B + 1) / B
        = (W + (if W % B = 0 then 0 else B)) * (r / B + 1) * B / (B * B) := by
          rw [Int.mul_ediv_mul_of_pos_left _ _ hB]
      _ ≤ (W + (if W % B = 0 then 0 else B)) * (H + (if H % B = 0 then 0 else B)) / (B * B) :=
          Int.ediv_le_ediv (mul_pos hB hB) hX
  have hBT := mul_le_mul_of_nonneg_left hT (le_of_lt hB)
  have hY : W * (r / B + 1)
      ≤ B * ((W + (if W % B = 0 then 0 else B)) * (r / B + 1) / B) := by
    split_ifs with hdiv
    · rw [add_zero]
      have hdvd : B ∣ W * (r / B + 1) :=
        Dvd.dvd.mul_right (Int.dvd_of_emod_eq_zero hdiv) _
      rw [Int.mul_ediv_cancel' hdvd]
    · have e : (W + B) * (r / B + 1) = W * (r / B + 1) + (r / B + 1) * B := by ring
      rw [e, Int.add_mul_ediv_right _ _ (by omega)]
      obtain ⟨h1, h2⟩ := band_bounds (W * (r / B + 1)) B hB
      nlinarith
  nlinarith

/-- The block count `times` is large enough for the blocks to reach beyond every pixel of the
image in the reading order of the bands, when the arithmetic of lines 128-138 is exact. -/
theorem times_reaches (W H B r col : Int) (hW : 0 < W) (hB : 0 < B) (hr0 : 0 ≤ r)
    (hrH : r < H) (hcolW : col < W)
    (hover : (W + (if W % B = 0 then 0 else B)) * (H + (if H % B = 0 then 0 else B))
      < 2147483648)
    (hfloat : (W + (if W % B = 0 then 0 else B)) * (H + (if H % B = 0 then 0 else B))
      / (B * B) ≤ 16777216) :
    r / B * W + col < B * times W H B := by
  rw [times_exact W H B hW (by omega) hB hover hfloat]
  exact padded_reaches W H B r col hW hB hr0 hrH hcolW

/-- The block count `times` is not negative and at most `2 ^ 24`, when the arithmetic of lines
128-138 is exact. -/
theorem times_nonneg (W H B : Int) (hW : 0 < W) (hH : 0 < H) (hB : 0 < B)
    (hover : (W + (if W % B = 0 then 0 else B)) * (H + (if H % B = 0 then 0 else B))
      < 2147483648)
    (hfloat : (W + (if W % B = 0 then 0 else B)) * (H + (if H % B = 0 then 0 else B))
      / (B * B) ≤ 16777216) :
    0 ≤ times W H B ∧ times W H B ≤ 16777216 := by
  obtain ⟨hw0, _, _⟩ := pad_bounds W B hW hB
  obtain ⟨hh0, _, _⟩ := pad_bounds H B hH hB
  rw [times_exact W H B hW hH hB hover hfloat]
  exact ⟨Int.ediv_nonneg (mul_nonneg (by omega) (by omega)) (le_of_lt (mul_pos hB hB)), hfloat⟩

/-- The paddings of natural-number extents, as integers. -/
theorem pad_natCast (e bs : Nat) :
    (((if e % bs = 0 then 0 else bs : Nat)) : Int)
      = if (e : Int) % (bs : Int) = 0 then 0 else (bs : Int) := by
  have hiff : ((e : Int) % (bs : Int) = 0) ↔ e % bs = 0 := by
    rw [← Int.natCast_mod]
    exact_mod_cast Iff.rfl
  by_cases hdiv : e % bs = 0
  · rw [if_pos hdiv, if_pos (hiff.2 hdiv)]
    rfl
  · rw [if_neg hdiv, if_neg (fun hc => hdiv (hiff.1 hc))]

/-- The exact quotient of the padded area of natural-number dimensions, as an integer. -/
theorem padded_natCast (w h bs : Nat) :
    ((((w + (if w % bs = 0 then 0 else bs)) * (h + (if h % bs = 0 then 0 else bs))
        / (bs * bs) : Nat)) : Int)
      = ((w : Int) + (if (w : Int) % (bs : Int) = 0 then 0 else (bs : Int)))
          * ((h : Int) + (if (h : Int) % (bs : Int) = 0 then 0 else (bs : Int)))
          / ((bs : Int) * (bs : Int)) ∧
    ((((w + (if w % bs = 0 then 0 else bs)) * (h + (if h % bs = 0 then 0 else bs)) : Nat))
        : Int)
      = ((w : Int) + (if (w : Int) % (bs : Int) = 0 then 0 else (bs : Int)))
          * ((h : Int) + (if (h : Int) % (bs : Int) = 0 then 0 else (bs : Int))) := by
  rw [← pad_natCast w bs, ← pad_natCast h bs]
  constructor
  · push_cast
    rfl
  · push_cast
    rfl

end Stage3

namespace Stage3

theorem step_block (W H B : Int) (threads : Nat) (p : Pool) (t : Nat)
    (hrun : t < threads ∧ t ∉ p.exited)
    (hlt : interlockedIncrement p.lineCount < toUnsigned (times W H B))
    (ws : List Write) (returned : Bool)
    (hrb : renderBlock W H B ((interlockedIncrement p.lineCount : Nat) : Int)
      = some (ws, returned)) :
    step W H B threads p t
      = { lineCount := interlockedIncrement p.lineCount,
          exited := if returned then t :: p.exited else p.exited,
          written := p.written ++ ws,
          claims := p.claims ++ [(t, interlockedIncrement p.lineCount)] } := by
  unfold step
  rw [if_pos hrun]
  simp only []
  rw [if_pos hlt, hrb]

theorem block_step_exit (W H B : Int) (threads : Nat) (p : Pool) (t : Nat)
    (hrun : t < threads ∧ t ∉ p.exited)
    (hlt : ¬ interlockedIncrement p.lineCount < toUnsigned (times W H B)) :
    step W H B threads p t
      = { lineCount := interlockedIncrement p.lineCount, exited := t :: p.exited,
          written := p.written,
          claims := p.claims ++ [(t, interlockedIncrement p.lineCount)] } := by
  unfold step
  rw [if_pos hrun]
  simp only []
  rw [if_neg hlt]

theorem block_step_idle (W H B : Int) (threads : Nat) (p : Pool) (t : Nat)
    (hrun : ¬ (t < threads ∧ t ∉ p.exited)) :
    step W H B threads p t = p := by
  unfold step
  rw [if_neg hrun]

/-- The writes of a block are the writes that the body of the loop returns. -/
theorem blockWrites_of_renderBlock (W H B i : Int) (ws : List Write) (returned : Bool)
    (h : renderBlock W H B i = some (ws, returned)) : blockWrites W H B i = ws := by
  unfold blockWrites
  rw [h]

theorem block_invariant_init (W H B : Int) (threads : Nat) :
    Invariant W H B threads Pool.init := by
  refine ⟨0, ?_, ?_, ?_, ?_, ?_, ?_, ?_, ?_⟩ <;> simp [Pool.init]

/-- One turn of a worker keeps the invariant, as long as the cursor cannot wrap around. -/
theorem block_invariant_step (W H B : Int) (threads : Nat)
    (hbound : toUnsigned (times W H B) + threads ≤ 4294967296) (p : Pool) (t : Nat)
    (hp : Invariant W H B threads p) :
    Invariant W H B threads (step W H B threads p t) := by
  by_cases hrun : t < threads ∧ t ∉ p.exited
  · obtain ⟨k, h1, hc, h2, h3, h4, h5, h6, h7⟩ := hp
    have hnd : (t :: p.exited).Nodup := List.nodup_cons.2 ⟨hrun.2, h4⟩
    have hall : ∀ u ∈ t :: p.exited, u < threads := by
      intro u hu
      rcases List.mem_cons.1 hu with rfl | hu
      · exact hrun.1
      · exact h5 u hu
    have hlen : (t :: p.exited).length ≤ threads := length_le_of_nodup_of_lt _ _ hnd hall
    simp only [List.length_cons] at hlen
    have hk : k < 4294967296 := by omega
    have hinc : interlockedIncrement p.lineCount = k := by
      rw [h2, interlockedIncrement_cursor k hk]
    have hcl : ∀ c ∈ p.claims ++ [(t, k)], c.1 < threads := by
      intro c hc'
      rcases List.mem_append.1 hc' with hc' | hc'
      · exact hc c hc'
      · rw [List.mem_singleton] at hc'
        rw [hc']
        exact hrun.1
    by_cases hlt : interlockedIncrement p.lineCount < toUnsigned (times W H B)
    · have hsome := renderBlock_isSome W H B ((interlockedIncrement p.lineCount : Nat) : Int)
      obtain ⟨⟨ws, returned⟩, hrb⟩ := Option.isSome_iff_exists.1 hsome
      rw [step_block W H B threads p t hrun hlt ws returned hrb]
      rw [hinc] at hlt hrb ⊢
      have hws := blockWrites_of_renderBlock W H B k ws returned hrb
      refine ⟨k + 1, ?_, hcl, ?_, ?_, ?_, ?_, ?_, ?_⟩
      · simp [h1, List.range_succ]
      · simp only []
        omega
      · simp only [h3]
        rw [Nat.min_eq_left (by omega), Nat.min_eq_left (by omega), List.range_succ,
          List.flatMap_append, List.flatMap_singleton, hws]
      · simp only []
        split_ifs
        · exact hnd
        · exact h4
      · simp only []
        split_ifs
        · exact hall
        · exact h5
      · simp only []
        omega
      · simp only []
        cases returned with
        | true =>
          intro _
          exact ⟨k, by omega, Or.inr ⟨ws, hrb⟩⟩
        | false =>
          intro hne
          obtain ⟨c, hck, hcc⟩ := h7 (by simpa using hne)
          exact ⟨c, by omega, hcc⟩
    · rw [block_step_exit W H B threads p t hrun hlt, hinc]
      rw [hinc] at hlt
      refine ⟨k + 1, ?_, hcl, ?_, ?_, hnd, hall, ?_, ?_⟩
      · simp [h1, List.range_succ]
      · simp only []
        omega
      · simp only [h3]
        rw [Nat.min_eq_right (by omega), Nat.min_eq_right (by omega)]
      · simp only [List.length_cons]
        omega
      · intro _
        exact ⟨k, by omega, Or.inl (by omega)⟩
  · rw [block_step_idle W H B threads p t hrun]
    exact hp

theorem block_invariant_foldl (W H B : Int) (threads : Nat)
    (hbound : toUnsigned (times W H B) + threads ≤ 4294967296) (schedule : List Nat) :
    ∀ p : Pool, Invariant W H B threads p →
      Invariant W H B threads (schedule.foldl (step W H B threads) p) := by
  induction schedule with
  | nil => intro p hp; exact hp
  | cons t ts ih =>
    intro p hp
    exact ih _ (block_invariant_step W H B threads hbound p t hp)

theorem block_invariant_run (W H B : Int) (threads : Nat)
    (hbound : toUnsigned (times W H B) + threads ≤ 4294967296) (schedule : List Nat) :
    Invariant W H B threads (run W H B threads schedule) :=
  block_invariant_foldl W H B threads hbound schedule _ (block_invariant_init W H B threads)

end Stage3

namespace Stage3

/-- Once every worker has left `render`, the blocks rendered reach beyond every pixel of the
image, so the writes made are, up to their order, the pixels of the image, each written once. -/
theorem run_allExited_perm (w h : Nat) (B : Int) (threads : Nat) (hw : 0 < w) (hh : 0 < h)
    (hB : 0 < B) (hBW : B ≤ w) (hthreads : 1 ≤ threads)
    (hover : ((w : Int) + (if (w : Int) % B = 0 then 0 else B))
      * ((h : Int) + (if (h : Int) % B = 0 then 0 else B)) < 2147483648)
    (hfloat : ((w : Int) + (if (w : Int) % B = 0 then 0 else B))
      * ((h : Int) + (if (h : Int) % B = 0 then 0 else B)) / (B * B) ≤ 16777216)
    (hthreads' : threads ≤ 2147483648) (schedule : List Nat)
    (hdone : (run (w : Int) (h : Int) B threads schedule).allExited threads) :
    ((run (w : Int) (h : Int) B threads schedule).written).Perm (fullImage w h) := by
  have hW : (0 : Int) < w := by exact_mod_cast hw
  have hH : (0 : Int) < h := by exact_mod_cast hh
  obtain ⟨ht0, ht1⟩ := times_nonneg (w : Int) (h : Int) B hW hH hB hover hfloat
  have hT : ((toUnsigned (times (w : Int) (h : Int) B) : Nat) : Int)
      = times (w : Int) (h : Int) B := by
    unfold toUnsigned
    omega
  obtain ⟨k, h1, hc, h2, h3, h4, h5, h6, h7⟩ :=
    block_invariant_run (w : Int) (h : Int) B threads (by omega) schedule
  have hne : (run (w : Int) (h : Int) B threads schedule).exited ≠ [] := by
    intro he
    have := hdone 0 (by omega)
    rw [he] at this
    exact absurd this (List.not_mem_nil _)
  obtain ⟨c, hck, hcc⟩ := h7 hne
  rw [h3]
  apply flatMap_blockWrites_perm w h B _ hw hh hB hBW
  intro r col hr0 hrH hcol0 hcolW
  have hreach := times_reaches (w : Int) (h : Int) B r col hW hB hr0 hrH hcolW hover hfloat
  by_cases hcT : toUnsigned (times (w : Int) (h : Int) B) ≤ c
  · rw [Nat.min_eq_right (by omega), hT]
    exact hreach
  · rcases hcc with hcc | ⟨ws, hret⟩
    · exact absurd hcc hcT
    · obtain ⟨hov, hbeyond⟩ := renderBlock_returns (w : Int) (h : Int) B c hH hB hBW
        (Int.ofNat_nonneg c) ws hret
      obtain ⟨hb, hc0, hcW, hdec⟩ := block_decomposition (w : Int) B c hW hB (Int.ofNat_nonneg c)
      have hq : r / B < B * c / w + 1 := by
        rw [Int.ediv_lt_iff_lt_mul hB, add_mul, one_mul]
        omega
      have hq' : r / B ≤ B * c / w := by omega
      have h8 := mul_le_mul_of_nonneg_right hq' (le_of_lt hW)
      have hM : (c : Int) + 1 ≤ ((min k (toUnsigned (times (w : Int) (h : Int) B)) : Nat) : Int) := by
        have : c + 1 ≤ min k (toUnsigned (times (w : Int) (h : Int) B)) := by
          rw [Nat.le_min]
          omega
        exact_mod_cast this
      have h9 := mul_le_mul_of_nonneg_left hM (le_of_lt hB)
      nlinarith

theorem block_run_append_singleton (W H B : Int) (threads : Nat) (schedule : List Nat) (t : Nat) :
    run W H B threads (schedule ++ [t])
      = step W H B threads (run W H B threads schedule) t := by
  unfold run
  rw [List.foldl_append]
  rfl

/-- A worker that is still inside `render` has claimed a block below `times` at each of its
turns, so it has had at most `times` turns. -/
theorem block_turns_le_of_running (W H B : Int) (threads : Nat)
    (hbound : toUnsigned (times W H B) + threads ≤ 4294967296) (t : Nat) (ht : t < threads)
    (schedule : List Nat) :
    t ∈ (run W H B threads schedule).exited ∨
      schedule.count t ≤ min (run W H B threads schedule).claims.length
        (toUnsigned (times W H B)) := by
  induction schedule using List.reverseRecOn with
  | nil => right; simp
  | append_singleton l u ih =>
    rw [block_run_append_singleton]
    obtain ⟨k, h1, hc, h2, h3, h4, h5, h6, h7⟩ := block_invariant_run W H B threads hbound l
    have hk : (run W H B threads l).claims.length = k := by
      have := congrArg List.length h1
      simpa using this
    rw [hk] at ih
    by_cases hrun : u < threads ∧ u ∉ (run W H B threads l).exited
    · have hlen : (u :: (run W H B threads l).exited).length ≤ threads :=
        length_le_of_nodup_of_lt _ _ (List.nodup_cons.2 ⟨hrun.2, h4⟩)
          (by
            intro v hv
            rcases List.mem_cons.1 hv with rfl | hv
            · exact hrun.1
            · exact h5 v hv)
      simp only [List.length_cons] at hlen
      have hinc : interlockedIncrement (run W H B threads l).lineCount = k := by
        rw [h2, interlockedIncrement_cursor k (by omega)]
      by_cases hlt : interlockedIncrement (run W H B threads l).lineCount
          < toUnsigned (times W H B)
      · have hsome := renderBlock_isSome W H B
          ((interlockedIncrement (run W H B threads l).lineCount : Nat) : Int)
        obtain ⟨⟨ws, returned⟩, hrb⟩ := Option.isSome_iff_exists.1 hsome
        rw [step_block W H B threads _ u hrun hlt ws returned hrb]
        rw [hinc] at hlt
        rcases ih with ih | ih
        · left
          simp only []
          split_ifs
          · exact List.mem_cons_of_mem _ ih
          · exact ih
        · right
          simp only [List.count_append, List.count_singleton, List.length_append,
            List.length_singleton, hk]
          split_ifs <;> omega
      · rw [block_step_exit W H B threads _ u hrun hlt]
        rcases ih with ih | ih
        · left; exact List.mem_cons_of_mem _ ih
        · by_cases hut : u = t
          · left
            rw [hut]
            exact List.mem_cons_self _ _
          · right
            simp only [List.count_append, List.count_singleton, List.length_append,
              List.length_singleton, hk]
            have : (u == t) = false := by simpa using hut
            simp only [this, Bool.false_eq_true, if_false]
            omega
    · rw [block_step_idle W H B threads _ u hrun]
      rcases ih with ih | ih
      · left; exact ih
      · by_cases hut : u = t
        · left
          subst hut
          by_contra hne
          exact hrun ⟨ht, hne⟩
        · right
          simp only [List.count_append, List.count_singleton, hk]
          have : (u == t) = false := by simpa using hut
          simp only [this, Bool.false_eq_true, if_false]
          omega

/-- Every order of turns that gives each worker at least `times + 1` turns ends with all the
workers out of `render`. -/
theorem block_run_terminates (W H B : Int) (threads : Nat)
    (hbound : toUnsigned (times W H B) + threads ≤ 4294967296) (schedule : List Nat)
    (hfair : ∀ t, t < threads → toUnsigned (times W H B) + 1 ≤ schedule.count t) :
    (run W H B threads schedule).allExited threads := by
  intro t ht
  rcases block_turns_le_of_running W H B threads hbound t ht schedule with h | h
  · exact h
  · have := hfair t ht
    omega

end Stage3

/-! ## Stage3: the claims -/

/-- C1 as stated fails on `render` of Stage3.  When the block is wider than the image: on a
2 by 6 image with `blockSize = 4` the single worker leaves `render` after claiming the values
`0, 1, 2, 3`, having written the indices `0, ..., 7` only; the rows 4 and 5 (indices
`8, ..., 11`) are never written.  When the `int` product of line 137 overflows: on a 50000 by 1
image with `blockSize = 49999` the product `99999 * 50000` wraps, `times` is `0` and the worker
leaves at its first claim without writing.  When the quotient of line 137 is not a `float`: on
a 4097 by 4097 image with `blockSize = 1` `times` is `16785408` instead of `16785409`, and a
single worker that takes `16785409` turns leaves `render` without writing the last pixel, at
index `16785408`. -/
theorem stage3_block_gaps :
    (Stage3.run 2 6 4 1 [0, 0, 0, 0]).allExited 1 ∧
    ((Stage3.run 2 6 4 1 [0, 0, 0, 0]).written).map Write.index = [0, 1, 2, 3, 4, 5, 6, 7] ∧
    (8 : Int) ∉ ((Stage3.run 2 6 4 1 [0, 0, 0, 0]).written).map Write.index ∧
    (Stage3.run 50000 1 49999 1 [0]).allExited 1 ∧
    (Stage3.run 50000 1 49999 1 [0]).written = [] ∧
    (Stage3.run 4097 4097 1 1 (List.replicate 16785409 0)).allExited 1 ∧
    (16785408 : Int) ∉
      ((Stage3.run 4097 4097 1 1 (List.replicate 16785409 0)).written).map Write.index := by
  have ht : Stage3.times 4097 4097 1 = 16785408 := by decide
  have hT : toUnsigned (Stage3.times 4097 4097 1) = 16785408 := by
    rw [ht]
    decide
  have hbound : toUnsigned (Stage3.times 4097 4097 1) + 1 ≤ 4294967296 := by
    rw [hT]
    norm_num
  refine ⟨by decide, by decide, by decide, by decide, by decide, ?_, ?_⟩
  · apply Stage3.block_run_terminates 4097 4097 1 1 hbound
    intro t ht1
    have ht0 : t = 0 := by omega
    rw [ht0, hT, List.count_replicate_self]
  · obtain ⟨k, _, _, _, h3, _⟩ :=
      Stage3.block_invariant_run 4097 4097 1 1 hbound (List.replicate 16785409 0)
    rw [h3, hT]
    intro hmem
    obtain ⟨wr, hwr, hidx⟩ := List.mem_map.1 hmem
    obtain ⟨i, hi, hwi⟩ := List.mem_flatMap.1 hwr
    rw [List.mem_range] at hi
    have := Stage3.blockWrites_unit_index 4097 4097 (i : Int) (by norm_num) (by norm_num)
      (Int.ofNat_nonneg i) wr hwi
    have hi' : i < 16785408 := lt_of_lt_of_le hi (Nat.min_le_right _ _)
    have hi'' : (i : Int) < 16785408 := by exact_mod_cast hi'
    omega

/-- C1, amended: for every `width ≥ 1`, `height ≥ 1`, every block size with
`1 ≤ blockSize ≤ width` and every number of workers `≥ 1` (at most `2 ^ 31`), when the
arithmetic of the block count is exact (the product of the padded dimensions is below `2 ^ 31`,
so the `int` product of line 137 does not overflow, and its quotient by the area of a block is
at most `2 ^ 24`, so the round trip through `float` keeps it), with the shared cursor starting
at `-1`: every order of
turns that gives each worker at least `times + 1` turns ends with all workers out of `render`;
and for every order of the atomic claims, once all workers have left `render` the writes made
(wrapped continuations included) are, up to their order, the pixels of the image at the buffer
indices `0, ..., width * height - 1`, no index written more than once. -/
theorem stage3_blocks_cover (w h bs threads : Nat) (hw : 1 ≤ w) (hh : 1 ≤ h) (hbs : 1 ≤ bs)
    (hbw : bs ≤ w) (ht : 1 ≤ threads) (ht' : threads ≤ 2147483648)
    (hover : (w + (if w % bs = 0 then 0 else bs)) * (h + (if h % bs = 0 then 0 else bs))
      < 2147483648)
    (hfloat : (w + (if w % bs = 0 then 0 else bs)) * (h + (if h % bs = 0 then 0 else bs))
      / (bs * bs) ≤ 16777216) :
    (∀ schedule : List Nat,
      (∀ t, t < threads →
        (Stage3.times (w : Int) (h : Int) (bs : Int)).toNat + 1 ≤ schedule.count t) →
      (Stage3.run (w : Int) (h : Int) (bs : Int) threads schedule).allExited threads) ∧
    (∀ schedule : List Nat,
      (Stage3.run (w : Int) (h : Int) (bs : Int) threads schedule).allExited threads →
      ((Stage3.run (w : Int) (h : Int) (bs : Int) threads schedule).written).Perm
        (fullImage w h) ∧
      (((Stage3.run (w : Int) (h : Int) (bs : Int) threads schedule).written).map
        Write.index).Perm ((List.range (w * h)).map (fun (j : Nat) => (j : Int))) ∧
      (((Stage3.run (w : Int) (h : Int) (bs : Int) threads schedule).written).map
        Write.index).Nodup) := by
  have hW : (0 : Int) < w := by exact_mod_cast hw
  have hH : (0 : Int) < h := by exact_mod_cast hh
  have hB : (0 : Int) < bs := by exact_mod_cast hbs
  have hBW : (bs : Int) ≤ w := by exact_mod_cast hbw
  have hover' : ((w : Int) + (if (w : Int) % (bs : Int) = 0 then 0 else (bs : Int)))
      * ((h : Int) + (if (h : Int) % (bs : Int) = 0 then 0 else (bs : Int)))
      < 2147483648 := by
    rw [← (Stage3.padded_natCast w h bs).2]
    exact_mod_cast hover
  have hfloat' : ((w : Int) + (if (w : Int) % (bs : Int) = 0 then 0 else (bs : Int)))
      * ((h : Int) + (if (h : Int) % (bs : Int) = 0 then 0 else (bs : Int)))
      / ((bs : Int) * (bs : Int)) ≤ 16777216 := by
    rw [← (Stage3.padded_natCast w h bs).1]
    exact_mod_cast hfloat
  obtain ⟨ht0, ht1⟩ :=
    Stage3.times_nonneg (w : Int) (h : Int) (bs : Int) hW hH hB hover' hfloat'
  have hT : toUnsigned (Stage3.times (w : Int) (h : Int) (bs : Int))
      = (Stage3.times (w : Int) (h : Int) (bs : Int)).toNat := by
    unfold toUnsigned
    congr 1
    omega
  constructor
  · intro schedule hfair
    apply Stage3.block_run_terminates (w : Int) (h : Int) (bs : Int) threads (by rw [hT]; omega)
    rw [hT]
    exact hfair
  · intro schedule hdone
    have hperm := Stage3.run_allExited_perm w h (bs : Int) threads hw hh hB hBW ht hover'
      hfloat' ht' schedule hdone
    have hidx := hperm.map Write.index
    rw [fullImage_index] at hidx
    refine ⟨hperm, hidx, ?_⟩
    rw [hidx.nodup_iff]
    exact (List.nodup_range _).map (fun a b hab => by exact_mod_cast hab)

/-- The witness of the amended C1: a 5 by 5 image, `blockSize = 2` and 2 workers; worker 0
leaves `render` from the wraparound exit of block 7, worker 1 at the claim of the value 12. -/
theorem stage3_blocks_cover_witness :
    (Stage3.run ((5 : Nat) : Int) ((5 : Nat) : Int) ((2 : Nat) : Int) 2
      [0, 1, 1, 0, 0, 0, 0, 0, 1, 1, 1, 1, 1]).allExited 2 ∧
    ((Stage3.run ((5 : Nat) : Int) ((5 : Nat) : Int) ((2 : Nat) : Int) 2
      [0, 1, 1, 0, 0, 0, 0, 0, 1, 1, 1, 1, 1]).written).Perm (fullImage 5 5) :=
  ⟨by decide,
   ((stage3_blocks_cover 5 5 2 2 (by decide) (by decide) (by decide) (by decide) (by decide)
      (by decide) (by decide) (by decide)).2 [0, 1, 1, 0, 0, 0, 0, 0, 1, 1, 1, 1, 1] (by decide)).1⟩

/-- C5 as stated fails on Stage3 when the arithmetic of the block count is not exact.  For a
4097 by 4097 image and `blockSize = 1` the quotient of line 137 is `16785409`, which is not a
`float`: `times` is `16785408`, and the blocks below it do not write the last pixel of the
image, at index `16785408`.  For a 50000 by 1 image and `blockSize = 49999` the `int` product
`99999 * 50000` of line 137 wraps and `times` is `0`. -/
theorem stage3_inexact_block_count_gap :
    Stage3.times 4097 4097 1 = 16785408 ∧
    (16785408 : Int) ∉ ((List.range (Stage3.times 4097 4097 1).toNat).flatMap
      (fun (i : Nat) => Stage3.blockWrites 4097 4097 1 (i : Int))).map Write.index ∧
    (16785408 : Int) ∈ (fullImage 4097 4097).map Write.index ∧
    Stage3.times 50000 1 49999 = 0 ∧
    (List.range (Stage3.times 50000 1 49999).toNat).flatMap
      (fun (i : Nat) => Stage3.blockWrites 50000 1 49999 (i : Int)) = [] := by
  have ht : Stage3.times 4097 4097 1 = 16785408 := by decide
  have ht' : Stage3.times 50000 1 49999 = 0 := by decide
  refine ⟨ht, ?_, ?_, ht', ?_⟩
  · rw [ht]
    intro hmem
    obtain ⟨wr, hwr, hidx⟩ := List.mem_map.1 hmem
    obtain ⟨i, hi, hwi⟩ := List.mem_flatMap.1 hwr
    rw [List.mem_range] at hi
    have := Stage3.blockWrites_unit_index 4097 4097 (i : Int) (by norm_num) (by norm_num)
      (Int.ofNat_nonneg i) wr hwi
    have hi' : (i : Int) < 16785408 := by exact_mod_cast hi
    omega
  · rw [fullImage_index, List.mem_map]
    exact ⟨16785408, List.mem_range.2 (by norm_num), rfl⟩
  · rw [ht']
    rfl

/-- C5, amended: for every `width ≥ 1`, `height ≥ 1` and every block size with
`1 ≤ blockSize ≤ width`, divisor of the width or not, when the arithmetic of the block count is
exact (the product of the padded dimensions is below `2 ^ 31` and its quotient by the area of a
block is at most `2 ^ 24`): the body of the loop for block `i`
finishes and writes, with `c = (blockSize * i) mod width` the column and
`b = (blockSize * i) div width` the row band of the offset of the block, the rows of band `b`
in the columns from `c` to the right edge of the block or of the image, followed, when the block
crosses the right edge and band `b + 1` starts inside the image, by the rows of band `b + 1` in
the columns `0, ..., c + blockSize - width - 1`; and the blocks `0, ..., times - 1` together
write, up to the order, the pixels of the image at the buffer indices
`0, ..., width * height - 1`, every pixel exactly once. -/
theorem stage3_nondivisor_cover (w h bs : Nat) (hw : 1 ≤ w) (hh : 1 ≤ h) (hbs : 1 ≤ bs)
    (hbw : bs ≤ w)
    (hover : (w + (if w % bs = 0 then 0 else bs)) * (h + (if h % bs = 0 then 0 else bs))
      < 2147483648)
    (hfloat : (w + (if w % bs = 0 then 0 else bs)) * (h + (if h % bs = 0 then 0 else bs))
      / (bs * bs) ≤ 16777216) :
    (∀ i : Nat, Stage3.renderBlock (w : Int) (h : Int) (bs : Int) (i : Int)
      = some
          (rect w h ((bs : Int) * i / w * bs)
              (if (bs : Int) * i / w * bs + bs > h then h else (bs : Int) * i / w * bs + bs)
              ((bs : Int) * i % w)
              (if (bs : Int) * i % w + bs > w then w else (bs : Int) * i % w + bs)
            ++ (if (bs : Int) * i % w + bs > w ∧ (bs : Int) * i / w * bs + bs ≤ h then
                  rect w h ((bs : Int) * i / w * bs + bs)
                    (if (bs : Int) * i / w * bs + bs + bs > h then h
                      else (bs : Int) * i / w * bs + bs + bs)
                    0 ((bs : Int) * i % w + bs - w)
                else []),
           decide ((bs : Int) * i % w + bs > w ∧ (bs : Int) * i / w * bs + bs > h))) ∧
    ((List.range (Stage3.times (w : Int) (h : Int) (bs : Int)).toNat).flatMap
      (fun (i : Nat) => Stage3.blockWrites (w : Int) (h : Int) (bs : Int) (i : Int))).Perm
        (fullImage w h) ∧
    (((List.range (Stage3.times (w : Int) (h : Int) (bs : Int)).toNat).flatMap
      (fun (i : Nat) => Stage3.blockWrites (w : Int) (h : Int) (bs : Int) (i : Int))).map
        Write.index).Perm ((List.range (w * h)).map (fun (j : Nat) => (j : Int))) := by
  have hW : (0 : Int) < w := by exact_mod_cast hw
  have hH : (0 : Int) < h := by exact_mod_cast hh
  have hB : (0 : Int) < bs := by exact_mod_cast hbs
  have hBW : (bs : Int) ≤ w := by exact_mod_cast hbw
  have hover' : ((w : Int) + (if (w : Int) % (bs : Int) = 0 then 0 else (bs : Int)))
      * ((h : Int) + (if (h : Int) % (bs : Int) = 0 then 0 else (bs : Int)))
      < 2147483648 := by
    rw [← (Stage3.padded_natCast w h bs).2]
    exact_mod_cast hover
  have hfloat' : ((w : Int) + (if (w : Int) % (bs : Int) = 0 then 0 else (bs : Int)))
      * ((h : Int) + (if (h : Int) % (bs : Int) = 0 then 0 else (bs : Int)))
      / ((bs : Int) * (bs : Int)) ≤ 16777216 := by
    rw [← (Stage3.padded_natCast w h bs).1]
    exact_mod_cast hfloat
  obtain ⟨ht0, _⟩ :=
    Stage3.times_nonneg (w : Int) (h : Int) (bs : Int) hW hH hB hover' hfloat'
  have hperm : ((List.range (Stage3.times (w : Int) (h : Int) (bs : Int)).toNat).flatMap
      (fun (i : Nat) => Stage3.blockWrites (w : Int) (h : Int) (bs : Int) (i : Int))).Perm
        (fullImage w h) := by
    apply Stage3.flatMap_blockWrites_perm w h (bs : Int) _ hw hh hB hBW
    intro r col hr0 hrH _ hcolW
    rw [Int.toNat_of_nonneg ht0]
    exact Stage3.times_reaches (w : Int) (h : Int) (bs : Int) r col hW hB hr0 hrH hcolW
      hover' hfloat'
  refine ⟨?_, hperm, ?_⟩
  · intro i
    obtain ⟨hb, hc0, hcW, hdec⟩ :=
      Stage3.block_decomposition (w : Int) (bs : Int) i hW hB (Int.ofNat_nonneg i)
    exact Stage3.renderBlock_eq (w : Int) (h : Int) (bs : Int) i _ _ hH hB hBW hb hc0 hcW hdec
  · have hidx := hperm.map Write.index
    rw [fullImage_index] at hidx
    exact hidx

/-- The witness of the amended C5: `width = 100`, `blockSize = 30` (not a divisor of 100), on 100 rows. -/
theorem stage3_nondivisor_cover_witness :
    ((List.range (Stage3.times ((100 : Nat) : Int) ((100 : Nat) : Int)
        ((30 : Nat) : Int)).toNat).flatMap
      (fun (i : Nat) => Stage3.blockWrites ((100 : Nat) : Int) ((100 : Nat) : Int)
        ((30 : Nat) : Int) (i : Int))).Perm (fullImage 100 100) :=
  (stage3_nondivisor_cover 100 100 30 (by decide) (by decide) (by decide) (by decide)
    (by decide) (by decide)).2.1

/-! ## Stage2: the cursor -/

/-- C11 as stated fails on Stage2: with `height = 10` and 3 workers, when all workers have
left `render` the cursor holds `12`, not `10`: every worker makes one claim that is not below
`height` before it leaves. -/
theorem stage2_terminal_cursor_not_height :
    (Stage2.run 4 10 3 [0, 1, 2, 0, 1, 2, 0, 1, 2, 0, 1, 2, 0]).allExited 3 ∧
    (Stage2.run 4 10 3 [0, 1, 2, 0, 1, 2, 0, 1, 2, 0, 1, 2, 0]).lineCount = 12 ∧
    (Stage2.run 4 10 3 [0, 1, 2, 0, 1, 2, 0, 1, 2, 0, 1, 2, 0]).lineCount ≠ 10 := by
  decide

/-- C11, amended: in every execution of Stage2 with `N ≥ 1` workers on an image of
`height ≥ 1` (both within the range of a C `int`), a turn of a worker leaves the cursor
unchanged or replaces it by its successor (`InterlockedIncrement`, never a decrement), the
values that the claims return are strictly increasing (they are `0, 1, 2, ...`), and when all
workers have left `render` the cursor holds `height + N - 1`: the `height` rows and one failing
claim for each worker, counted from `0`. -/
theorem stage2_cursor (width : Int) (h threads : Nat)
    (hh : 1 ≤ h) (hh' : h < 2147483648) (ht : 1 ≤ threads) (ht' : threads ≤ 2147483648) :
    (∀ (schedule : List Nat) (t : Nat),
      (Stage2.run width (h : Int) threads (schedule ++ [t])).lineCount
          = (Stage2.run width (h : Int) threads schedule).lineCount ∨
      (Stage2.run width (h : Int) threads (schedule ++ [t])).lineCount
          = interlockedIncrement (Stage2.run width (h : Int) threads schedule).lineCount) ∧
    (∀ schedule : List Nat,
      List.Pairwise (fun a b => a < b)
        ((Stage2.run width (h : Int) threads schedule).claims.map Prod.snd)) ∧
    (∀ schedule : List Nat, (Stage2.run width (h : Int) threads schedule).allExited threads →
      (Stage2.run width (h : Int) threads schedule).lineCount = h + threads - 1) := by
  have hu : toUnsigned (h : Int) = h := toUnsigned_natCast h (by omega)
  have hbound : toUnsigned (h : Int) + threads ≤ 4294967296 := by rw [hu]; omega
  refine ⟨?_, ?_, ?_⟩
  · intro schedule t
    rw [Stage2.run_append_singleton]
    by_cases hrun : t < threads ∧ t ∉ (Stage2.run width (h : Int) threads schedule).exited
    · right
      by_cases hlt : interlockedIncrement (Stage2.run width (h : Int) threads schedule).lineCount
          < toUnsigned (h : Int)
      · rw [Stage2.step_claim width (h : Int) threads _ t hrun hlt]
      · rw [Stage2.step_exit width (h : Int) threads _ t hrun hlt]
    · left
      rw [Stage2.step_idle width (h : Int) threads _ t hrun]
  · intro schedule
    obtain ⟨k, h1, _⟩ := Stage2.invariant_run width (h : Int) threads hbound schedule
    rw [h1]
    exact List.pairwise_lt_range k
  · intro schedule hdone
    obtain ⟨k, h1, hc, h2, h3, h4, h5, h6⟩ :=
      Stage2.invariant_run width (h : Int) threads hbound schedule
    have hge := le_length_of_forall_mem _ _ hdone
    have hle := length_le_of_nodup_of_lt _ _ h4 h5
    rw [hu] at h6
    rw [h2]
    omega

/-- The witness of the amended C11: `height = 10` and 3 workers taking turns. -/
theorem stage2_cursor_witness :
    (Stage2.run 4 ((10 : Nat) : Int) 3 [0, 1, 2, 0, 1, 2, 0, 1, 2, 0, 1, 2, 0]).allExited 3 ∧
    (Stage2.run 4 ((10 : Nat) : Int) 3 [0, 1, 2, 0, 1, 2, 0, 1, 2, 0, 1, 2, 0]).lineCount
      = 10 + 3 - 1 :=
  ⟨by decide,
   (stage2_cursor 4 10 3 (by decide) (by decide) (by decide) (by decide)).2.2
      [0, 1, 2, 0, 1, 2, 0, 1, 2, 0, 1, 2, 0] (by decide)⟩

/-! ## Stage3: a block size of zero -/

namespace Stage3

/-- With a block size of zero the checked start of `render` stops at its first statement. -/
theorem prologue_zero (width height : Int) : prologue width height 0 = none := by
  simp [prologue, umod]

/-- When no division by zero occurs, the checked start of `render` computes `times`. -/
theorem prologue_eq_times (width height blockSize : Int) (hb : blockSize ≠ 0)
    (hbb : toUnsigned (blockSize * blockSize) ≠ 0) :
    prologue width height blockSize = some (times width height blockSize) := by
  simp [prologue, umod, udiv, times, tmpPad, hb, hbb]

/-- When no division by zero occurs, a checked turn is a turn. -/
theorem checkedStep_eq_step (width height blockSize : Int) (threads : Nat) (p : Pool) (t : Nat)
    (hb : blockSize ≠ 0) (hbb : toUnsigned (blockSize * blockSize) ≠ 0) :
    checkedStep width height blockSize threads p t
      = some (step width height blockSize threads p t) := by
  unfold checkedStep
  rw [prologue_eq_times width height blockSize hb hbb]

/-- The workers that `main` spawns carry the block size of the command line, whatever it is. -/
theorem spawned_blockSize (atoi : String → Int) (init : String → Bool) (allocate : Nat → Bool)
    (programName : String) (arguments : List String) (o : Options) (l : List ThreadData)
    (hparse : parseArgs atoi arguments Options.initial = some o)
    (h : spawned atoi init allocate programName arguments = some l) :
    l.length = o.threads ∧ ∀ d ∈ l, d.blockSize = o.blockSize := by
  unfold spawned at h
  rw [hparse] at h
  simp only [] at h
  cases hin : o.inputFilename with
  | none =>
    rw [hin] at h
    simp at h
  | some inputFilename =>
    rw [hin] at h
    simp only [] at h
    cases h1 : strrchr inputFilename.data '/' with
    | none =>
      rw [h1] at h
      simp at h
    | some inputTail =>
      cases h2 : strrchr programName.data '\\' with
      | none =>
        rw [h1, h2] at h
        simp at h
      | some programTail =>
        rw [h1, h2] at h
        simp only [] at h
        split_ifs at h
        injection h with h
        subst h
        refine ⟨by simp, ?_⟩
        intro d hd
        obtain ⟨i, _, rfl⟩ := List.mem_map.1 hd
        rfl

end Stage3

/-- C12 as stated fails on Stage3: for the command line `-blockSize 0` (with an `atoi` that
converts `"0"` to `0`, a scene that loads and arrays that `new` allocates) `main` does not
reject the configuration: it spawns its worker with `blockSize = 0`, and the first statement of
`render` that the worker runs is a modulo by that `blockSize`. -/
theorem stage3_zero_blockSize_spawned :
    Stage3.spawned (fun s => if s = "0" then 0 else 1) (fun _ => true) (fun _ => true)
        "bin\\Raytrace.exe" ["-blockSize", "0"]
      = some [{ id := 0, width := 1024, height := 1024, sample := 1, threads := 1,
                blockSize := 0, colorRise := false }] ∧
    Stage3.umod 1024 0 = none ∧
    Stage3.prologue 1024 1024 0 = none := by
  decide

/-- C12, amended: Stage3 does not reject a block size of 0.  Whenever `main` gets as far as the
creation of the threads, it spawns one worker for each of the `threads` of the command line,
each carrying the `blockSize` of the command line, `0` included; with `blockSize = 0` the first
statement that a worker runs in `render` is the modulo `width % blockSize`, a division by zero
that stops it before its first claim, so it claims no block and writes no pixel. -/
theorem stage3_zero_blockSize (atoi : String → Int) (init : String → Bool)
    (allocate : Nat → Bool) (programName : String) (arguments : List String)
    (o : Stage3.Options) (l : List Stage3.ThreadData)
    (hparse : Stage3.parseArgs atoi arguments Stage3.Options.initial = some o)
    (hspawn : Stage3.spawned atoi init allocate programName arguments = some l) :
    l.length = o.threads ∧
    (∀ d ∈ l, d.blockSize = o.blockSize) ∧
    (∀ d ∈ l, d.blockSize = 0 →
      Stage3.umod ((toUnsigned d.width : Nat) : Int) (d.blockSize : Int) = none ∧
      Stage3.prologue d.width d.height (d.blockSize : Int) = none ∧
      ∀ (p : Pool) (t : Nat),
        Stage3.checkedStep d.width d.height (d.blockSize : Int) d.threads p t = none) := by
  obtain ⟨h1, h2⟩ :=
    Stage3.spawned_blockSize atoi init allocate programName arguments o l hparse hspawn
  refine ⟨h1, h2, ?_⟩
  intro d _ hd
  have hp : Stage3.prologue d.width d.height (d.blockSize : Int) = none := by
    rw [hd]
    exact Stage3.prologue_zero _ _
  refine ⟨by simp [Stage3.umod, hd], hp, ?_⟩
  intro p t
  unfold Stage3.checkedStep
  rw [hp]

/-- The witness of the amended C12: the command line `-threads 2 -blockSize 0`. -/
theorem stage3_zero_blockSize_witness :
    Stage3.spawned (fun s => if s = "0" then 0 else 2) (fun _ => true) (fun _ => true)
        "bin\\Raytrace.exe" ["-threads", "2", "-blockSize", "0"]
      = some [{ id := 0, width := 1024, height := 1024, sample := 1, threads := 2,
                blockSize := 0, colorRise := false },
              { id := 1, width := 1024, height := 1024, sample := 1, threads := 2,
                blockSize := 0, colorRise := false }] ∧
    Stage3.prologue 1024 1024 ((0 : Nat) : Int) = none :=
  ⟨by decide,
   ((stage3_zero_blockSize (fun s => if s = "0" then 0 else 2) (fun _ => true) (fun _ => true)
      "bin\\Raytrace.exe" ["-threads", "2", "-blockSize", "0"]
      { width := 1024, height := 1024, samples := 1, times := 1, threads := 2,
        colourise := false, blockSize := 0,
        inputFilename := some "../Scenes/bunny500.txt",
        outputFilename := Stage3.OutputName.buffer }
      [{ id := 0, width := 1024, height := 1024, sample := 1, threads := 2,
         blockSize := 0, colorRise := false },
       { id := 1, width := 1024, height := 1024, sample := 1, threads := 2,
         blockSize := 0, colorRise := false }] (by decide) (by decide)).2.2
      { id := 1, width := 1024, height := 1024, sample := 1, threads := 2,
        blockSize := 0, colorRise := false } (by decide) rfl).2.1⟩

/-! ## Stage3: the pixels of one block -/

theorem length_forRangeGo (lo : Int) (n : Nat) : (forRangeGo lo n).length = n := by
  induction n generalizing lo with
  | zero => rfl
  | succ n ih => simp [forRangeGo, ih]

theorem length_forRange (a b : Int) : (forRange a b).length = (b - a).toNat :=
  length_forRangeGo _ _

/-- The number of pixels of a rectangle. -/
theorem length_rect (W H r0 r1 c0 c1 : Int) :
    (rect W H r0 r1 c0 c1).length = (r1 - r0).toNat * (c1 - c0).toNat := by
  unfold rect
  rw [forRange]
  generalize (r1 - r0).toNat = n
  induction n generalizing r0 with
  | zero => simp [forRangeGo]
  | succ n ih =>
    rw [forRangeGo, List.flatMap_cons, List.length_append, ih, List.length_map, length_forRange]
    have e : (r0 * W + c1 - (r0 * W + c0)).toNat = (c1 - c0).toNat := by
      congr 1
      ring
    rw [e]
    ring

/-- C13 as stated fails on Stage3 when the block is wider than the image: on a 2 by 8 image
with `blockSize = 4`, block 0 crosses the right edge and its row band and the following one lie
inside the image, yet the body of the loop writes 8 pixels, not 16: it leaves the
`do ... while` loop by the `break` on `startWidth == 0` without re-emitting the overflow. -/
theorem stage3_wide_block_truncated :
    Stage3.renderBlock 2 8 4 0
      = some ((List.range 8).map (fun (j : Nat) => pixelAt 2 8 (j : Int)), false) ∧
    (Stage3.blockWrites 2 8 4 0).length = 8 ∧
    (Stage3.blockWrites 2 8 4 0).length ≠ 4 * 4 := by
  decide

/-- C13, amended: for every `width ≥ 1`, `height ≥ 1`, every block size with
`1 ≤ blockSize ≤ width` and every claimed block `i` whose right edge exceeds the image width
(`c + blockSize > width`, with `c = (blockSize * i) mod width` and
`b = (blockSize * i) div width`): when the following row band starts inside the image the
overflow is re-emitted once, from column 0 of that band, and the remainder
`c + blockSize - width` fits in the width; and when the two row bands lie entirely inside the
image the block writes exactly `blockSize * blockSize` pixels, all distinct. -/
theorem stage3_wrap_budget (w h bs i : Nat) (hw : 1 ≤ w) (hh : 1 ≤ h) (hbs : 1 ≤ bs)
    (hbw : bs ≤ w) (hedge : (bs : Int) * i % w + bs > w) :
    ((bs : Int) * i / w * bs + bs ≤ h →
      Stage3.blockWrites (w : Int) (h : Int) (bs : Int) (i : Int)
        = rect w h ((bs : Int) * i / w * bs)
            (if (bs : Int) * i / w * bs + bs > h then h else (bs : Int) * i / w * bs + bs)
            ((bs : Int) * i % w) w
          ++ rect w h ((bs : Int) * i / w * bs + bs)
            (if (bs : Int) * i / w * bs + bs + bs > h then h
              else (bs : Int) * i / w * bs + bs + bs)
            0 ((bs : Int) * i % w + bs - w) ∧
      (bs : Int) * i % w + bs - w ≤ w) ∧
    ((bs : Int) * i / w * bs + bs + bs ≤ h →
      ((Stage3.blockWrites (w : Int) (h : Int) (bs : Int) (i : Int)).length : Int)
        = (bs : Int) * bs ∧
      (Stage3.blockWrites (w : Int) (h : Int) (bs : Int) (i : Int)).Nodup ∧
      ((Stage3.blockWrites (w : Int) (h : Int) (bs : Int) (i : Int)).map Write.index).Nodup) := by
  have hW : (0 : Int) < w := by exact_mod_cast hw
  have hH : (0 : Int) < h := by exact_mod_cast hh
  have hB : (0 : Int) < bs := by exact_mod_cast hbs
  have hBW : (bs : Int) ≤ w := by exact_mod_cast hbw
  obtain ⟨hb, hc0, hcW, hdec⟩ :=
    Stage3.block_decomposition (w : Int) (bs : Int) i hW hB (Int.ofNat_nonneg i)
  have hrb := Stage3.renderBlock_eq (w : Int) (h : Int) (bs : Int) i _ _ hH hB hBW hb hc0 hcW hdec
  have hbw' : Stage3.blockWrites (w : Int) (h : Int) (bs : Int) (i : Int)
      = rect w h ((bs : Int) * i / w * bs)
            (if (bs : Int) * i / w * bs + bs > h then h else (bs : Int) * i / w * bs + bs)
            ((bs : Int) * i % w) w
          ++ (if (bs : Int) * i % w + bs > w ∧ (bs : Int) * i / w * bs + bs ≤ h then
                rect w h ((bs : Int) * i / w * bs + bs)
                  (if (bs : Int) * i / w * bs + bs + bs > h then h
                    else (bs : Int) * i / w * bs + bs + bs)
                  0 ((bs : Int) * i % w + bs - w)
              else []) := by
    have := Stage3.blockWrites_of_renderBlock _ _ _ _ _ _ hrb
    rw [this, if_pos hedge]
  constructor
  · intro hnext
    have hcond : (bs : Int) * i % w + bs > w ∧ (bs : Int) * i / w * bs + bs ≤ h :=
      ⟨hedge, hnext⟩
    rw [hbw', if_pos hcond]
    exact ⟨rfl, by omega⟩
  · intro hin
    have hnext : (bs : Int) * i / w * bs + bs ≤ h := by omega
    have hlen : ((Stage3.blockWrites (w : Int) (h : Int) (bs : Int) (i : Int)).length : Int)
        = (bs : Int) * bs := by
      have hcond : (bs : Int) * i % w + bs > w ∧ (bs : Int) * i / w * bs + bs ≤ h :=
        ⟨hedge, hnext⟩
      have hn1 : ¬ (bs : Int) * i / w * bs + bs > h := by omega
      have hn2 : ¬ (bs : Int) * i / w * bs + bs + bs > h := by omega
      rw [hbw', if_pos hcond, List.length_append, length_rect, length_rect,
        if_neg hn1, if_neg hn2]
      push_cast
      rw [Int.toNat_of_nonneg (by omega), Int.toNat_of_nonneg (by omega),
        Int.toNat_of_nonneg (by omega), Int.toNat_of_nonneg (by omega)]
      ring
    have hnd := Stage3.nodup_blockWrites (w : Int) (h : Int) (bs : Int) i hH hB hBW
      (Int.ofNat_nonneg i)
    refine ⟨hlen, hnd, ?_⟩
    refine List.Nodup.map_on ?_ hnd
    intro x hx y hy hxy
    obtain ⟨r, col, _, _, _, _, _, _, rfl⟩ :=
      (Stage3.mem_blockWrites (w : Int) (h : Int) (bs : Int) i _ _ hH hB hBW hb hc0 hcW hdec x).1 hx
    obtain ⟨r', col', _, _, _, _, _, _, rfl⟩ :=
      (Stage3.mem_blockWrites (w : Int) (h : Int) (bs : Int) i _ _ hH hB hBW hb hc0 hcW hdec y).1 hy
    have hidx : r * w + col = r' * w + col' := hxy
    rw [hidx]

/-- The witness of the amended C13: `width = 100`, `blockSize = 30`, block 3, which starts at
column 90 of row band 0 and continues in the columns `0, ..., 19` of row band 1. -/
theorem stage3_wrap_budget_witness :
    ((Stage3.blockWrites ((100 : Nat) : Int) ((100 : Nat) : Int) ((30 : Nat) : Int)
        ((3 : Nat) : Int)).length : Int) = ((30 : Nat) : Int) * (30 : Nat) :=
  ((stage3_wrap_budget 100 100 30 3 (by decide) (by decide) (by decide) (by decide)
      (by decide)).2 (by decide)).1

/-! ## Stage3: the block count -/

namespace Stage3

end Stage3

section PolicyLemmas

variable {α : Type} [LinearOrderedField α]

/-- C15, amended: at every hit the kernel takes the reflection branch (new ray from
`calculateReflection`, `coef` multiplied by the reflection coefficient) exactly when the
reflection coefficient of the material is not zero; otherwise it takes the refraction branch
(new ray and refractive index from `calculateRefraction`, `coef` multiplied by the refraction
coefficient) exactly when the refraction coefficient is not zero; otherwise it treats the
material as opaque and returns the output.  For a coefficient that is not negative, "not zero"
is the same as "> 0". -/
theorem traceBody_policy (K : Kernel α) (scene : Scene α) (s : TraceState α)
    (intersect : Intersection α) (output : Colour α)
    (hhit : (K.objectIntersection scene s.viewRay s.intersect).1 = true)
    (hintersect : intersect = K.calculateIntersectionResponse scene s.viewRay
      (K.objectIntersection scene s.viewRay s.intersect).2)
    (houtput : output = if intersect.insideObject = false then
      s.output + s.coef * K.applyLighting scene s.viewRay intersect else s.output) :
    (intersect.material.reflection ≠ 0 →
      traceBody K scene s = Flow.next
        { output := output,
          currentRefractiveIndex := s.currentRefractiveIndex,
          coef := s.coef * intersect.material.reflection,
          intersect := intersect,
          viewRay := calculateReflection s.viewRay intersect }) ∧
    (intersect.material.reflection = 0 → intersect.material.refraction ≠ 0 →
      traceBody K scene s = Flow.next
        { output := output,
          currentRefractiveIndex := (calculateRefraction K.sqrtf K.DEFAULT_REFRACTIVE_INDEX
            s.viewRay intersect s.currentRefractiveIndex).2,
          coef := s.coef * intersect.material.refraction,
          intersect := intersect,
          viewRay := (calculateRefraction K.sqrtf K.DEFAULT_REFRACTIVE_INDEX
            s.viewRay intersect s.currentRefractiveIndex).1 }) ∧
    (intersect.material.reflection = 0 → intersect.material.refraction = 0 →
      traceBody K scene s = Flow.ret output) ∧
    (0 ≤ intersect.material.reflection →
      (intersect.material.reflection ≠ 0 ↔ 0 < intersect.material.reflection)) ∧
    (0 ≤ intersect.material.refraction →
      (intersect.material.refraction ≠ 0 ↔ 0 < intersect.material.refraction)) := by
  subst hintersect houtput
  have hhit' : ¬ (K.objectIntersection scene s.viewRay s.intersect).1 = false := by
    rw [hhit]
    simp
  refine ⟨?_, ?_, ?_, ?_, ?_⟩
  · intro h1
    unfold traceBody
    simp only []
    rw [if_neg hhit', if_pos h1]
  · intro h1 h2
    unfold traceBody
    simp only []
    rw [if_neg hhit', if_neg (not_not.2 h1), if_pos h2]
  · intro h1 h2
    unfold traceBody
    simp only []
    rw [if_neg hhit', if_neg (not_not.2 h1), if_neg (not_not.2 h2)]
  · intro h0
    exact ⟨fun h => lt_of_le_of_ne h0 (Ne.symm h), fun h => ne_of_gt h⟩
  · intro h0
    exact ⟨fun h => lt_of_le_of_ne h0 (Ne.symm h), fun h => ne_of_gt h⟩

end PolicyLemmas

/-- C15 as stated fails on `traceRay`: at a hit on a material with the reflection coefficient
`-1` and the refraction coefficient `1` the loop body takes the reflection branch: the next ray
is the reflected ray `(0, 0, 1)`, not the refracted ray `(0, 0, -1)`, and `coef` becomes
`1 * -1`. -/
theorem negative_reflection_is_reflected :
    (sampleMaterial (-1) 1).reflection < 0 ∧ 0 < (sampleMaterial (-1) 1).refraction ∧
    traceBody (surfaceKernel (-1) 1) sampleScene
        (traceInit (surfaceKernel (-1) 1) (sampleIntersection (sampleMaterial 0 0)) sampleRay)
      = Flow.next
          { output := ⟨0, 0, 0⟩ + (1 : ℚ) * (⟨1, 1, 1⟩ : Colour ℚ),
            currentRefractiveIndex := 1,
            coef := 1 * -1,
            intersect := sampleIntersection (sampleMaterial (-1) 1),
            viewRay := calculateReflection sampleRay
              (sampleIntersection (sampleMaterial (-1) 1)) } ∧
    (calculateReflection sampleRay (sampleIntersection (sampleMaterial (-1) 1))).dir
      = ⟨0, 0, 1⟩ ∧
    (calculateRefraction (fun v => v) 1 sampleRay
      (sampleIntersection (sampleMaterial (-1) 1)) 1).1.dir = ⟨0, 0, -1⟩ := by
  refine ⟨by norm_num [sampleMaterial], by norm_num [sampleMaterial], ?_, ?_, ?_⟩
  · simp [traceBody, surfaceKernel, traceInit, sampleIntersection, sampleMaterial]
  · rw [vector_ext_iff]
    norm_num [calculateReflection, sampleRay, sampleIntersection]
  · rw [vector_ext_iff]
    norm_num [calculateRefraction, sampleRay, sampleIntersection, sampleMaterial]

/-- The witness of the amended C15: a hit on a material with the reflection coefficient
`1 / 2`, which takes the reflection branch. -/
theorem traceBody_policy_witness :
    traceBody (surfaceKernel (1 / 2) 1) sampleScene
        (traceInit (surfaceKernel (1 / 2) 1) (sampleIntersection (sampleMaterial 0 0)) sampleRay)
      = Flow.next
          { output := ⟨0, 0, 0⟩ + (1 : ℚ) * (⟨1, 1, 1⟩ : Colour ℚ),
            currentRefractiveIndex := 1,
            coef := 1 * (1 / 2),
            intersect := sampleIntersection (sampleMaterial (1 / 2) 1),
            viewRay := calculateReflection sampleRay
              (sampleIntersection (sampleMaterial (1 / 2) 1)) } :=
  (traceBody_policy (surfaceKernel (1 / 2) 1) sampleScene
    (traceInit (surfaceKernel (1 / 2) 1) (sampleIntersection (sampleMaterial 0 0)) sampleRay)
    (sampleIntersection (sampleMaterial (1 / 2) 1))
    (⟨0, 0, 0⟩ + (1 : ℚ) * (⟨1, 1, 1⟩ : Colour ℚ)) rfl rfl rfl).1
    (by norm_num [sampleIntersection, sampleMaterial])

/-! ## The kernel: the square roots of the refraction -/

section SqrtLemmas

variable {α : Type} [LinearOrderedField α]

/-- Every argument on which `calculateRefraction` calls `sqrtf` is positive. -/
theorem sqrtfArguments_pos (sqrtf : α → α) (viewProjection refractiveRatio : α) :
    ∀ x ∈ sqrtfArguments sqrtf viewProjection refractiveRatio, 0 < x := by
  intro x hx
  unfold sqrtfArguments at hx
  simp only [] at hx
  by_cases h1 : |viewProjection| ≥ 1
  · rw [if_pos h1] at hx
    simp at hx
  · rw [if_neg h1] at hx
    have hr1 : 0 < 1 - |viewProjection| * |viewProjection| := by
      have h0 := abs_nonneg viewProjection
      have h1' : |viewProjection| < 1 := lt_of_not_ge h1
      nlinarith
    by_cases h2 : refractiveRatio * sqrtf (1 - |viewProjection| * |viewProjection|)
        * (refractiveRatio * sqrtf (1 - |viewProjection| * |viewProjection|)) ≥ 1
    · rw [if_pos h2] at hx
      simp only [List.mem_singleton] at hx
      rw [hx]
      exact hr1
    · rw [if_neg h2] at hx
      simp only [List.mem_cons, List.mem_singleton, List.not_mem_nil, or_false] at hx
      rcases hx with hx | hx
      · rw [hx]
        exact hr1
      · rw [hx]
        have h2' := lt_of_not_ge h2
        linarith

/-- The first argument of `sqrtf`, when there is one. -/
theorem sqrtfArguments_first (sqrtf : α → α) (viewProjection refractiveRatio : α)
    (h1 : ¬ |viewProjection| ≥ 1) :
    1 - |viewProjection| * |viewProjection|
      ∈ sqrtfArguments sqrtf viewProjection refractiveRatio := by
  unfold sqrtfArguments
  simp only []
  rw [if_neg h1]
  by_cases h2 : refractiveRatio * sqrtf (1 - |viewProjection| * |viewProjection|)
      * (refractiveRatio * sqrtf (1 - |viewProjection| * |viewProjection|)) ≥ 1
  · rw [if_pos h2]
    exact List.mem_singleton_self _
  · rw [if_neg h2]
    exact List.mem_cons_self _ _

/-- The second argument of `sqrtf`, when there is one. -/
theorem sqrtfArguments_second (sqrtf : α → α) (viewProjection refractiveRatio : α)
    (h1 : ¬ |viewProjection| ≥ 1)
    (h2 : ¬ refractiveRatio * sqrtf (1 - |viewProjection| * |viewProjection|)
      * (refractiveRatio * sqrtf (1 - |viewProjection| * |viewProjection|)) ≥ 1) :
    1 - refractiveRatio * sqrtf (1 - |viewProjection| * |viewProjection|)
        * (refractiveRatio * sqrtf (1 - |viewProjection| * |viewProjection|))
      ∈ sqrtfArguments sqrtf viewProjection refractiveRatio := by
  unfold sqrtfArguments
  simp only []
  rw [if_neg h1, if_neg h2]
  exact List.mem_cons_of_mem _ (List.mem_singleton_self _)

/-- The result of `calculateRefraction` depends on `sqrtf` only through its values on
`sqrtfArguments`. -/
theorem calculateRefraction_congr (f g : α → α) (D : α) (viewRay : Ray α)
    (intersect : Intersection α) (cur : α)
    (h : ∀ x ∈ sqrtfArguments f intersect.viewProjection
        (cur / (if intersect.insideObject then D else intersect.material.density)),
      g x = f x) :
    calculateRefraction g D viewRay intersect cur
      = calculateRefraction f D viewRay intersect cur := by
  unfold calculateRefraction
  simp only []
  by_cases h1 : |intersect.viewProjection| ≥ 1
  · rw [if_pos h1, if_pos h1]
  · rw [if_neg h1, if_neg h1]
    have hg1 := h _ (sqrtfArguments_first f _ _ h1)
    rw [hg1]
    by_cases h2 : cur / (if intersect.insideObject then D else intersect.material.density)
        * f (1 - |intersect.viewProjection| * |intersect.viewProjection|)
        * (cur / (if intersect.insideObject then D else intersect.material.density)
        * f (1 - |intersect.viewProjection| * |intersect.viewProjection|)) ≥ 1
    · rw [if_pos h2, if_pos h2]
    · rw [if_neg h2, if_neg h2]
      have hg2 := h _ (sqrtfArguments_second f _ _ h1 h2)
      rw [hg2]

/-- Total internal reflection: when the branch that takes the square roots is entered and the
square of the sine is at least `1`, the cosine is taken as `0`. -/
theorem calculateRefraction_total_reflection (sqrtf : α → α) (D : α) (viewRay : Ray α)
    (intersect : Intersection α) (cur : α)
    (h1 : |intersect.viewProjection| < 1)
    (h2 : cur / (if intersect.insideObject then D else intersect.material.density)
        * sqrtf (1 - |intersect.viewProjection| * |intersect.viewProjection|)
        * (cur / (if intersect.insideObject then D else intersect.material.density)
        * sqrtf (1 - |intersect.viewProjection| * |intersect.viewProjection|)) ≥ 1) :
    (calculateRefraction sqrtf D viewRay intersect cur).1.dir
      = (viewRay.dir + intersect.normal * |intersect.viewProjection|)
          * (cur / (if intersect.insideObject then D else intersect.material.density))
        - intersect.normal * (0 : α) := by
  unfold calculateRefraction
  simp only []
  rw [if_neg (not_le.2 h1), if_pos h2]

end SqrtLemmas

/-- C17: let `sqrtf` be the square root on the numbers that are not negative, and anything on
the negative ones.  Every argument on which `calculateRefraction` calls `sqrtf` is positive
(`sqrtfArguments` lists them: the first is taken only when `|viewProjection| < 1`, the second
only when the square of the sine is below `1`), so the result is the one computed with the real
square root, and does not change when `sqrtf` is replaced by any function that agrees with it
on those arguments.  When `(refractiveRatio * sqrt (1 - cosI * cosI))` squared is at least `1`,
the cosine of the refracted angle is taken as `0`: the refracted direction is
`refractiveRatio * (d + n * cosI)`. -/
theorem calculateRefraction_sqrt_domain (sqrtf : ℝ → ℝ) (D : ℝ) (viewRay : Ray ℝ)
    (intersect : Intersection ℝ) (cur refractiveRatio cosI : ℝ)
    (hsqrtf : ∀ x, 0 ≤ x → sqrtf x = Real.sqrt x)
    (hratio : refractiveRatio
      = cur / (if intersect.insideObject then D else intersect.material.density))
    (hcosI : cosI = |intersect.viewProjection|) :
    (∀ x ∈ sqrtfArguments sqrtf intersect.viewProjection refractiveRatio, 0 < x) ∧
    (sqrtfArguments sqrtf intersect.viewProjection refractiveRatio ≠ [] → cosI < 1) ∧
    (1 - refractiveRatio * sqrtf (1 - cosI * cosI) * (refractiveRatio * sqrtf (1 - cosI * cosI))
        ∈ sqrtfArguments sqrtf intersect.viewProjection refractiveRatio →
      refractiveRatio * sqrtf (1 - cosI * cosI) * (refractiveRatio * sqrtf (1 - cosI * cosI))
        < 1) ∧
    calculateRefraction sqrtf D viewRay intersect cur
      = calculateRefraction Real.sqrt D viewRay intersect cur ∧
    (∀ g : ℝ → ℝ,
      (∀ x ∈ sqrtfArguments sqrtf intersect.viewProjection refractiveRatio, g x = sqrtf x) →
      calculateRefraction g D viewRay intersect cur
        = calculateRefraction sqrtf D viewRay intersect cur) ∧
    ((refractiveRatio * Real.sqrt (1 - cosI * cosI)) ^ 2 ≥ 1 →
      (calculateRefraction sqrtf D viewRay intersect cur).1.dir
        = ⟨refractiveRatio * (viewRay.dir.x + intersect.normal.x * cosI),
           refractiveRatio * (viewRay.dir.y + intersect.normal.y * cosI),
           refractiveRatio * (viewRay.dir.z + intersect.normal.z * cosI)⟩) := by
  subst hratio hcosI
  have hpos := sqrtfArguments_pos sqrtf intersect.viewProjection
    (cur / (if intersect.insideObject then D else intersect.material.density))
  refine ⟨hpos, ?_, ?_, ?_, ?_, ?_⟩
  · intro hne
    by_contra hge
    apply hne
    unfold sqrtfArguments
    simp only []
    rw [if_pos (not_lt.1 hge)]
  · intro hmem
    have := hpos _ hmem
    linarith
  · symm
    apply calculateRefraction_congr
    intro x hx
    exact (hsqrtf x (le_of_lt (hpos x hx))).symm
  · intro g hg
    exact calculateRefraction_congr sqrtf g D viewRay intersect cur hg
  · intro htir
    have h1 : |intersect.viewProjection| < 1 := by
      by_contra hge
      have hge' : 1 ≤ |intersect.viewProjection| := not_lt.1 hge
      have hrad : 1 - |intersect.viewProjection| * |intersect.viewProjection| ≤ 0 := by
        nlinarith
      rw [Real.sqrt_eq_zero_of_nonpos hrad] at htir
      norm_num at htir
    have hrad : 0 ≤ 1 - |intersect.viewProjection| * |intersect.viewProjection| := by
      have h0 := abs_nonneg intersect.viewProjection
      nlinarith
    have h2 : cur / (if intersect.insideObject then D else intersect.material.density)
        * sqrtf (1 - |intersect.viewProjection| * |intersect.viewProjection|)
        * (cur / (if intersect.insideObject then D else intersect.material.density)
        * sqrtf (1 - |intersect.viewProjection| * |intersect.viewProjection|)) ≥ 1 := by
      rw [hsqrtf _ hrad, ← sq]
      exact htir
    rw [calculateRefraction_total_reflection sqrtf D viewRay intersect cur h1 h2,
      vector_ext_iff]
    simp only [vector_sub_x, vector_sub_y, vector_sub_z, vector_scale_x, vector_scale_y,
      vector_scale_z, vector_add_x, vector_add_y, vector_add_z]
    refine ⟨by ring, by ring, by ring⟩

/-- The witness of C17: a ray that grazes the surface (`viewProjection = 0`) and leaves a
medium of index `2` for one of index `1` is totally reflected: the direction `(1, 0, 0)`
becomes `2 * ((1, 0, 0) + (0, 0, 1) * 0)`. -/
theorem calculateRefraction_sqrt_domain_witness :
    (calculateRefraction Real.sqrt 1 ({ start := ⟨0, 0, 0⟩, dir := ⟨1, 0, 0⟩ } : Ray ℝ)
      ({ pos := ⟨0, 0, 0⟩, normal := ⟨0, 0, 1⟩, viewProjection := 0, insideObject := true,
         material := { reflection := 0, refraction := 1, density := 2,
                       diffuse := ⟨0, 0, 0⟩ } } : Intersection ℝ) 2).1.dir
      = ⟨2 * (1 + 0 * 0), 2 * (0 + 0 * 0), 2 * (0 + 1 * 0)⟩ :=
  (calculateRefraction_sqrt_domain Real.sqrt 1
    ({ start := ⟨0, 0, 0⟩, dir := ⟨1, 0, 0⟩ } : Ray ℝ)
    ({ pos := ⟨0, 0, 0⟩, normal := ⟨0, 0, 1⟩, viewProjection := 0, insideObject := true,
       material := { reflection := 0, refraction := 1, density := 2,
                     diffuse := ⟨0, 0, 0⟩ } } : Intersection ℝ) 2 2 0
    (fun _ _ => rfl) (by norm_num) (by norm_num)).2.2.2.2.2
    (by norm_num)

/-! ## The kernel: opaque termination -/

section OpaqueLemmas

variable {α : Type} [LinearOrderedField α]

/-- Once `j` iterations have run without leaving the loop, the loop goes on from the state they
produced. -/
theorem traceLoop_stateAt (K : Kernel α) (scene : Scene α) (n : Nat) :
    ∀ (j : Nat) (s0 s : TraceState α), stateAt K scene j s0 = some s →
      traceLoop K scene (j + n) s0 = traceLoop K scene n s := by
  intro j
  induction j with
  | zero =>
    intro s0 s h
    simp only [stateAt, Option.some.injEq] at h
    rw [h, Nat.zero_add]
  | succ j ih =>
    intro s0 s h
    rw [Nat.add_right_comm]
    unfold stateAt at h
    have hstep : traceLoop K scene (j + n + 1) s0
        = (match traceBody K scene s0 with
          | Flow.next s' => traceLoop K scene (j + n) s'
          | Flow.brk s' => Sum.inl s'
          | Flow.ret output => Sum.inr output) := rfl
    rw [hstep]
    cases hb : traceBody K scene s0 with
    | next s' =>
      rw [hb] at h
      exact ih s' s h
    | brk s' =>
      rw [hb] at h
      simp at h
    | ret c =>
      rw [hb] at h
      simp at h

/-- A hit on an opaque material makes the loop body return the output. -/
theorem traceBody_opaque_hit (K : Kernel α) (scene : Scene α) (s : TraceState α)
    (hhit : (K.objectIntersection scene s.viewRay s.intersect).1 = true)
    (hrefl : (K.calculateIntersectionResponse scene s.viewRay
      (K.objectIntersection scene s.viewRay s.intersect).2).material.reflection = 0)
    (hrefr : (K.calculateIntersectionResponse scene s.viewRay
      (K.objectIntersection scene s.viewRay s.intersect).2).material.refraction = 0) :
    traceBody K scene s = Flow.ret
      (if (K.calculateIntersectionResponse scene s.viewRay
          (K.objectIntersection scene s.viewRay s.intersect).2).insideObject = false then
        s.output + s.coef * K.applyLighting scene s.viewRay
          (K.calculateIntersectionResponse scene s.viewRay
            (K.objectIntersection scene s.viewRay s.intersect).2)
      else s.output) := by
  have hhit' : ¬ (K.objectIntersection scene s.viewRay s.intersect).1 = false := by
    rw [hhit]
    simp
  unfold traceBody
  simp only []
  rw [if_neg hhit', if_neg (not_not.2 hrefl), if_neg (not_not.2 hrefr)]

/-- The state after one more iteration. -/
theorem stateAt_succ (K : Kernel α) (scene : Scene α) :
    ∀ (j : Nat) (s0 s : TraceState α), stateAt K scene j s0 = some s →
      stateAt K scene (j + 1) s0
        = (match traceBody K scene s with
          | Flow.next s' => some s'
          | Flow.brk _ => none
          | Flow.ret _ => none) := by
  intro j
  induction j with
  | zero =>
    intro s0 s h
    simp only [stateAt, Option.some.injEq] at h
    subst h
    unfold stateAt
    cases traceBody K scene s0 <;> rfl
  | succ j ih =>
    intro s0 s h
    have hstep : ∀ n, stateAt K scene (n + 1) s0
        = (match traceBody K scene s0 with
          | Flow.next s' => stateAt K scene n s'
          | Flow.brk _ => none
          | Flow.ret _ => none) := fun _ => rfl
    rw [hstep] at h
    rw [hstep (j + 1)]
    cases hb : traceBody K scene s0 with
    | next s' =>
      rw [hb] at h
      exact ih s' s h
    | brk s' =>
      rw [hb] at h
      simp at h
    | ret c =>
      rw [hb] at h
      simp at h

/-- When an iteration of the loop of `traceRay` falls through to the next one, the lighting of
the hit, scaled by `coef`, has been added to `output` unless the hit is inside an object. -/
theorem traceBody_next_output (K : Kernel α) (scene : Scene α) (s s' : TraceState α)
    (h : traceBody K scene s = Flow.next s') :
    s'.output
      = (if (K.calculateIntersectionResponse scene s.viewRay
          (K.objectIntersection scene s.viewRay s.intersect).2).insideObject = false then
        s.output + s.coef * K.applyLighting scene s.viewRay
          (K.calculateIntersectionResponse scene s.viewRay
            (K.objectIntersection scene s.viewRay s.intersect).2)
      else s.output) := by
  unfold traceBody at h
  simp only [] at h
  split_ifs at h <;> injection h with h <;> subst h <;> simp_all

/-- C16: when the iteration of level `j < MAX_RAYS_CAST` (entered with the state `s`) hits a
material whose reflection and refraction coefficients are both zero, `traceRay` returns the
output accumulated so far: `s.output`, plus `s.coef` times the lighting of this hit when the
hit is not inside an object.  No sky term is added, whatever `s.coef` is.  In particular, when
the first hit is such a hit and is not inside an object, the result is exactly what
`applyLighting` returns for it.  The output starts at black and each earlier iteration has
added to it `coef` times the lighting of its hit, unless that hit is inside an object. -/
theorem traceRay_opaque_hit (K : Kernel α) (intersect0 : Intersection α) (scene : Scene α)
    (viewRay : Ray α) (j : Nat) (s : TraceState α) (intersect : Intersection α)
    (hj : j < K.MAX_RAYS_CAST)
    (hs : stateAt K scene j (traceInit K intersect0 viewRay) = some s)
    (hhit : (K.objectIntersection scene s.viewRay s.intersect).1 = true)
    (hintersect : intersect = K.calculateIntersectionResponse scene s.viewRay
      (K.objectIntersection scene s.viewRay s.intersect).2)
    (hrefl : intersect.material.reflection = 0)
    (hrefr : intersect.material.refraction = 0) :
    traceRay K intersect0 scene viewRay
      = (if intersect.insideObject = false then
          s.output + s.coef * K.applyLighting scene s.viewRay intersect
        else s.output) ∧
    (j = 0 → intersect.insideObject = false →
      traceRay K intersect0 scene viewRay = K.applyLighting scene viewRay intersect) ∧
    (traceInit K intersect0 viewRay).output = ⟨0, 0, 0⟩ ∧
    (∀ (i : Nat) (si si' : TraceState α),
      stateAt K scene i (traceInit K intersect0 viewRay) = some si →
      stateAt K scene (i + 1) (traceInit K intersect0 viewRay) = some si' →
      si'.output
        = (if (K.calculateIntersectionResponse scene si.viewRay
            (K.objectIntersection scene si.viewRay si.intersect).2).insideObject = false then
          si.output + si.coef * K.applyLighting scene si.viewRay
            (K.calculateIntersectionResponse scene si.viewRay
              (K.objectIntersection scene si.viewRay si.intersect).2)
        else si.output)) := by
  subst hintersect
  have hloop : traceLoop K scene K.MAX_RAYS_CAST (traceInit K intersect0 viewRay)
      = Sum.inr (if (K.calculateIntersectionResponse scene s.viewRay
          (K.objectIntersection scene s.viewRay s.intersect).2).insideObject = false then
        s.output + s.coef * K.applyLighting scene s.viewRay
          (K.calculateIntersectionResponse scene s.viewRay
            (K.objectIntersection scene s.viewRay s.intersect).2)
      else s.output) := by
    obtain ⟨m, hm⟩ : ∃ m, K.MAX_RAYS_CAST = j + (m + 1) :=
      ⟨K.MAX_RAYS_CAST - j - 1, by omega⟩
    rw [hm, traceLoop_stateAt K scene (m + 1) j _ s hs]
    unfold traceLoop
    rw [traceBody_opaque_hit K scene s hhit hrefl hrefr]
  have hray : traceRay K intersect0 scene viewRay
      = (if (K.calculateIntersectionResponse scene s.viewRay
          (K.objectIntersection scene s.viewRay s.intersect).2).insideObject = false then
        s.output + s.coef * K.applyLighting scene s.viewRay
          (K.calculateIntersectionResponse scene s.viewRay
            (K.objectIntersection scene s.viewRay s.intersect).2)
      else s.output) := by
    unfold traceRay
    rw [hloop]
  refine ⟨hray, ?_, rfl, ?_⟩
  · intro hj0 hin
    subst hj0
    simp only [stateAt, Option.some.injEq] at hs
    subst hs
    rw [hray, if_pos hin]
    exact colour_black_add_one_mul _
  · intro i si si' hsi hsi'
    rw [stateAt_succ K scene i _ si hsi] at hsi'
    cases hb : traceBody K scene si with
    | next s' =>
      rw [hb] at hsi'
      simp only [Option.some.injEq] at hsi'
      subst hsi'
      exact traceBody_next_output K scene si s' hb
    | brk s' =>
      rw [hb] at hsi'
      simp at hsi'
    | ret c =>
      rw [hb] at hsi'
      simp at hsi'

end OpaqueLemmas

/-- The witness of C16: a ray that is reflected by the mirror (`coef` becomes `1 / 2`) and then
hits the opaque floor returns the two lighting terms `(1, 1, 1) + 1 / 2 * (1, 1, 1)` and no sky
term. -/
theorem traceRay_opaque_hit_witness :
    traceRay mirrorFloorKernel (sampleIntersection (sampleMaterial 0 0)) sampleScene sampleRay
      = (⟨3 / 2, 3 / 2, 3 / 2⟩ : Colour ℚ) := by
  have h := (traceRay_opaque_hit mirrorFloorKernel (sampleIntersection (sampleMaterial 0 0))
    sampleScene sampleRay 1
    { output := ⟨0, 0, 0⟩ + (1 : ℚ) * (⟨1, 1, 1⟩ : Colour ℚ),
      currentRefractiveIndex := 1,
      coef := 1 * (1 / 2),
      intersect := sampleIntersection (sampleMaterial (1 / 2) 0),
      viewRay := calculateReflection sampleRay
        (sampleIntersection (sampleMaterial (1 / 2) 0)) }
    (sampleIntersection (sampleMaterial 0 0))
    (by decide)
    (by
      simp [stateAt, traceBody, mirrorFloorKernel, traceInit, sampleIntersection,
        sampleMaterial, sampleRay])
    rfl
    (by
      norm_num [mirrorFloorKernel, calculateReflection, sampleRay, sampleIntersection,
        sampleMaterial])
    (by simp [sampleIntersection, sampleMaterial])
    (by simp [sampleIntersection, sampleMaterial])).1
  rw [h, colour_ext_iff]
  norm_num [sampleIntersection, mirrorFloorKernel]

/-! ## Stage1: the partition of an image of even dimensions -/

/-- The buffer index of a pixel of the image is its own, and its column and row are the
remainder and the quotient of the index by the width. -/
theorem pixelAt_index_col_row (W H j : Int) :
    (pixelAt W H j).index = j ∧
    (pixelAt W H j).x + W.tdiv 2 = j % W ∧
    (pixelAt W H j).y + H.tdiv 2 = j / W := by
  unfold pixelAt
  refine ⟨rfl, ?_, ?_⟩
  · simp
  · simp

/-- The buffer indices of a run of pixels. -/
theorem map_pixelAt_index (W H : Int) (l : List Int) :
    (l.map (pixelAt W H)).map Write.index = l := by
  rw [List.map_map]
  induction l with
  | nil => rfl
  | cons a l ih =>
    rw [List.map_cons, ih]
    rfl

/-- C18: on an image of even width `w ≥ 2` and even height `h` with `1 ≤ T ≤ h` threads (so
`h ≥ 2`), write `hb = h / T`, `wb = w / T` and `s_k = hb * k * w + wb * k`.  Thread `k` writes
the pixels of the buffer indices `s_k, ..., s_(k+1) - 1` in this order, where the boundary after
the last thread is `w * h`; a thread that is not the last writes exactly `hb * w + wb` pixels;
the pixel written at index `i` is that of column `i mod w` and row `i div w`; and the writes of
the threads, one thread after the other, are the whole image, each index once. -/
theorem stage1_even_partition (w h T k : Nat) (hw : w % 2 = 0) (hh : h % 2 = 0)
    (hw2 : 2 ≤ w) (hT : 1 ≤ T) (hTh : T ≤ h) (hk : k < T) :
    Stage1.render (w : Int) (h : Int) (k : Int) (T : Int)
      = (forRange (Stage1.boundary w h T k) (Stage1.boundary w h T (k + 1))).map
          (pixelAt w h) ∧
    (Stage1.render (w : Int) (h : Int) (k : Int) (T : Int)).map Write.index
      = forRange (Stage1.boundary w h T k) (Stage1.boundary w h T (k + 1)) ∧
    Stage1.boundary w h T k = h / T * k * w + w / T * k ∧
    Stage1.boundary w h T k ≤ Stage1.boundary w h T (k + 1) ∧
    (k + 1 < T →
      Stage1.boundary w h T (k + 1) = h / T * (k + 1) * w + w / T * (k + 1) ∧
      (Stage1.render (w : Int) (h : Int) (k : Int) (T : Int)).length = h / T * w + w / T) ∧
    (k + 1 = T → Stage1.boundary w h T (k + 1) = w * h) ∧
    (∀ p ∈ Stage1.render (w : Int) (h : Int) (k : Int) (T : Int),
      p.x + (w : Int).tdiv 2 = p.index % w ∧ p.y + (h : Int).tdiv 2 = p.index / w) ∧
    (List.range T).flatMap (fun j => Stage1.render (w : Int) (h : Int) (j : Int) (T : Int))
      = fullImage w h ∧
    ((List.range T).flatMap
      (fun j => Stage1.render (w : Int) (h : Int) (j : Int) (T : Int))).map Write.index
      = (List.range (w * h)).map (fun (j : Nat) => (j : Int)) := by
  obtain ⟨hrun, hle⟩ := Stage1.renderRun_boundary w h T k hw hh hw2 hTh hk
  have hrender : Stage1.render (w : Int) (h : Int) (k : Int) (T : Int)
      = (forRange (Stage1.boundary w h T k) (Stage1.boundary w h T (k + 1))).map
          (pixelAt w h) := by
    unfold Stage1.render
    rw [hrun]
  have hbk : Stage1.boundary w h T k = h / T * k * w + w / T * k := by
    unfold Stage1.boundary
    rw [if_pos hk]
  have hall : (List.range T).flatMap
      (fun j => Stage1.render (w : Int) (h : Int) (j : Int) (T : Int)) = fullImage w h := by
    rw [Stage1.flatMap_render_boundary w h T hw hh hw2 hT hTh T (le_refl T)]
    have hTT : Stage1.boundary w h T T = w * h := by
      unfold Stage1.boundary
      rw [if_neg (lt_irrefl T)]
    rw [hTT]
    exact forRange_map_pixelAt w h
  refine ⟨hrender, ?_, hbk, hle, ?_, ?_, ?_, hall, ?_⟩
  · rw [hrender, map_pixelAt_index]
  · intro hk1
    have hbk1 : Stage1.boundary w h T (k + 1) = h / T * (k + 1) * w + w / T * (k + 1) := by
      unfold Stage1.boundary
      rw [if_pos hk1]
    refine ⟨hbk1, ?_⟩
    rw [hrender, List.length_map, length_forRange]
    have e : Stage1.boundary w h T (k + 1) = Stage1.boundary w h T k + (h / T * w + w / T) := by
      rw [hbk, hbk1]
      ring
    rw [e]
    push_cast
    rw [add_sub_cancel_left]
    exact Int.toNat_ofNat _
  · intro hk1
    unfold Stage1.boundary
    rw [if_neg (by omega)]
  · intro p hp
    rw [hrender, List.mem_map] at hp
    obtain ⟨j, _, hj⟩ := hp
    obtain ⟨h1, h2, h3⟩ := pixelAt_index_col_row (w : Int) (h : Int) j
    rw [← hj, h1]
    exact ⟨h2, h3⟩
  · rw [hall]
    exact fullImage_index w h

/-- The witness of C18: thread 1 of 3 on a 6 by 4 image writes the `1 * 6 + 2 = 8` pixels of
the indices 8 to 15. -/
theorem stage1_even_partition_witness :
    (Stage1.render ((6 : Nat) : Int) ((4 : Nat) : Int) ((1 : Nat) : Int)
      ((3 : Nat) : Int)).map Write.index = [8, 9, 10, 11, 12, 13, 14, 15] ∧
    (Stage1.render ((6 : Nat) : Int) ((4 : Nat) : Int) ((1 : Nat) : Int)
      ((3 : Nat) : Int)).length = 4 / 3 * 6 + 6 / 3 :=
  ⟨(stage1_even_partition 6 4 3 1 (by decide) (by decide) (by decide) (by decide)
      (by decide) (by decide)).2.1.trans (by decide),
    ((stage1_even_partition 6 4 3 1 (by decide) (by decide) (by decide) (by decide)
      (by decide) (by decide)).2.2.2.2.1 (by decide)).2⟩

/-! ## Stage3: the guard of the body of the loop -/

namespace Stage3

/-- The body of the loop of `render`, with the values that its locals hold at the guard. -/
theorem renderBlock_guard (W H B i : Int) :
    renderBlock W H B i
      = if endHeightAt W H B i * endWidthAt W B i > W * H then some ([], true)
        else doWhile W H B (decide (startWidthAt W B i + B > W)) doWhileFuel
          { startWidth := startWidthAt W B i, endWidth := endWidthAt W B i,
            startHeight := startHeightAt W B i, endHeight := endHeightAt W H B i,
            out := B * i - W * (B * i).tdiv W + B * W * (B * i).tdiv W } := rfl

/-- The column at which block `i` starts lies inside the image, and its row band does not start
above the image. -/
theorem start_bounds (W B i : Int) (hW : 0 < W) (hB : 0 < B) (hi : 0 ≤ i) :
    0 ≤ startWidthAt W B i ∧ startWidthAt W B i < W ∧ 0 ≤ startHeightAt W B i := by
  obtain ⟨hb, hc0, hcW, _⟩ := block_decomposition W B i hW hB hi
  have hBi : 0 ≤ B * i := mul_nonneg (le_of_lt hB) hi
  have hdiv : (B * i).tdiv W = B * i / W := Int.tdiv_eq_ediv hBi (le_of_lt hW)
  have hsw : startWidthAt W B i = B * i % W := by
    unfold startWidthAt
    rw [hdiv, Int.emod_def]
  refine ⟨by rw [hsw]; exact hc0, by rw [hsw]; exact hcW, ?_⟩
  unfold startHeightAt
  rw [hdiv]
  exact mul_nonneg hb (le_of_lt hB)

/-- The clipped values at the guard. -/
theorem end_bounds (W H B i : Int) (hW : 0 < W) (hH : 0 < H) (hB : 0 < B) (hi : 0 ≤ i) :
    0 < endWidthAt W B i ∧ endWidthAt W B i ≤ W ∧
    0 < endHeightAt W H B i ∧ endHeightAt W H B i ≤ H := by
  obtain ⟨h1, h2, h3⟩ := start_bounds W B i hW hB hi
  unfold endWidthAt endHeightAt
  refine ⟨?_, ?_, ?_, ?_⟩
  · split_ifs <;> omega
  · split_ifs <;> omega
  · split_ifs <;> omega
  · split_ifs <;> omega

/-- The guard of line 184 does not fire. -/
theorem guard_false (W H B i : Int) (hW : 0 < W) (hH : 0 < H) (hB : 0 < B) (hi : 0 ≤ i) :
    endHeightAt W H B i * endWidthAt W B i ≤ W * H := by
  obtain ⟨h1, h2, h3, h4⟩ := end_bounds W H B i hW hH hB hi
  calc endHeightAt W H B i * endWidthAt W B i
      ≤ H * W := mul_le_mul h4 h2 (le_of_lt h1) (le_of_lt hH)
    _ = W * H := mul_comm _ _

/-- The body of the loop is left by a `return` only at the wraparound exit: the block crosses
the right edge, does not start at column 0, and the next row band starts beyond the image. -/
theorem doWhile_true (W H B : Int) (overLap : Bool) (s : BlockState) (ws : List Write)
    (h : doWhile W H B overLap doWhileFuel s = some (ws, true)) :
    overLap = true ∧ s.startWidth ≠ 0 ∧ s.startHeight + B > H := by
  rw [doWhile_two] at h
  by_cases ho : overLap = true
  · rw [if_pos ho] at h
    by_cases h0 : s.startWidth = 0
    · rw [if_pos h0] at h
      simp at h
    · rw [if_neg h0] at h
      by_cases hs : s.startHeight + B > H
      · exact ⟨ho, h0, hs⟩
      · rw [if_neg hs] at h
        simp at h
  · rw [if_neg ho] at h
    simp at h

end Stage3

/-- C19: for every width, height and block size that are at least 1 and every claimed block
`i ≥ 0`, the values at the guard of line 184 satisfy `0 < endWidth ≤ width` and
`0 < endHeight ≤ height`, so `endHeight * endWidth ≤ width * height`: the `return` of the guard
is not taken and the body goes on to the `do ... while` loop.  The body is left by a `return`
only at the wraparound exit (the block crosses the right edge, does not start at column 0, and
`startHeight + blockSize > height`); so a worker that leaves `render` in a turn does so because
the cursor test failed or at the wraparound exit of the block it claimed. -/
theorem stage3_guard_unreachable (w h bs i : Nat) (hw : 1 ≤ w) (hh : 1 ≤ h) (hbs : 1 ≤ bs) :
    0 < Stage3.endWidthAt w bs i ∧ Stage3.endWidthAt w bs i ≤ w ∧
    0 < Stage3.endHeightAt w h bs i ∧ Stage3.endHeightAt w h bs i ≤ h ∧
    Stage3.endHeightAt w h bs i * Stage3.endWidthAt w bs i ≤ (w : Int) * h ∧
    Stage3.renderBlock w h bs i
      = (if Stage3.endHeightAt w h bs i * Stage3.endWidthAt w bs i > (w : Int) * h then
          some ([], true)
        else Stage3.doWhile w h bs (decide (Stage3.startWidthAt w bs i + bs > w))
          Stage3.doWhileFuel
          { startWidth := Stage3.startWidthAt w bs i, endWidth := Stage3.endWidthAt w bs i,
            startHeight := Stage3.startHeightAt w bs i,
            endHeight := Stage3.endHeightAt w h bs i,
            out := (bs : Int) * i - w * ((bs : Int) * i).tdiv w
              + bs * w * ((bs : Int) * i).tdiv w }) ∧
    Stage3.renderBlock w h bs i
      = Stage3.doWhile w h bs (decide (Stage3.startWidthAt w bs i + bs > w))
          Stage3.doWhileFuel
          { startWidth := Stage3.startWidthAt w bs i, endWidth := Stage3.endWidthAt w bs i,
            startHeight := Stage3.startHeightAt w bs i,
            endHeight := Stage3.endHeightAt w h bs i,
            out := (bs : Int) * i - w * ((bs : Int) * i).tdiv w
              + bs * w * ((bs : Int) * i).tdiv w } ∧
    (∀ ws, Stage3.renderBlock w h bs i = some (ws, true) →
      Stage3.startWidthAt w bs i + bs > w ∧ Stage3.startWidthAt w bs i ≠ 0 ∧
      Stage3.startHeightAt w bs i + bs > h) ∧
    (∀ (threads : Nat) (p : Pool) (t : Nat), t ∉ p.exited →
      t ∈ (Stage3.step w h bs threads p t).exited →
      ¬ interlockedIncrement p.lineCount < toUnsigned (Stage3.times w h bs) ∨
      (Stage3.startWidthAt w bs (interlockedIncrement p.lineCount : Nat) + bs > w ∧
        Stage3.startWidthAt w bs (interlockedIncrement p.lineCount : Nat) ≠ 0 ∧
        Stage3.startHeightAt w bs (interlockedIncrement p.lineCount : Nat) + bs > h)) := by
  have hW : (0 : Int) < w := by exact_mod_cast hw
  have hH : (0 : Int) < h := by exact_mod_cast hh
  have hB : (0 : Int) < bs := by exact_mod_cast hbs
  have hbody : ∀ j : Nat, Stage3.renderBlock w h bs j
      = Stage3.doWhile w h bs (decide (Stage3.startWidthAt w bs j + bs > w))
          Stage3.doWhileFuel
          { startWidth := Stage3.startWidthAt w bs j, endWidth := Stage3.endWidthAt w bs j,
            startHeight := Stage3.startHeightAt w bs j,
            endHeight := Stage3.endHeightAt w h bs j,
            out := (bs : Int) * j - w * ((bs : Int) * j).tdiv w
              + bs * w * ((bs : Int) * j).tdiv w } := by
    intro j
    rw [Stage3.renderBlock_guard,
      if_neg (not_lt.2 (Stage3.guard_false w h bs j hW hH hB (Int.ofNat_nonneg j)))]
  have hret : ∀ (j : Nat) (ws : List Write), Stage3.renderBlock w h bs j = some (ws, true) →
      Stage3.startWidthAt w bs j + bs > w ∧ Stage3.startWidthAt w bs j ≠ 0 ∧
      Stage3.startHeightAt w bs j + bs > h := by
    intro j ws hws
    rw [hbody j] at hws
    obtain ⟨h1, h2, h3⟩ := Stage3.doWhile_true _ _ _ _ _ ws hws
    exact ⟨of_decide_eq_true h1, h2, h3⟩
  obtain ⟨h1, h2, h3, h4⟩ := Stage3.end_bounds w h bs i hW hH hB (Int.ofNat_nonneg i)
  refine ⟨h1, h2, h3, h4, Stage3.guard_false w h bs i hW hH hB (Int.ofNat_nonneg i),
    Stage3.renderBlock_guard w h bs i, hbody i, hret i, ?_⟩
  intro threads p t hnot hin
  by_cases hrun : t < threads ∧ t ∉ p.exited
  · by_cases hlt : interlockedIncrement p.lineCount < toUnsigned (Stage3.times w h bs)
    · right
      cases hrb : Stage3.renderBlock w h bs ((interlockedIncrement p.lineCount : Nat) : Int) with
      | none =>
        have := Stage3.renderBlock_isSome (w : Int) h bs
          ((interlockedIncrement p.lineCount : Nat) : Int)
        rw [hrb] at this
        simp at this
      | some q =>
        obtain ⟨ws, returned⟩ := q
        rw [Stage3.step_block w h bs threads p t hrun hlt ws returned hrb] at hin
        simp only [] at hin
        cases returned with
        | false =>
          simp only [Bool.false_eq_true, if_false] at hin
          exact absurd hin hnot
        | true => exact hret _ ws hrb
    · left
      exact hlt
  · rw [Stage3.block_step_idle w h bs threads p t hrun] at hin
    exact absurd hin hnot

/-- The witness of C19: block 3 of a 100 by 100 image cut in blocks of 30 crosses the right
edge: at the guard `endWidth = 100` and `endHeight = 30`, and the body is not left by a
`return`. -/
theorem stage3_guard_unreachable_witness :
    Stage3.endWidthAt ((100 : Nat) : Int) ((30 : Nat) : Int) ((3 : Nat) : Int) = 100 ∧
    Stage3.endHeightAt ((100 : Nat) : Int) ((100 : Nat) : Int) ((30 : Nat) : Int)
      ((3 : Nat) : Int) = 30 ∧
    Stage3.endHeightAt ((100 : Nat) : Int) ((100 : Nat) : Int) ((30 : Nat) : Int)
        ((3 : Nat) : Int)
      * Stage3.endWidthAt ((100 : Nat) : Int) ((30 : Nat) : Int) ((3 : Nat) : Int)
      ≤ ((100 : Nat) : Int) * ((100 : Nat) : Int) :=
  ⟨by decide, by decide,
    (stage3_guard_unreachable 100 100 30 3 (by decide) (by decide) (by decide)).2.2.2.2.1⟩

end RayTracer
